import Mathlib

/-!
Verification of conflux: the linear-system solver of `matrix.go` and the node
parser of `cmd/sks-dump-ptree/main.go`.

A shallow embedding of the Go code.  Go's in-place mutation of a `*Matrix`
becomes explicit state passing; a Go run-time panic (slice index out of range,
inverse of zero) is the `Except.error` branch of the result, and a returned Go
`error` value is an `Option Error` next to the final state.
-/

/-- Square matrices of size `n` over `R`, in the sense of Mathlib. -/
abbrev SqMat (n : Nat) (R : Type) : Type := Matrix (Fin n) (Fin n) R

namespace Conflux

/-- Run-time panics of the Go program. -/
inductive Panic where
  | indexOutOfRange
  | divisionByZero
  | negativeLength
  deriving DecidableEq, Repr

/-- The `error` values declared in `matrix.go`. -/
inductive Error where
  | MatrixTooNarrow
  | SwapRowNotFound
  deriving DecidableEq, Repr

deriving instance DecidableEq for Except

/-! ## Field elements

`zp.go` is not among the sources.  A field element is represented by its value,
a natural number below the modulus `P`; the modulus shared by all the elements
of one computation (spec §3) is a parameter of every operation. -/

namespace Zp

/-- Modelled from the spec: `isZero(a) -> bool` of the field element type, whose
source file `zp.go` is missing. -/
def IsZero (v : Nat) : Bool := v == 0

/-- Modelled from the spec: `toSmallInt(a) -> integer` of the missing `zp.go`,
the `Int64()` method that `Zp` inherits from its embedded `*big.Int`.  It is
the value itself when that fits a signed 64-bit word; for larger values Go
keeps the low 64 bits of the magnitude, read as a two's complement word. -/
def Int64 (v : Nat) : Int :=
  if v % 2 ^ 64 < 2 ^ 63 then ((v % 2 ^ 64 : Nat) : Int)
  else ((v % 2 ^ 64 : Nat) : Int) - 2 ^ 64

/-- Modelled from the spec: `mul(a, b) -> (a*b) mod P` of the missing `zp.go`. -/
def Mul (P x y : Nat) : Nat := (x * y) % P

/-- Modelled from the spec: `sub(a, b) -> (a-b) mod P` of the missing `zp.go`,
the representative in `[0, P)`. -/
def Sub (P x y : Nat) : Nat := (((x : Int) - (y : Int)) % (P : Int)).toNat

/-- Modelled from the spec: `inverse(a)` of the missing `zp.go`: `a^-1 mod P`
(for a prime modulus the power `a^(P-2)`), failing with a division by zero on
the zero element. -/
def Inv (P x : Nat) : Except Panic Nat :=
  if x % P = 0 then .error .divisionByZero else .ok ((x ^ (P - 2)) % P)

/-- Modelled from the spec: the explicit-value constructor `Zi(P, n)` of the
missing `zp.go`, the reduced representative of the integer `n`. -/
def Zi (P : Nat) (n : Int) : Nat := (n % (P : Int)).toNat

end Zp

/-! ## Loops -/

/-- `for i := lo; ...; i++ { body }` run for `n` iterations from `i = lo`. -/
def loopUp {σ : Type} (body : Nat → σ → Except Panic σ) : Nat → Nat → σ → Except Panic σ
  | 0, _, s => .ok s
  | n + 1, i, s =>
    match body i s with
    | .error e => .error e
    | .ok s' => loopUp body n (i + 1) s'

/-- `for j := lo + n - 1; j >= lo; j-- { body }`. -/
def loopDown {σ : Type} (body : Nat → σ → Except Panic σ) (lo : Nat) : Nat → σ → Except Panic σ
  | 0, s => .ok s
  | n + 1, s =>
    match body (lo + n) s with
    | .error e => .error e
    | .ok s' => loopDown body lo n s'

/-! ## Matrix -/

/-- `type Matrix struct { columns, rows int; cells []*Zp }`. -/
structure Matrix where
  columns : Nat
  rows : Nat
  cells : List Nat
  deriving DecidableEq, Repr

/-- Go's `a * b` at type `int` (64 bits, two's complement): the product wraps
silently. -/
def mulInt (a b : Int) : Int := (a * b + 2 ^ 63) % 2 ^ 64 - 2 ^ 63

/-- `NewMatrix(columns, rows, x)` for dimensions that are not negative:
`make([]*Zp, columns*rows)`, the product taken at Go's `int`, then every cell
set to a copy of `x`.  `make` panics on a negative length; an allocation that
the runtime refuses for its size is not modelled. -/
def NewMatrix (columns rows : Nat) (x : Nat) : Except Panic Matrix :=
  if mulInt columns rows < 0 then .error .negativeLength
  else .ok { columns := columns, rows := rows,
             cells := List.replicate (mulInt columns rows).toNat x }

namespace Matrix

/-- Read of `m.cells[k]`. -/
def load (m : Matrix) (k : Nat) : Except Panic Nat :=
  match m.cells[k]? with
  | some v => .ok v
  | none => .error .indexOutOfRange

/-- Write of `m.cells[k]`, also the in-place mutation of the element that
`m.cells[k]` points to. -/
def store (m : Matrix) (k : Nat) (x : Nat) : Except Panic Matrix :=
  if k < m.cells.length then .ok { m with cells := m.cells.set k x }
  else .error .indexOutOfRange

/-- `m.Get(i, j)`: `m.cells[i+(j*m.columns)]`. -/
def Get (m : Matrix) (i j : Nat) : Except Panic Nat :=
  m.load (i + (j * m.columns))

/-- `m.Set(i, j, x)`: `m.cells[i+(j*m.columns)] = x.Copy()`. -/
def Set (m : Matrix) (i j : Nat) (x : Nat) : Except Panic Matrix :=
  m.store (i + (j * m.columns)) x

/-- Body of the loop of `swapRows`: the parallel assignment
`m.cells[start1+i], m.cells[start2+i] = m.cells[start2+i], m.cells[start1+i]`. -/
def swapRowsBody (start1 start2 : Nat) (i : Nat) (m : Matrix) : Except Panic Matrix := do
  let a ← m.load (start2 + i)
  let b ← m.load (start1 + i)
  let m1 ← m.store (start1 + i) a
  m1.store (start2 + i) b

/-- `m.swapRows(j1, j2)`. -/
def swapRows (m : Matrix) (j1 j2 : Nat) : Except Panic Matrix :=
  let start1 := j1 * m.columns
  let start2 := j2 * m.columns
  loopUp (swapRowsBody start1 start2) m.columns 0 m

/-- Body of the loop of `scmultRow`: `v := m.cells[start+i]; v.Mul(v, sc)`. -/
def scmultRowBody (P : Nat) (start sc : Nat) (i : Nat) (m : Matrix) : Except Panic Matrix := do
  let v ← m.load (start + i)
  m.store (start + i) (Zp.Mul P v sc)

/-- `m.scmultRow(scol, j, sc)`. -/
def scmultRow (P : Nat) (m : Matrix) (scol j : Nat) (sc : Nat) : Except Panic Matrix :=
  let start := j * m.columns
  loopUp (scmultRowBody P start sc) (m.columns - scol) scol m

/-- Body of the loop of `rowsub`. -/
def rowsubBody (P : Nat) (src dst scmult : Nat) (i : Nat) (m : Matrix) : Except Panic Matrix := do
  let sval ← m.Get i src
  if !Zp.IsZero sval then
    let v ← m.Get i dst
    if Zp.Int64 scmult != 1 then
      m.Set i dst (Zp.Sub P v (Zp.Mul P sval scmult))
    else
      m.Set i dst (Zp.Sub P v sval)
  else
    pure m

/-- `m.rowsub(scol, src, dst, scmult)`. -/
def rowsub (P : Nat) (m : Matrix) (scol src dst : Nat) (scmult : Nat) : Except Panic Matrix :=
  loopUp (rowsubBody P src dst scmult) (m.columns - scol) scol m

/-- The scan `for jf := j + 1; jf < m.rows; jf++` of `processRowForward`, with
its `break`; `none` stands for `jswap == -1`. -/
def findSwap (m : Matrix) (j : Nat) : Nat → Nat → Except Panic (Option Nat)
  | 0, _ => .ok none
  | n + 1, jf =>
    match m.Get j jf with
    | .error e => .error e
    | .ok x => if !Zp.IsZero x then .ok (some jf) else findSwap m j n (jf + 1)

/-- Body of the elimination loop of `processRowForward`:
`m.rowsub(j, j, j2, m.Get(j, j2).Copy())`. -/
def eliminateBody (P : Nat) (j : Nat) (j2 : Nat) (m : Matrix) : Except Panic Matrix := do
  let s ← m.Get j j2
  m.rowsub P j j j2 s

/-- The part of `processRowForward` after the pivot search: normalise the
pivot row and eliminate the pivot column from the rows below. -/
def normalizeAndEliminate (P : Nat) (m : Matrix) (j : Nat) (v : Nat) :
    Except Panic (Option Error × Matrix) := do
  let m1 ← if Zp.Int64 v != 1 then do
      let sc ← Zp.Inv P v
      m.scmultRow P j j sc
    else pure m
  let m2 ← loopUp (eliminateBody P j) (m1.rows - (j + 1)) (j + 1) m1
  pure (none, m2)

/-- `m.processRowForward(j)`. -/
def processRowForward (P : Nat) (m : Matrix) (j : Nat) : Except Panic (Option Error × Matrix) := do
  let v ← m.Get j j
  if Zp.IsZero v then
    let jswap ← findSwap m j (m.rows - (j + 1)) (j + 1)
    match jswap with
    | none => pure (none, m)
    | some jf =>
      let m1 ← m.swapRows j jf
      let v1 ← m1.Get j j
      normalizeAndEliminate P m1 j v1
  else
    normalizeAndEliminate P m j v

/-- Body of the loop of `backSubstitute`. -/
def backSubstituteBody (P : Nat) (last j : Nat) (j2 : Nat) (m : Matrix) : Except Panic Matrix := do
  let scmult ← m.Get j j2
  let m1 ← m.rowsub P last j j2 scmult
  m1.Set j j2 (Zp.Zi P 0)

/-- `m.backSubstitute(j)`. -/
def backSubstitute (P : Nat) (m : Matrix) (j : Nat) : Except Panic Matrix := do
  let d ← m.Get j j
  if Zp.Int64 d == 1 then
    let last := m.rows - 1
    loopDown (backSubstituteBody P last j) 0 j m
  else
    pure m

/-- The first loop of `Reduce`: `processRowForward(j)` for `n` values of `j`,
returning at the first error. -/
def forwardLoop (P : Nat) : Nat → Nat → Matrix → Except Panic (Option Error × Matrix)
  | 0, _, m => .ok (none, m)
  | n + 1, j, m =>
    match processRowForward P m j with
    | .error e => .error e
    | .ok (some err, m') => .ok (some err, m')
    | .ok (none, m') => forwardLoop P n (j + 1) m'

/-- `m.Reduce()`: the returned error and the matrix as the call leaves it. -/
def Reduce (P : Nat) (m : Matrix) : Except Panic (Option Error × Matrix) :=
  if m.columns < m.rows then .ok (some Error.MatrixTooNarrow, m)
  else
    match forwardLoop P m.rows 0 m with
    | .error e => .error e
    | .ok (some err, m') => .ok (some err, m')
    | .ok (none, m') =>
      match loopDown (fun j s => backSubstitute P s j) 1 (m'.rows - 1) m' with
      | .error e => .error e
      | .ok m'' => .ok (none, m'')

end Matrix

namespace Matrix

/-- The store has exactly `columns * rows` cells, as `NewMatrix` builds it when
the product does not overflow. -/
def WF (m : Matrix) : Prop := m.cells.length = m.columns * m.rows

instance (m : Matrix) : Decidable m.WF := by unfold WF; infer_instance

/-- Every cell holds a reduced representative, a value below the modulus. -/
def Reduced (P : Nat) (m : Matrix) : Prop := ∀ x ∈ m.cells, x < P

instance (P : Nat) (m : Matrix) : Decidable (m.Reduced P) := by unfold Reduced; infer_instance

/-- The value of cell (column `i`, row `j`); `0` outside the grid. -/
def cell (m : Matrix) (i j : Nat) : Nat :=
  if i < m.columns ∧ j < m.rows then m.cells.getD (i + j * m.columns) 0 else 0

/-- The value `rowsub` leaves in a destination cell holding `v`, for the source
value `sval` and the multiplier `s`. -/
def subCell (P s sval v : Nat) : Nat :=
  if !Zp.IsZero sval then
    (if Zp.Int64 s != 1 then Zp.Sub P v (Zp.Mul P sval s) else Zp.Sub P v sval)
  else v

/-- Cell values after an exchange of the rows `j` and `r`. -/
def swapped (f : Nat → Nat → Nat) (j r : Nat) : Nat → Nat → Nat :=
  fun a b => if b = j then f a r else if b = r then f a j else f a b

/-- Cell values after the normalisation step of `processRowForward(j)` on a grid
of `c` columns: when `Int64` of the pivot is not 1, row `j` is multiplied by
the inverse of the pivot from column `j` on. -/
def pivotScaled (P c : Nat) (f : Nat → Nat → Nat) (j : Nat) : Nat → Nat → Nat :=
  fun a b =>
    if Zp.Int64 (f j j) != 1 then
      (if b = j ∧ j ≤ a ∧ a < c then Zp.Mul P (f a j) ((f j j) ^ (P - 2) % P) else f a b)
    else f a b

/-- Cell values after the elimination loop of `processRowForward(j)` on a grid
of `c` columns and `n` rows. -/
def eliminated (P c n : Nat) (g : Nat → Nat → Nat) (j : Nat) : Nat → Nat → Nat :=
  fun a b =>
    if j < b ∧ b < n ∧ j ≤ a ∧ a < c then subCell P (g j b) (g a j) (g a b) else g a b

/-- Cell values after the loop of `backSubstitute(j)` on a grid of `c` columns,
with `last = rows - 1`: in every row `b < j` the cells from column `last` on
get the source row subtracted and cell `(j, b)` is set to zero. -/
def backSubstituted (P c last : Nat) (g : Nat → Nat → Nat) (j : Nat) : Nat → Nat → Nat :=
  fun a b =>
    if b < j then
      (if a = j then 0
       else if last ≤ a ∧ a < c then subCell P (g j b) (g a j) (g a b) else g a b)
    else g a b

/-- The test against one through `Int64` is right on `v`: `v.Int64() == 1` only
when `v` is one.  It is so for every `v < 2^64`. -/
def Exact64 (v : Nat) : Prop := Zp.Int64 v = 1 → v = 1

instance (v : Nat) : Decidable (Exact64 v) := by unfold Exact64; infer_instance

/-- The tests against one through `Int64` are right all through `Reduce` on `m`:
no state of its forward loop, the last one included, holds in the left square
block a value other than 1 whose low 64 bits are those of 1.  The values that
`Reduce` tests, pivots and multipliers, are cells of that block in these
states. -/
def TestsExact (P : Nat) (m : Matrix) : Prop :=
  ∀ k mk, k ≤ m.rows → forwardLoop P k 0 m = .ok (none, mk) →
    ∀ a, a < m.rows → ∀ b, b < m.rows → Exact64 (mk.cell a b)

/-- Every value of the grid `f` is a reduced representative. -/
def Red (P : Nat) (f : Nat → Nat → Nat) : Prop := ∀ a b, f a b < P

/-- The grid `f` is zero below the diagonal in the columns left of `j`. -/
def LowerZero (f : Nat → Nat → Nat) (j : Nat) : Prop := ∀ a b, a < j → a < b → f a b = 0

/-- The grid `f` is zero outside `c` columns and `n` rows. -/
def Within (c n : Nat) (f : Nat → Nat → Nat) : Prop :=
  ∀ a b, c ≤ a ∨ n ≤ b → f a b = 0

/-- The vector `w` is orthogonal over `Z_P` to each of the `n` rows of the grid
`f` of `c` columns.  With `c = n + 1` and `w = (x, -1)` this says that `x`
solves the system `A·x = b` that the augmented matrix `[A|b]` encodes. -/
def Ortho (P c n : Nat) (f : Nat → Nat → Nat) (w : Nat → ZMod P) : Prop :=
  ∀ b, b < n → ∑ a in Finset.range c, (f a b : ZMod P) * w a = 0

/-- Cell values after a forward step `processRowForward(j)` that found its pivot
in row `r`: rows exchanged, pivot row normalised, pivot column eliminated. -/
def stepped (P c n : Nat) (f : Nat → Nat → Nat) (j r : Nat) : Nat → Nat → Nat :=
  eliminated P c n (pivotScaled P c (swapped f j r) j) j

/-- The left square block of a grid of `n` rows as a matrix over `Z_P`: the entry
in row `b` and column `a` is the cell in column `a` of row `b`. -/
def squarePart (P n : Nat) (f : Nat → Nat → Nat) : SqMat n (ZMod P) :=
  fun b a => (f a.val b.val : ZMod P)

/-- The vector `x` solves over `Z_P` the system `A·x = b` that `m` encodes as the
augmented matrix `[A|b]`: the first `rows` columns hold `A` and the column of
index `rows` holds `b`. -/
def Solves (P : Nat) (m : Matrix) (x : Nat → ZMod P) : Prop :=
  ∀ j, j < m.rows →
    ∑ i in Finset.range m.rows, (m.cell i j : ZMod P) * x i = (m.cell m.rows j : ZMod P)

/-- The weight vector `(x, -1)` of a candidate solution `x` of a system in `n`
unknowns. -/
def augment (P n : Nat) (x : Nat → ZMod P) : Nat → ZMod P :=
  fun a => if a < n then x a else -1

/-- `m'` has the dimensions of `m` and is again well formed and reduced. -/
def Keeps (P : Nat) (m m' : Matrix) : Prop :=
  m'.columns = m.columns ∧ m'.rows = m.rows ∧ m'.WF ∧ m'.Reduced P

/-- Invariant of the forward loop of `Reduce` started on `m`, before step `k`. -/
structure ForwardInv (P : Nat) (m : Matrix) (k : Nat) (mk : Matrix) : Prop where
  keeps : Keeps P m mk
  lower : LowerZero mk.cell k
  diag : ∀ a, a < k → mk.cell a a = 0 ∨ mk.cell a a = 1
  ortho : ∀ w : Nat → ZMod P, Ortho P m.columns m.rows m.cell w ↔
    Ortho P m.columns m.rows mk.cell w

/-- Invariant of the back-substitution loop of `Reduce`, started on a matrix
`m` whose forward elimination skipped no pivot, with `t` iterations left: the
columns right of `t` are already cleared above the diagonal. -/
structure BackInv (P : Nat) (m : Matrix) (t : Nat) (mt : Matrix) : Prop where
  keeps : Keeps P m mt
  lower : LowerZero mt.cell m.rows
  diag : ∀ a, a < m.rows → mt.cell a a = 1
  cleared : ∀ a b, t < a → a < m.rows → b < a → mt.cell a b = 0
  ortho : ∀ w : Nat → ZMod P, Ortho P m.columns m.rows m.cell w ↔
    Ortho P m.columns m.rows mt.cell w

end Matrix

/-! ## Bit keys

`bitstring.go` is not among the sources. -/

/-- Modelled from the spec: the bit key type `Bitstring` of the missing
`bitstring.go`: an ordered sequence of bits of explicit length, bit 0 being the
most significant bit of byte 0.  The byte storage of the spec is `Bytes`. -/
structure Bitstring where
  bits : List Bool
  deriving DecidableEq, Repr

/-- Modelled from the spec: `new(bitLen) -> key` with all bits zero, of the
missing `bitstring.go`.  The spec gives a key a fixed bit length and no meaning
to a negative one: that is a precondition violation. -/
def NewBitstring (bitLen : Int) : Except Panic Bitstring :=
  if bitLen < 0 then .error .negativeLength else .ok ⟨List.replicate bitLen.toNat false⟩

/-- Bit `i` of the byte `b`, counted from the most significant bit. -/
def byteBit (b : Nat) (i : Nat) : Bool := (b / 2 ^ (7 - i)) % 2 == 1

/-- The bits of a byte buffer, left to right. -/
def bitsOfBytes : List Nat → List Bool
  | [] => []
  | b :: bs => (List.range 8).map (byteBit b) ++ bitsOfBytes bs

/-- The byte whose bits are the first eight of `l`, missing ones being zero. -/
def byteOfBits (l : List Bool) : Nat :=
  128 * (l.getD 0 false).toNat + 64 * (l.getD 1 false).toNat + 32 * (l.getD 2 false).toNat +
  16 * (l.getD 3 false).toNat + 8 * (l.getD 4 false).toNat + 4 * (l.getD 5 false).toNat +
  2 * (l.getD 6 false).toNat + (l.getD 7 false).toNat

/-- Modelled from the spec: `bitLen() -> n` of the missing `bitstring.go`. -/
def Bitstring.BitLen (bs : Bitstring) : Nat := bs.bits.length

/-- Modelled from the spec: `bytes() -> current byte buffer` of the missing
`bitstring.go`: `⌈n/8⌉` bytes, the bits beyond `n` in the last byte being zero. -/
def Bitstring.Bytes (bs : Bitstring) : List Nat :=
  (List.range ((bs.bits.length + 7) / 8)).map (fun k => byteOfBits (bs.bits.drop (8 * k)))

/-- Modelled from the spec: `setBytes(bytes)` of the missing `bitstring.go`:
copies bits from `bytes` left to right, up to `bitLen` bits or `len(bytes)*8`,
whichever is smaller. -/
def Bitstring.SetBytes (bs : Bitstring) (buf : List Nat) : Bitstring :=
  ⟨(bitsOfBytes buf).take bs.bits.length ++
    bs.bits.drop ((bitsOfBytes buf).take bs.bits.length).length⟩

/-- Modelled from the spec: `setBit(i)` of the missing `bitstring.go`; an index
outside `0 ≤ i < bitLen` is a precondition violation. -/
def Bitstring.Set (bs : Bitstring) (i : Int) : Except Panic Bitstring :=
  if 0 ≤ i ∧ i < bs.bits.length then .ok ⟨bs.bits.set i.toNat true⟩
  else .error .indexOutOfRange

/-- Modelled from the spec: `clearBit(i)` of the missing `bitstring.go`; an index
outside `0 ≤ i < bitLen` is a precondition violation. -/
def Bitstring.Clear (bs : Bitstring) (i : Int) : Except Panic Bitstring :=
  if 0 ≤ i ∧ i < bs.bits.length then .ok ⟨bs.bits.set i.toNat false⟩
  else .error .indexOutOfRange

/-- Modelled from the spec: the canonical string form of a key of the missing
`bitstring.go`, equal for equal (length, bits) and distinct for distinct ones:
the binary digits of the bits. -/
def Bitstring.String (bs : Bitstring) : String :=
  String.mk (bs.bits.map (fun b => if b then '1' else '0'))

/-! ## The node parser of `sks-dump-ptree` -/

/-- The `error` values met while parsing a node. -/
inductive ParseError where
  | EOF
  | ErrUnexpectedEOF
  | InvalidBitstringLength (keyBytes : Int)
  | Other (code : Nat)
  deriving DecidableEq, Repr

/-- Modelled from the spec: the reader primitives and the constant of package
`recon`, which is not among the sources.  `ReadInt` reads one integer in the
protocol's variable-length encoding and `ReadZp` one fixed-width field element;
each returns the value and the bytes left in the buffer.  `SksZpNbytes` is the
fixed width of a fingerprint. -/
structure Wire where
  ReadInt : List Nat → Except ParseError (Int × List Nat)
  ReadZp : List Nat → Except ParseError (Nat × List Nat)
  SksZpNbytes : Nat

/-- `type Node struct`. -/
structure Node where
  SValues : List Nat
  NumElements : Int
  Key : String
  Leaf : Bool
  Fingerprints : List String
  Children : List String
  deriving DecidableEq, Repr

/-- `(*bytes.Buffer).Read(p)` with `len(p) = n` on a buffer holding `r`: the
contents of `p` after the call (a fresh, zeroed `p`) and the bytes left.  An
empty buffer gives `io.EOF` unless `n = 0`; otherwise the call copies what is
there, up to `n` bytes, and reports no error. -/
def bufferRead (r : List Nat) (n : Nat) : Except ParseError (List Nat × List Nat) :=
  if r.isEmpty then (if n = 0 then .ok ([], r) else .error .EOF)
  else .ok (r.take n ++ List.replicate (n - r.length) 0, r.drop n)

/-- `io.ReadFull(r, buf)` with `len(buf) = n` on a buffer holding `r`. -/
def ReadFull (r : List Nat) (n : Nat) : Except ParseError (List Nat × List Nat) :=
  if n ≤ r.length then .ok (r.take n, r.drop n)
  else if r.isEmpty then .error .EOF
  else .error .ErrUnexpectedEOF

/-- The key byte length of `unmarshalNode`:
`keyBytes := keyBits / 8; if keyBits%8 > 0 { keyBytes++ }`, with Go's division
and remainder, which truncate toward zero. -/
def keyByteLen (keyBits : Int) : Int :=
  if Int.tmod keyBits 8 > 0 then Int.tdiv keyBits 8 + 1 else Int.tdiv keyBits 8

/-- Go's `1 << uint(k)` at type `int` (64 bits): the conversion of a negative `k`
gives a shift count of at least `2^63`, and a count of 64 or more shifts the
bit out. -/
def shl1 (k : Int) : Int :=
  if 0 ≤ k ∧ k < 63 then 2 ^ k.toNat
  else if k = 63 then -(2 ^ 63)
  else 0

/-- Go's `i&(1<<uint(j)) != 0` for a loop counter `0 ≤ i < 2^63`. -/
def bitSet (i : Nat) (j : Nat) : Bool :=
  if j < 63 then i.testBit j else false

/-- One hexadecimal digit. -/
def hexDigit (n : Nat) : Char :=
  if n < 10 then Char.ofNat (48 + n) else Char.ofNat (87 + n)

/-- `fmt.Sprintf("%x", buf)` of a byte slice. -/
def hexString (buf : List Nat) : String :=
  String.mk (buf.flatMap (fun b => [hexDigit (b / 16), hexDigit (b % 16)]))

/-- The loop `for i := 0; i < numSamples; i++ { svalues[i], err = recon.ReadZp(r) ... }`. -/
def readSamples (w : Wire) : Nat → List Nat → List Nat → Except ParseError (List Nat × List Nat)
  | 0, acc, r => .ok (acc, r)
  | n + 1, acc, r =>
    match w.ReadZp r with
    | .error e => .error e
    | .ok (v, r') => readSamples w n (acc ++ [v]) r'

/-- The fingerprint loop of a leaf: `fps` is `node.Fingerprints`, made with
`size` empty strings, `i` the index to fill next.  It gives the fingerprints as
the loop leaves them and the error it stopped on. -/
def readFingerprints (width : Nat) :
    Nat → Nat → List String → List Nat → List String × Option ParseError
  | 0, _, fps, _ => (fps, none)
  | n + 1, i, fps, r =>
    match ReadFull r width with
    | .error e => (fps, some e)
    | .ok (buf, r') => readFingerprints width n (i + 1) (fps.set i (hexString buf)) r'

/-- Body of the inner loop of the child derivation: set or clear bit
`key.BitLen() + j` of the child after bit `j` of `i`. -/
def childBitBody (keyLen : Nat) (i : Nat) (j : Nat) (child : Bitstring) :
    Except Panic Bitstring :=
  if bitSet i j then child.Set ((keyLen : Int) + (j : Int))
  else child.Clear ((keyLen : Int) + (j : Int))

/-- The `i`-th derived child key of `unmarshalNode`. -/
def childKey (key : Bitstring) (bitQuantum : Int) (i : Nat) : Except Panic Bitstring := do
  let child ← NewBitstring ((key.BitLen : Int) + bitQuantum)
  let child := child.SetBytes key.Bytes
  loopUp (childBitBody key.BitLen i) bitQuantum.toNat 0 child

/-- Body of the outer loop of the child derivation:
`node.Children = append(node.Children, child.String())`. -/
def childrenBody (key : Bitstring) (bitQuantum : Int) (i : Nat) (children : List String) :
    Except Panic (List String) := do
  let child ← childKey key bitQuantum i
  pure (children ++ [child.String])

/-- The loop `for i := 0; i < 1<<uint(bitQuantum); i++` of `unmarshalNode`. -/
def deriveChildren (key : Bitstring) (bitQuantum : Int) : Except Panic (List String) :=
  loopUp (childrenBody key bitQuantum) (shl1 bitQuantum).toNat 0 []

/-- The part of `unmarshalNode` after the flag byte; `node` is the node just
built. -/
def unmarshalBody (w : Wire) (key : Bitstring) (bitQuantum : Int) (node : Node)
    (r : List Nat) : Except Panic (Option Node × Option ParseError) :=
  if node.Leaf then
    match w.ReadInt r with
    | .error e => .ok (some node, some e)
    | .ok (size, r) =>
      if size < 0 then .error .negativeLength
      else
        let res := readFingerprints w.SksZpNbytes size.toNat 0
          (List.replicate size.toNat "") r
        .ok (some { node with Fingerprints := res.1 }, res.2)
  else
    match deriveChildren key bitQuantum with
    | .error p => .error p
    | .ok children => .ok (some { node with Children := children }, none)

/-- The part of `unmarshalNode` after the key: the sample values, the flag byte
and the construction of the node. -/
def unmarshalSamples (w : Wire) (key : Bitstring) (bitQuantum numSamples : Int)
    (numElements : Int) (r : List Nat) : Except Panic (Option Node × Option ParseError) :=
  if numSamples < 0 then .error .negativeLength
  else
    match readSamples w numSamples.toNat [] r with
    | .error e => .ok (none, some e)
    | .ok (svalues, r) =>
      match bufferRead r 1 with
      | .error e => .ok (none, some e)
      | .ok (b, r) =>
        unmarshalBody w key bitQuantum
          { SValues := svalues, NumElements := numElements, Key := key.String,
            Leaf := b.headD 0 == 1, Fingerprints := [], Children := [] } r

/-- The part of `unmarshalNode` after the two integers: the key. -/
def unmarshalKey (w : Wire) (bitQuantum numSamples : Int) (numElements keyBits : Int)
    (r : List Nat) : Except Panic (Option Node × Option ParseError) :=
  if keyByteLen keyBits < 0 then
    .ok (none, some (.InvalidBitstringLength (keyByteLen keyBits)))
  else
    match bufferRead r (keyByteLen keyBits).toNat with
    | .error e => .ok (none, some e)
    | .ok (keyData, r) =>
      match NewBitstring keyBits with
      | .error p => .error p
      | .ok key0 =>
        unmarshalSamples w (key0.SetBytes keyData) bitQuantum numSamples numElements r

/-- `unmarshalNode(buf, bitQuantum, numSamples)`: the returned node (`none` for
`nil`) and error. -/
def unmarshalNode (w : Wire) (buf : List Nat) (bitQuantum numSamples : Int) :
    Except Panic (Option Node × Option ParseError) :=
  match w.ReadInt buf with
  | .error e => .ok (none, some e)
  | .ok (numElements, r) =>
    match w.ReadInt r with
    | .error e => .ok (none, some e)
    | .ok (keyBits, r) => unmarshalKey w bitQuantum numSamples numElements keyBits r

/-- A node record as the wire format of the spec (§4.4) lays it out. -/
structure NodeRecord where
  numElements : Int
  keyBits : Int
  key : List Nat
  sampleValues : List Nat
  leaf : Bool
  fingerprints : List (List Nat)

/-- Modelled from the spec: the encoding of a node record (§4.4), for which the
sources have no encoder: `numElements`, `keyBits`, the key bytes, the sample
values, the flag byte and, for a leaf, the fingerprint count and the
fingerprints.  `encInt` and `encZp` are the encoders that go with the reader
primitives. -/
def encodeNode (encInt : Int → List Nat) (encZp : Nat → List Nat) (rec : NodeRecord) :
    List Nat :=
  encInt rec.numElements ++ (encInt rec.keyBits ++ (rec.key ++
    (rec.sampleValues.flatMap encZp ++ ((if rec.leaf then 1 else 0) ::
      (if rec.leaf then encInt rec.fingerprints.length ++ rec.fingerprints.flatten
       else [])))))

/-- The record is well formed for fingerprints of `width` bytes: a non-negative
`keyBits` with `⌈keyBits/8⌉` key bytes, and fingerprints of the fixed width. -/
def NodeRecord.WellFormed (rec : NodeRecord) (width : Nat) : Prop :=
  0 ≤ rec.keyBits ∧ (rec.key.length : Int) = keyByteLen rec.keyBits ∧
  ∀ f ∈ rec.fingerprints, f.length = width

/-- The readers of `w` decode what `encInt` and `encZp` encode of the integers
and sample values of the record `rec`, whatever follows in the buffer, reject
every truncated encoding of them, and only consume bytes: what `ReadZp` leaves
is a suffix of what it was given. -/
structure Decodes (w : Wire) (encInt : Int → List Nat) (encZp : Nat → List Nat)
    (rec : NodeRecord) : Prop where
  int_ok : ∀ n, n ∈ [rec.numElements, rec.keyBits, (rec.fingerprints.length : Int)] →
    ∀ rest, w.ReadInt (encInt n ++ rest) = .ok (n, rest)
  int_short : ∀ n, n ∈ [rec.numElements, rec.keyBits, (rec.fingerprints.length : Int)] →
    ∀ q, q <+: encInt n → q ≠ encInt n → ∃ e, w.ReadInt q = .error e
  zp_ok : ∀ v, v ∈ rec.sampleValues → ∀ rest, w.ReadZp (encZp v ++ rest) = .ok (v, rest)
  zp_short : ∀ v, v ∈ rec.sampleValues →
    ∀ q, q <+: encZp v → q ≠ encZp v → ∃ e, w.ReadZp q = .error e
  zp_suffix : ∀ r v r', w.ReadZp r = .ok (v, r') → r' <:+ r

/-! ### A one-byte wire, for examples -/

/-- A reader of one-byte integers, a byte being read as a two's complement
word: 0 .. 127 stand for themselves and 128 .. 255 for -128 .. -1. -/
def readByteInt : List Nat → Except ParseError (Int × List Nat)
  | [] => .error .EOF
  | b :: rest => .ok (if b < 128 then (b : Int) else (b : Int) - 256, rest)

/-- The encoder that goes with `readByteInt`. -/
def encByteInt (n : Int) : List Nat := [if 0 ≤ n then n.toNat else (n + 256).toNat]

/-- The encoder that goes with `readByteZp`. -/
def encByteZp (v : Nat) : List Nat := [v]

/-- A reader of one-byte field elements. -/
def readByteZp : List Nat → Except ParseError (Nat × List Nat)
  | [] => .error .EOF
  | b :: rest => .ok (b, rest)

/-- A wire whose integers and field elements take one byte and whose
fingerprints take two. -/
def byteWire : Wire := { ReadInt := readByteInt, ReadZp := readByteZp, SksZpNbytes := 2 }

/-- The number that a bit sequence spells, bit 0 being the most significant. -/
def bitsValue (l : List Bool) : Nat := l.foldl (fun acc b => 2 * acc + b.toNat) 0

/-! ## `Reduce` with asserted cell coordinates

The code of `matrix.go` once more, with an assertion before every cell access
that the column and the row of the access lie inside the grid.  A run that
returns has made every access inside the grid. -/

namespace Matrix

/-- The assertion that column `i` and row `j` lie inside the grid of `m`. -/
def inGrid (m : Matrix) (i j : Nat) : Except Panic Unit :=
  if i < m.columns ∧ j < m.rows then .ok () else .error .indexOutOfRange

/-- `m.Get(i, j)` behind the assertion. -/
def GetChecked (m : Matrix) (i j : Nat) : Except Panic Nat := do
  m.inGrid i j
  m.Get i j

/-- `m.Set(i, j, x)` behind the assertion. -/
def SetChecked (m : Matrix) (i j : Nat) (x : Nat) : Except Panic Matrix := do
  m.inGrid i j
  m.Set i j x

/-- Body of the loop of `swapRows`, each of the four accesses to column `i` of
the rows `j1` and `j2` behind the assertion. -/
def swapRowsBodyChecked (j1 j2 start1 start2 : Nat) (i : Nat) (m : Matrix) :
    Except Panic Matrix := do
  m.inGrid i j2
  let a ← m.load (start2 + i)
  m.inGrid i j1
  let b ← m.load (start1 + i)
  m.inGrid i j1
  let m1 ← m.store (start1 + i) a
  m1.inGrid i j2
  m1.store (start2 + i) b

/-- `m.swapRows(j1, j2)` with asserted accesses. -/
def swapRowsChecked (m : Matrix) (j1 j2 : Nat) : Except Panic Matrix :=
  let start1 := j1 * m.columns
  let start2 := j2 * m.columns
  loopUp (swapRowsBodyChecked j1 j2 start1 start2) m.columns 0 m

/-- Body of the loop of `scmultRow`, the access to column `i` of row `j` behind
the assertion. -/
def scmultRowBodyChecked (P : Nat) (j start sc : Nat) (i : Nat) (m : Matrix) :
    Except Panic Matrix := do
  m.inGrid i j
  let v ← m.load (start + i)
  m.store (start + i) (Zp.Mul P v sc)

/-- `m.scmultRow(scol, j, sc)` with asserted accesses. -/
def scmultRowChecked (P : Nat) (m : Matrix) (scol j : Nat) (sc : Nat) : Except Panic Matrix :=
  let start := j * m.columns
  loopUp (scmultRowBodyChecked P j start sc) (m.columns - scol) scol m

/-- Body of the loop of `rowsub` with asserted accesses. -/
def rowsubBodyChecked (P : Nat) (src dst scmult : Nat) (i : Nat) (m : Matrix) :
    Except Panic Matrix := do
  let sval ← m.GetChecked i src
  if !Zp.IsZero sval then
    let v ← m.GetChecked i dst
    if Zp.Int64 scmult != 1 then
      m.SetChecked i dst (Zp.Sub P v (Zp.Mul P sval scmult))
    else
      m.SetChecked i dst (Zp.Sub P v sval)
  else
    pure m

/-- `m.rowsub(scol, src, dst, scmult)` with asserted accesses. -/
def rowsubChecked (P : Nat) (m : Matrix) (scol src dst : Nat) (scmult : Nat) :
    Except Panic Matrix :=
  loopUp (rowsubBodyChecked P src dst scmult) (m.columns - scol) scol m

/-- The pivot scan of `processRowForward` with asserted accesses. -/
def findSwapChecked (m : Matrix) (j : Nat) : Nat → Nat → Except Panic (Option Nat)
  | 0, _ => .ok none
  | n + 1, jf =>
    match m.GetChecked j jf with
    | .error e => .error e
    | .ok x => if !Zp.IsZero x then .ok (some jf) else findSwapChecked m j n (jf + 1)

/-- Body of the elimination loop of `processRowForward` with asserted accesses. -/
def eliminateBodyChecked (P : Nat) (j : Nat) (j2 : Nat) (m : Matrix) : Except Panic Matrix := do
  let s ← m.GetChecked j j2
  m.rowsubChecked P j j j2 s

/-- The part of `processRowForward` after the pivot search, with asserted
accesses. -/
def normalizeAndEliminateChecked (P : Nat) (m : Matrix) (j : Nat) (v : Nat) :
    Except Panic (Option Error × Matrix) := do
  let m1 ← if Zp.Int64 v != 1 then do
      let sc ← Zp.Inv P v
      m.scmultRowChecked P j j sc
    else pure m
  let m2 ← loopUp (eliminateBodyChecked P j) (m1.rows - (j + 1)) (j + 1) m1
  pure (none, m2)

/-- `m.processRowForward(j)` with asserted accesses. -/
def processRowForwardChecked (P : Nat) (m : Matrix) (j : Nat) :
    Except Panic (Option Error × Matrix) := do
  let v ← m.GetChecked j j
  if Zp.IsZero v then
    let jswap ← findSwapChecked m j (m.rows - (j + 1)) (j + 1)
    match jswap with
    | none => pure (none, m)
    | some jf =>
      let m1 ← m.swapRowsChecked j jf
      let v1 ← m1.GetChecked j j
      normalizeAndEliminateChecked P m1 j v1
  else
    normalizeAndEliminateChecked P m j v

/-- Body of the loop of `backSubstitute` with asserted accesses. -/
def backSubstituteBodyChecked (P : Nat) (last j : Nat) (j2 : Nat) (m : Matrix) :
    Except Panic Matrix := do
  let scmult ← m.GetChecked j j2
  let m1 ← m.rowsubChecked P last j j2 scmult
  m1.SetChecked j j2 (Zp.Zi P 0)

/-- `m.backSubstitute(j)` with asserted accesses. -/
def backSubstituteChecked (P : Nat) (m : Matrix) (j : Nat) : Except Panic Matrix := do
  let d ← m.GetChecked j j
  if Zp.Int64 d == 1 then
    let last := m.rows - 1
    loopDown (backSubstituteBodyChecked P last j) 0 j m
  else
    pure m

/-- The first loop of `Reduce` with asserted accesses. -/
def forwardLoopChecked (P : Nat) : Nat → Nat → Matrix → Except Panic (Option Error × Matrix)
  | 0, _, m => .ok (none, m)
  | n + 1, j, m =>
    match processRowForwardChecked P m j with
    | .error e => .error e
    | .ok (some err, m') => .ok (some err, m')
    | .ok (none, m') => forwardLoopChecked P n (j + 1) m'

/-- `m.Reduce()` with asserted accesses. -/
def ReduceChecked (P : Nat) (m : Matrix) : Except Panic (Option Error × Matrix) :=
  if m.columns < m.rows then .ok (some Error.MatrixTooNarrow, m)
  else
    match forwardLoopChecked P m.rows 0 m with
    | .error e => .error e
    | .ok (some err, m') => .ok (some err, m')
    | .ok (none, m') =>
      match loopDown (fun j s => backSubstituteChecked P s j) 1 (m'.rows - 1) m' with
      | .error e => .error e
      | .ok m'' => .ok (none, m'')

end Matrix

/-! ## Basic facts on addressing -/

namespace Matrix

theorem idx_lt {c r i j : Nat} (hi : i < c) (hj : j < r) : i + j * c < c * r := by
  have h1 : (j + 1) * c ≤ r * c := Nat.mul_le_mul_right c hj
  have h2 : (j + 1) * c = j * c + c := by ring
  have h3 : r * c = c * r := Nat.mul_comm _ _
  omega

theorem idx_inj {c i j i' j' : Nat} (hi : i < c) (hi' : i' < c)
    (h : i + j * c = i' + j' * c) : i = i' ∧ j = j' := by
  have h1 : (i + j * c) % c = (i' + j' * c) % c := by rw [h]
  rw [Nat.add_mul_mod_self_right, Nat.add_mul_mod_self_right,
    Nat.mod_eq_of_lt hi, Nat.mod_eq_of_lt hi'] at h1
  subst h1
  have h2 : j * c = j' * c := by omega
  exact ⟨rfl, Nat.eq_of_mul_eq_mul_right (by omega) h2⟩

theorem load_ok (m : Matrix) {k : Nat} (h : k < m.cells.length) :
    m.load k = .ok (m.cells.getD k 0) := by
  unfold load
  rw [List.getElem?_eq_getElem h]
  simp [List.getD_eq_getElem?_getD, List.getElem?_eq_getElem h]

theorem Get_ok {m : Matrix} {i j : Nat} (hwf : m.WF) (hi : i < m.columns) (hj : j < m.rows) :
    m.Get i j = .ok (m.cell i j) := by
  unfold Get
  have hk : i + j * m.columns < m.cells.length := by rw [hwf]; exact idx_lt hi hj
  rw [load_ok m hk]
  simp [cell, hi, hj]

theorem load_row_ok {m : Matrix} {i j : Nat} (hwf : m.WF) (hi : i < m.columns) (hj : j < m.rows) :
    m.load (j * m.columns + i) = .ok (m.cell i j) := by
  rw [Nat.add_comm]; exact Get_ok hwf hi hj

theorem Reduced.cell_lt {P : Nat} {m : Matrix} (h : m.Reduced P) (hP : 0 < P) (i j : Nat) :
    m.cell i j < P := by
  unfold cell
  split
  · rw [List.getD_eq_getElem?_getD]
    cases hk : m.cells[i + j * m.columns]? with
    | none => simpa using hP
    | some v =>
      simp only [Option.getD_some]
      exact h v (List.getElem?_mem hk)
  · exact hP

theorem Reduced.cell_lt_in {P : Nat} {m : Matrix} (h : m.Reduced P) (hwf : m.WF) {i j : Nat}
    (hi : i < m.columns) (hj : j < m.rows) : m.cell i j < P := by
  have hk : i + j * m.columns < m.cells.length := by rw [hwf]; exact idx_lt hi hj
  unfold cell
  rw [if_pos ⟨hi, hj⟩, List.getD_eq_getElem _ _ hk]
  exact h _ (List.getElem_mem _)

theorem store_spec (P : Nat) {m : Matrix} {i j : Nat} (x : Nat) (hwf : m.WF) (hi : i < m.columns)
    (hj : j < m.rows) :
    ∃ m', m.store (i + j * m.columns) x = .ok m' ∧ m'.columns = m.columns ∧ m'.rows = m.rows ∧
      m'.WF ∧ (∀ a b, m'.cell a b = if a = i ∧ b = j then x else m.cell a b) ∧
      (m.Reduced P → x < P → m'.Reduced P) := by
  have hk : i + j * m.columns < m.cells.length := by rw [hwf]; exact idx_lt hi hj
  refine ⟨{ m with cells := m.cells.set (i + j * m.columns) x }, ?_, rfl, rfl, ?_, ?_, ?_⟩
  · simp [store, hk]
  · simp [WF, List.length_set]; exact hwf
  · intro a b
    unfold cell
    simp only
    by_cases hab : a < m.columns ∧ b < m.rows
    · simp only [hab, and_self, if_true]
      rw [List.getD_eq_getElem?_getD, List.getElem?_set, List.getD_eq_getElem?_getD]
      by_cases he : a = i ∧ b = j
      · obtain ⟨rfl, rfl⟩ := he
        simp [hk]
      · have hne : i + j * m.columns ≠ a + b * m.columns := by
          intro h
          have := idx_inj hi hab.1 h
          exact he ⟨this.1.symm, this.2.symm⟩
        simp [hne, he]
    · have he : ¬ (a = i ∧ b = j) := by
        rintro ⟨rfl, rfl⟩; exact hab ⟨hi, hj⟩
      simp [hab, he]
  · intro hr hx y hy
    rcases List.mem_or_eq_of_mem_set hy with h | h
    · exact hr y h
    · exact h ▸ hx

theorem Set_spec (P : Nat) {m : Matrix} {i j : Nat} (x : Nat) (hwf : m.WF) (hi : i < m.columns)
    (hj : j < m.rows) :
    ∃ m', m.Set i j x = .ok m' ∧ m'.columns = m.columns ∧ m'.rows = m.rows ∧
      m'.WF ∧ (∀ a b, m'.cell a b = if a = i ∧ b = j then x else m.cell a b) ∧
      (m.Reduced P → x < P → m'.Reduced P) :=
  store_spec P x hwf hi hj

/-- Loop rule for `loopUp`. -/
theorem loopUp_inv {σ : Type} (body : Nat → σ → Except Panic σ) (I : Nat → σ → Prop) :
    ∀ (n i : Nat) (s : σ), I i s →
      (∀ k s, i ≤ k → k < i + n → I k s → ∃ s', body k s = .ok s' ∧ I (k + 1) s') →
      ∃ s', loopUp body n i s = .ok s' ∧ I (i + n) s' := by
  intro n
  induction n with
  | zero => intro i s h _; exact ⟨s, rfl, h⟩
  | succ n ih =>
    intro i s h hstep
    obtain ⟨s1, h1, h1I⟩ := hstep i s (Nat.le_refl _) (by omega) h
    obtain ⟨s2, h2, h2I⟩ := ih (i + 1) s1 h1I (fun k s hk hk2 hI => hstep k s (by omega) (by omega) hI)
    refine ⟨s2, ?_, ?_⟩
    · simp only [loopUp, h1]; exact h2
    · have : i + (n + 1) = i + 1 + n := by omega
      rw [this]; exact h2I

/-- Loop rule for `loopDown`; the invariant is indexed by the number of iterations left. -/
theorem loopDown_inv {σ : Type} (body : Nat → σ → Except Panic σ) (lo : Nat) (I : Nat → σ → Prop) :
    ∀ (n : Nat) (s : σ), I n s →
      (∀ k s, k < n → I (k + 1) s → ∃ s', body (lo + k) s = .ok s' ∧ I k s') →
      ∃ s', loopDown body lo n s = .ok s' ∧ I 0 s' := by
  intro n
  induction n with
  | zero => intro s h _; exact ⟨s, rfl, h⟩
  | succ n ih =>
    intro s h hstep
    obtain ⟨s1, h1, h1I⟩ := hstep n s (by omega) h
    obtain ⟨s2, h2, h2I⟩ := ih s1 h1I (fun k s hk hI => hstep k s (by omega) hI)
    exact ⟨s2, by simp only [loopDown, h1]; exact h2, h2I⟩

end Matrix

namespace Matrix

theorem Keeps.refl {P : Nat} {m : Matrix} (hwf : m.WF) (hr : m.Reduced P) : Keeps P m m :=
  ⟨rfl, rfl, hwf, hr⟩

theorem Zp_Sub_lt {P : Nat} (hP : 0 < P) (x y : Nat) : Zp.Sub P x y < P := by
  unfold Zp.Sub
  have h1 : (0 : Int) ≤ ((x : Int) - y) % P := Int.emod_nonneg _ (by omega)
  have h2 : ((x : Int) - y) % P < P := Int.emod_lt_of_pos _ (by omega)
  omega

theorem Zp_Mul_lt {P : Nat} (hP : 0 < P) (x y : Nat) : Zp.Mul P x y < P :=
  Nat.mod_lt _ hP

theorem subCell_lt {P : Nat} (hP : 0 < P) (s sval v : Nat) (hv : v < P) : subCell P s sval v < P := by
  unfold subCell
  split
  · split
    · exact Zp_Sub_lt hP _ _
    · exact Zp_Sub_lt hP _ _
  · exact hv

theorem rowsubBody_spec {P : Nat} (hP : 0 < P) {m : Matrix} (hwf : m.WF) (hr : m.Reduced P)
    {src dst k : Nat} (s : Nat) (hsrc : src < m.rows) (hdst : dst < m.rows) (hk : k < m.columns) :
    ∃ m', rowsubBody P src dst s k m = .ok m' ∧ Keeps P m m' ∧
      ∀ a b, m'.cell a b =
        if a = k ∧ b = dst then subCell P s (m.cell k src) (m.cell k dst) else m.cell a b := by
  unfold rowsubBody
  rw [Get_ok hwf hk hsrc]
  by_cases hz : Zp.IsZero (m.cell k src) = true
  · refine ⟨m, ?_, Keeps.refl hwf hr, ?_⟩
    · simp [hz, bind, Except.bind, pure, Except.pure]
    · intro a b
      by_cases he : a = k ∧ b = dst
      · obtain ⟨rfl, rfl⟩ := he
        simp [subCell, hz]
      · simp [he]
  · rw [Get_ok hwf hk hdst]
    have hlt : subCell P s (m.cell k src) (m.cell k dst) < P :=
      subCell_lt hP _ _ _ (hr.cell_lt hP _ _)
    obtain ⟨m', h1, hc, hrw, hwf', hcell, hred⟩ :=
      Set_spec P (subCell P s (m.cell k src) (m.cell k dst)) hwf hk hdst
    refine ⟨m', ?_, ⟨hc, hrw, hwf', hred hr hlt⟩, hcell⟩
    rw [← h1]
    simp only [subCell, hz, bind, Except.bind]
    by_cases h64 : Zp.Int64 s = 1 <;> simp [h64]

theorem rowsub_spec {P : Nat} (hP : 0 < P) {m : Matrix} (hwf : m.WF) (hr : m.Reduced P)
    (scol : Nat) {src dst : Nat} (s : Nat) (hsrc : src < m.rows) (hdst : dst < m.rows) :
    ∃ m', rowsub P m scol src dst s = .ok m' ∧ Keeps P m m' ∧
      ∀ a b, m'.cell a b =
        if b = dst ∧ scol ≤ a ∧ a < m.columns then subCell P s (m.cell a src) (m.cell a dst)
        else m.cell a b := by
  have key := loopUp_inv (rowsubBody P src dst s)
    (fun k m' => Keeps P m m' ∧ ∀ a b, m'.cell a b =
        if b = dst ∧ scol ≤ a ∧ a < k then subCell P s (m.cell a src) (m.cell a dst)
        else m.cell a b)
    (m.columns - scol) scol m
    ⟨Keeps.refl hwf hr, fun a b => by
      have : ¬ (b = dst ∧ scol ≤ a ∧ a < scol) := by omega
      simp [this]⟩
    (by
      rintro k mk hk1 hk2 ⟨⟨hc, hrw, hwfk, hrk⟩, hcell⟩
      have hkc : k < mk.columns := by omega
      obtain ⟨m', h1, ⟨hc', hrw', hwf', hr'⟩, hcell'⟩ :=
        rowsubBody_spec hP hwfk hrk s (hrw ▸ hsrc) (hrw ▸ hdst) hkc
      refine ⟨m', h1, ⟨hc'.trans hc, hrw'.trans hrw, hwf', hr'⟩, ?_⟩
      intro a b
      have hks : mk.cell k src = m.cell k src := by rw [hcell]; exact if_neg (by omega)
      have hkd : mk.cell k dst = m.cell k dst := by rw [hcell]; exact if_neg (by omega)
      rw [hcell' a b, hks, hkd, hcell a b]
      by_cases he : a = k ∧ b = dst
      · obtain ⟨rfl, rfl⟩ := he
        have : (b = b ∧ scol ≤ a ∧ a < a + 1) := ⟨rfl, hk1, by omega⟩
        rw [if_pos ⟨rfl, rfl⟩, if_pos this]
      · by_cases hb : b = dst ∧ scol ≤ a ∧ a < k
        · have : (b = dst ∧ scol ≤ a ∧ a < k + 1) := ⟨hb.1, hb.2.1, by omega⟩
          rw [if_neg he, if_pos hb, if_pos this]
        · have : ¬ (b = dst ∧ scol ≤ a ∧ a < k + 1) := by
            rintro ⟨h1, h2, h3⟩
            rcases Nat.lt_succ_iff_lt_or_eq.mp h3 with h | h
            · exact hb ⟨h1, h2, h⟩
            · exact he ⟨h, h1⟩
          rw [if_neg he, if_neg hb, if_neg this])
  obtain ⟨m', h1, hk, hcell⟩ := key
  refine ⟨m', h1, hk, ?_⟩
  intro a b
  rw [hcell a b]
  by_cases hsc : scol ≤ m.columns
  · have : scol + (m.columns - scol) = m.columns := by omega
    rw [this]
  · have e1 : ¬ (b = dst ∧ scol ≤ a ∧ a < scol + (m.columns - scol)) := by omega
    have e2 : ¬ (b = dst ∧ scol ≤ a ∧ a < m.columns) := by omega
    simp [e1, e2]

end Matrix

namespace Matrix

theorem store_row_spec (P : Nat) {m : Matrix} {i j : Nat} (x : Nat) (hwf : m.WF)
    (hi : i < m.columns) (hj : j < m.rows) :
    ∃ m', m.store (j * m.columns + i) x = .ok m' ∧ m'.columns = m.columns ∧ m'.rows = m.rows ∧
      m'.WF ∧ (∀ a b, m'.cell a b = if a = i ∧ b = j then x else m.cell a b) ∧
      (m.Reduced P → x < P → m'.Reduced P) := by
  rw [Nat.add_comm]; exact store_spec P x hwf hi hj

theorem scmultRowBody_spec {P : Nat} (hP : 0 < P) {m : Matrix} (hwf : m.WF) (hr : m.Reduced P)
    {j k : Nat} (sc : Nat) (hj : j < m.rows) (hk : k < m.columns) (c : Nat) (hc : c = m.columns) :
    ∃ m', scmultRowBody P (j * c) sc k m = .ok m' ∧ Keeps P m m' ∧
      ∀ a b, m'.cell a b = if a = k ∧ b = j then Zp.Mul P (m.cell k j) sc else m.cell a b := by
  subst hc
  unfold scmultRowBody
  rw [load_row_ok hwf hk hj]
  obtain ⟨m', h1, hc, hrw, hwf', hcell, hred⟩ :=
    store_row_spec P (Zp.Mul P (m.cell k j) sc) hwf hk hj
  exact ⟨m', by simpa [bind, Except.bind] using h1,
    ⟨hc, hrw, hwf', hred hr (Zp_Mul_lt hP _ _)⟩, hcell⟩

theorem scmultRow_spec {P : Nat} (hP : 0 < P) {m : Matrix} (hwf : m.WF) (hr : m.Reduced P)
    (scol : Nat) {j : Nat} (sc : Nat) (hj : j < m.rows) :
    ∃ m', scmultRow P m scol j sc = .ok m' ∧ Keeps P m m' ∧
      ∀ a b, m'.cell a b =
        if b = j ∧ scol ≤ a ∧ a < m.columns then Zp.Mul P (m.cell a j) sc else m.cell a b := by
  have key := loopUp_inv (scmultRowBody P (j * m.columns) sc)
    (fun k m' => Keeps P m m' ∧ ∀ a b, m'.cell a b =
        if b = j ∧ scol ≤ a ∧ a < k then Zp.Mul P (m.cell a j) sc else m.cell a b)
    (m.columns - scol) scol m
    ⟨Keeps.refl hwf hr, fun a b => by
      have : ¬ (b = j ∧ scol ≤ a ∧ a < scol) := by omega
      rw [if_neg this]⟩
    (by
      rintro k mk hk1 hk2 ⟨⟨hc, hrw, hwfk, hrk⟩, hcell⟩
      have hkc : k < mk.columns := by omega
      obtain ⟨m', h1, ⟨hc', hrw', hwf', hr'⟩, hcell'⟩ :=
        scmultRowBody_spec hP hwfk hrk sc (hrw ▸ hj) hkc m.columns hc.symm
      refine ⟨m', h1, ⟨hc'.trans hc, hrw'.trans hrw, hwf', hr'⟩, ?_⟩
      intro a b
      have hkj : mk.cell k j = m.cell k j := by rw [hcell]; exact if_neg (by omega)
      rw [hcell' a b, hkj, hcell a b]
      by_cases he : a = k ∧ b = j
      · obtain ⟨rfl, rfl⟩ := he
        have : (b = b ∧ scol ≤ a ∧ a < a + 1) := ⟨rfl, hk1, by omega⟩
        rw [if_pos ⟨rfl, rfl⟩, if_pos this]
      · by_cases hb : b = j ∧ scol ≤ a ∧ a < k
        · have : (b = j ∧ scol ≤ a ∧ a < k + 1) := ⟨hb.1, hb.2.1, by omega⟩
          rw [if_neg he, if_pos hb, if_pos this]
        · have : ¬ (b = j ∧ scol ≤ a ∧ a < k + 1) := by
            rintro ⟨h1, h2, h3⟩
            rcases Nat.lt_succ_iff_lt_or_eq.mp h3 with h | h
            · exact hb ⟨h1, h2, h⟩
            · exact he ⟨h, h1⟩
          rw [if_neg he, if_neg hb, if_neg this])
  obtain ⟨m', h1, hk, hcell⟩ := key
  refine ⟨m', h1, hk, ?_⟩
  intro a b
  rw [hcell a b]
  by_cases hsc : scol ≤ m.columns
  · have : scol + (m.columns - scol) = m.columns := by omega
    rw [this]
  · have e1 : ¬ (b = j ∧ scol ≤ a ∧ a < scol + (m.columns - scol)) := by omega
    have e2 : ¬ (b = j ∧ scol ≤ a ∧ a < m.columns) := by omega
    rw [if_neg e1, if_neg e2]

theorem cell_eq_zero_of_ge (m : Matrix) {a : Nat} (b : Nat) (h : m.columns ≤ a) : m.cell a b = 0 := by
  unfold cell
  have : ¬ (a < m.columns ∧ b < m.rows) := by omega
  rw [if_neg this]

theorem cell_eq_zero_of_row_ge (m : Matrix) (a : Nat) {b : Nat} (h : m.rows ≤ b) : m.cell a b = 0 := by
  unfold cell
  have : ¬ (a < m.columns ∧ b < m.rows) := by omega
  rw [if_neg this]

theorem swapRowsBody_spec {P : Nat} {m : Matrix} (hwf : m.WF) (hr : m.Reduced P)
    {j1 j2 k : Nat} (hj1 : j1 < m.rows) (hj2 : j2 < m.rows) (hk : k < m.columns)
    (c : Nat) (hc : c = m.columns) :
    ∃ m', swapRowsBody (j1 * c) (j2 * c) k m = .ok m' ∧ Keeps P m m' ∧
      ∀ a b, m'.cell a b =
        if a = k ∧ b = j2 then m.cell k j1
        else if a = k ∧ b = j1 then m.cell k j2 else m.cell a b := by
  subst hc
  unfold swapRowsBody
  rw [load_row_ok hwf hk hj2, load_row_ok hwf hk hj1]
  obtain ⟨m1, h1, hc1, hr1, hwf1, hcell1, hred1⟩ := store_row_spec P (m.cell k j2) hwf hk hj1
  obtain ⟨m2, h2, hc2, hr2, hwf2, hcell2, hred2⟩ :=
    store_row_spec P (m.cell k j1) hwf1 (hc1 ▸ hk) (hr1 ▸ hj2)
  rw [hc1] at h2
  refine ⟨m2, ?_, ⟨hc2.trans hc1, hr2.trans hr1, hwf2, ?_⟩, ?_⟩
  · simp only [bind, Except.bind, h1, h2]
  · exact hred2 (hred1 hr (hr.cell_lt_in hwf hk hj2)) (hr.cell_lt_in hwf hk hj1)
  · intro a b
    rw [hcell2 a b, hcell1 a b]

theorem swapRows_spec {P : Nat} {m : Matrix} (hwf : m.WF) (hr : m.Reduced P)
    {j1 j2 : Nat} (hj1 : j1 < m.rows) (hj2 : j2 < m.rows) :
    ∃ m', swapRows m j1 j2 = .ok m' ∧ Keeps P m m' ∧
      ∀ a b, m'.cell a b =
        if b = j1 then m.cell a j2 else if b = j2 then m.cell a j1 else m.cell a b := by
  have key := loopUp_inv (swapRowsBody (j1 * m.columns) (j2 * m.columns))
    (fun k m' => Keeps P m m' ∧ ∀ a b, m'.cell a b =
        if a < k then (if b = j1 then m.cell a j2 else if b = j2 then m.cell a j1 else m.cell a b)
        else m.cell a b)
    m.columns 0 m
    ⟨Keeps.refl hwf hr, fun a b => by rw [if_neg (by omega)]⟩
    (by
      rintro k mk hk1 hk2 ⟨⟨hc, hrw, hwfk, hrk⟩, hcell⟩
      have hkc : k < mk.columns := by omega
      obtain ⟨m', h1, ⟨hc', hrw', hwf', hr'⟩, hcell'⟩ :=
        swapRowsBody_spec hwfk hrk (hrw ▸ hj1) (hrw ▸ hj2) hkc m.columns hc.symm
      refine ⟨m', h1, ⟨hc'.trans hc, hrw'.trans hrw, hwf', hr'⟩, ?_⟩
      intro a b
      have hk1 : mk.cell k j1 = m.cell k j1 := by rw [hcell]; exact if_neg (by omega)
      have hk2 : mk.cell k j2 = m.cell k j2 := by rw [hcell]; exact if_neg (by omega)
      rw [hcell' a b, hk1, hk2, hcell a b]
      by_cases hak : a = k
      · subst hak
        rw [if_pos (by omega : a < a + 1), if_neg (by omega : ¬ a < a)]
        by_cases hb2 : b = j2
        · subst hb2
          rw [if_pos ⟨rfl, rfl⟩]
          by_cases hb1 : b = j1
          · subst hb1; rw [if_pos rfl]
          · rw [if_neg hb1, if_pos rfl]
        · rw [if_neg (fun h => hb2 h.2)]
          by_cases hb1 : b = j1
          · subst hb1; rw [if_pos ⟨rfl, rfl⟩, if_pos rfl]
          · rw [if_neg (fun h => hb1 h.2), if_neg hb1, if_neg hb2]
      · rw [if_neg (fun h => hak h.1), if_neg (fun h => hak h.1)]
        by_cases hlt : a < k
        · rw [if_pos hlt, if_pos (by omega : a < k + 1)]
        · rw [if_neg hlt, if_neg (by omega : ¬ a < k + 1)])
  obtain ⟨m', h1, hk, hcell⟩ := key
  refine ⟨m', h1, hk, ?_⟩
  intro a b
  rw [hcell a b, Nat.zero_add]
  by_cases ha : a < m.columns
  · rw [if_pos ha]
  · rw [if_neg ha, cell_eq_zero_of_ge m _ (by omega), cell_eq_zero_of_ge m _ (by omega),
      cell_eq_zero_of_ge m _ (by omega)]
    simp

theorem findSwap_spec {m : Matrix} (hwf : m.WF) {j : Nat} (hj : j < m.columns) :
    ∀ (n jf : Nat), jf + n = m.rows →
      (findSwap m j n jf = .ok none ∧ ∀ r, jf ≤ r → r < m.rows → m.cell j r = 0) ∨
      (∃ r, findSwap m j n jf = .ok (some r) ∧ jf ≤ r ∧ r < m.rows ∧ m.cell j r ≠ 0 ∧
        ∀ r', jf ≤ r' → r' < r → m.cell j r' = 0) := by
  intro n
  induction n with
  | zero =>
    intro jf h
    left
    exact ⟨rfl, fun r h1 h2 => by omega⟩
  | succ n ih =>
    intro jf h
    have hjf : jf < m.rows := by omega
    unfold findSwap
    rw [Get_ok hwf hj hjf]
    by_cases hz : m.cell j jf = 0
    · simp only [Zp.IsZero, hz, beq_self_eq_true, Bool.not_true, Bool.false_eq_true, if_false]
      rcases ih (jf + 1) (by omega) with ⟨h1, h2⟩ | ⟨r, h1, h2, h3, h4, h5⟩
      · left
        refine ⟨h1, fun r hr1 hr2 => ?_⟩
        rcases Nat.eq_or_lt_of_le hr1 with h | h
        · exact h ▸ hz
        · exact h2 r h hr2
      · right
        refine ⟨r, h1, by omega, h3, h4, fun r' hr1 hr2 => ?_⟩
        rcases Nat.eq_or_lt_of_le hr1 with h | h
        · exact h ▸ hz
        · exact h5 r' h hr2
    · right
      refine ⟨jf, ?_, Nat.le_refl _, hjf, hz, fun r' h1 h2 => by omega⟩
      simp [Zp.IsZero, hz]

end Matrix

namespace Matrix

theorem Keeps.trans {P : Nat} {m m1 m2 : Matrix} (h1 : Keeps P m m1) (h2 : Keeps P m1 m2) :
    Keeps P m m2 :=
  ⟨h2.1.trans h1.1, h2.2.1.trans h1.2.1, h2.2.2.1, h2.2.2.2⟩

theorem eliminate_spec {P : Nat} (hP : 0 < P) {m : Matrix} (hwf : m.WF) (hr : m.Reduced P)
    {j : Nat} (hj : j < m.rows) (hjc : j < m.columns) :
    ∃ m', loopUp (eliminateBody P j) (m.rows - (j + 1)) (j + 1) m = .ok m' ∧ Keeps P m m' ∧
      ∀ a b, m'.cell a b = eliminated P m.columns m.rows m.cell j a b := by
  have key := loopUp_inv (eliminateBody P j)
    (fun k m' => Keeps P m m' ∧ ∀ a b, m'.cell a b =
        if j < b ∧ b < k ∧ j ≤ a ∧ a < m.columns then
          subCell P (m.cell j b) (m.cell a j) (m.cell a b)
        else m.cell a b)
    (m.rows - (j + 1)) (j + 1) m
    ⟨Keeps.refl hwf hr, fun a b => by rw [if_neg (by omega)]⟩
    (by
      rintro k mk hk1 hk2 ⟨hkeep, hcell⟩
      obtain ⟨hc, hrw, hwfk, hrk⟩ := hkeep
      have hkr : k < m.rows := by omega
      have hs : mk.cell j k = m.cell j k := by rw [hcell]; exact if_neg (by omega)
      obtain ⟨m', h1, hkeep', hcell'⟩ :=
        rowsub_spec hP hwfk hrk j (m.cell j k) (hrw ▸ hj) (hrw ▸ hkr)
      refine ⟨m', ?_, Keeps.trans ⟨hc, hrw, hwfk, hrk⟩ hkeep', ?_⟩
      · unfold eliminateBody
        rw [Get_ok hwfk (hc ▸ hjc) (hrw ▸ hkr), hs]
        simpa [bind, Except.bind] using h1
      · intro a b
        have haj : mk.cell a j = m.cell a j := by rw [hcell]; exact if_neg (by omega)
        have hak : mk.cell a k = m.cell a k := by rw [hcell]; exact if_neg (by omega)
        rw [hcell' a b, haj, hak, hcell a b, hc]
        by_cases hb : b = k
        · subst hb
          by_cases ha : j ≤ a ∧ a < m.columns
          · rw [if_pos ⟨rfl, ha⟩, if_pos ⟨by omega, by omega, ha⟩]
          · rw [if_neg (fun h => ha h.2), if_neg (by omega), if_neg (fun h => ha h.2.2)]
        · rw [if_neg (fun h => hb h.1)]
          by_cases hc1 : j < b ∧ b < k ∧ j ≤ a ∧ a < m.columns
          · rw [if_pos hc1, if_pos ⟨hc1.1, by omega, hc1.2.2⟩]
          · rw [if_neg hc1, if_neg (by omega)])
  obtain ⟨m', h1, hk, hcell⟩ := key
  refine ⟨m', h1, hk, ?_⟩
  intro a b
  rw [hcell a b]
  have : j + 1 + (m.rows - (j + 1)) = m.rows := by omega
  rw [this]
  rfl

theorem Zp_Inv_ok {P x : Nat} (hx : x < P) (hx0 : x ≠ 0) :
    Zp.Inv P x = .ok (x ^ (P - 2) % P) := by
  unfold Zp.Inv
  rw [Nat.mod_eq_of_lt hx, if_neg hx0]

theorem normalizeAndEliminate_spec {P : Nat} (hP : 0 < P) {m : Matrix} (hwf : m.WF)
    (hr : m.Reduced P) {j : Nat} (hj : j < m.rows) (hjc : j < m.columns)
    (hv : m.cell j j ≠ 0) :
    ∃ m', normalizeAndEliminate P m j (m.cell j j) = .ok (none, m') ∧ Keeps P m m' ∧
      ∀ a b, m'.cell a b =
        eliminated P m.columns m.rows (pivotScaled P m.columns m.cell j) j a b := by
  have hvlt : m.cell j j < P := hr.cell_lt hP _ _
  unfold normalizeAndEliminate
  by_cases h64 : Zp.Int64 (m.cell j j) = 1
  · obtain ⟨m', h1, hk, hcell⟩ := eliminate_spec hP hwf hr hj hjc
    refine ⟨m', ?_, hk, ?_⟩
    · simp [h64, bind, Except.bind, pure, Except.pure, h1]
    · intro a b
      rw [hcell a b]
      have : pivotScaled P m.columns m.cell j = m.cell := by
        funext a b; simp [pivotScaled, h64]
      rw [this]
  · obtain ⟨m1, h1, hk1, hcell1⟩ :=
      scmultRow_spec hP hwf hr j ((m.cell j j) ^ (P - 2) % P) hj
    obtain ⟨hc1, hr1, hwf1, hred1⟩ := hk1
    obtain ⟨m', h2, hk2, hcell2⟩ := eliminate_spec hP hwf1 hred1 (hr1 ▸ hj) (hc1 ▸ hjc)
    refine ⟨m', ?_, Keeps.trans ⟨hc1, hr1, hwf1, hred1⟩ hk2, ?_⟩
    · simp [h64, bind, Except.bind, pure, Except.pure, Zp_Inv_ok hvlt hv, h1, h2]
    · intro a b
      rw [hcell2 a b, hc1, hr1]
      have : m1.cell = pivotScaled P m.columns m.cell j := by
        funext a b; rw [hcell1 a b]; simp [pivotScaled, h64]
      rw [this]

theorem swapped_self (f : Nat → Nat → Nat) (j : Nat) : swapped f j j = f := by
  funext a b
  unfold swapped
  by_cases h : b = j
  · subst h; simp
  · simp [h]

/-- What `processRowForward(j)` does, without any assumption on the modulus
but `0 < P`: it returns `nil`; it leaves the matrix alone when column `j` is
zero from row `j` down, and otherwise brings the first row `r ≥ j` with a
non-zero entry in column `j` to position `j`, normalises and eliminates. -/
theorem processRowForward_spec {P : Nat} (hP : 0 < P) {m : Matrix} (hwf : m.WF)
    (hr : m.Reduced P) {j : Nat} (hj : j < m.rows) (hjc : j < m.columns) :
    ∃ m', processRowForward P m j = .ok (none, m') ∧ Keeps P m m' ∧
      (((∀ r, j ≤ r → r < m.rows → m.cell j r = 0) ∧ m' = m) ∨
        ∃ r, j ≤ r ∧ r < m.rows ∧ m.cell j r ≠ 0 ∧ (∀ r', j ≤ r' → r' < r → m.cell j r' = 0) ∧
          ∀ a b, m'.cell a b =
            eliminated P m.columns m.rows
              (pivotScaled P m.columns (swapped m.cell j r) j) j a b) := by
  unfold processRowForward
  rw [Get_ok hwf hjc hj]
  by_cases hz : m.cell j j = 0
  · rcases findSwap_spec hwf hjc (m.rows - (j + 1)) (j + 1) (by omega) with
      ⟨h1, h2⟩ | ⟨r, h1, h2, h3, h4, h5⟩
    · refine ⟨m, ?_, Keeps.refl hwf hr, Or.inl ⟨fun r hr1 hr2 => ?_, rfl⟩⟩
      · simp [Zp.IsZero, hz, bind, Except.bind, h1, pure, Except.pure]
      · rcases Nat.eq_or_lt_of_le hr1 with h | h
        · exact h ▸ hz
        · exact h2 r h hr2
    · obtain ⟨m1, hs1, hk1, hcell1⟩ := swapRows_spec (P := P) hwf hr hj h3
      obtain ⟨hc1, hr1, hwf1, hred1⟩ := hk1
      have hm1 : m1.cell = swapped m.cell j r := by
        funext a b; rw [hcell1 a b]; rfl
      have hv1 : m1.cell j j ≠ 0 := by
        rw [hcell1, if_pos rfl]; exact h4
      obtain ⟨m', h6, hk2, hcell2⟩ :=
        normalizeAndEliminate_spec hP hwf1 hred1 (hr1 ▸ hj) (hc1 ▸ hjc) hv1
      refine ⟨m', ?_, Keeps.trans ⟨hc1, hr1, hwf1, hred1⟩ hk2, Or.inr ⟨r, by omega, h3, h4, ?_, ?_⟩⟩
      · simp only [Zp.IsZero, hz, beq_self_eq_true, if_true, bind, Except.bind, h1, hs1,
          Get_ok hwf1 (hc1 ▸ hjc) (hr1 ▸ hj)]
        exact h6
      · intro r' hr1' hr2'
        rcases Nat.eq_or_lt_of_le hr1' with h | h
        · exact h ▸ hz
        · exact h5 r' h hr2'
      · intro a b
        rw [hcell2 a b, hc1, hr1, hm1]
  · obtain ⟨m', h6, hk2, hcell2⟩ := normalizeAndEliminate_spec hP hwf hr hj hjc hz
    refine ⟨m', ?_, hk2, Or.inr ⟨j, Nat.le_refl _, hj, hz, fun r' h1 h2 => by omega, ?_⟩⟩
    · simp only [Zp.IsZero, beq_iff_eq, hz, if_false, bind, Except.bind]
      exact h6
    · intro a b
      rw [hcell2 a b, swapped_self]

end Matrix

namespace Matrix

theorem Zp_Zi_zero (P : Nat) : Zp.Zi P 0 = 0 := by
  simp [Zp.Zi]

theorem backSubstituteBody_spec {P : Nat} (hP : 0 < P) {m : Matrix} (hwf : m.WF)
    (hr : m.Reduced P) (last : Nat) {j j2 : Nat} (hj : j < m.rows) (hjc : j < m.columns)
    (hj2 : j2 < m.rows) :
    ∃ m', backSubstituteBody P last j j2 m = .ok m' ∧ Keeps P m m' ∧
      ∀ a b, m'.cell a b =
        if b = j2 then
          (if a = j then 0
           else if last ≤ a ∧ a < m.columns then
             subCell P (m.cell j j2) (m.cell a j) (m.cell a j2) else m.cell a b)
        else m.cell a b := by
  obtain ⟨m1, h1, ⟨hc1, hr1, hwf1, hred1⟩, hcell1⟩ :=
    rowsub_spec hP hwf hr last (m.cell j j2) hj hj2
  obtain ⟨m2, h2, hc2, hr2, hwf2, hcell2, hred2⟩ :=
    Set_spec P (Zp.Zi P 0) hwf1 (hc1 ▸ hjc) (hr1 ▸ hj2)
  refine ⟨m2, ?_, ⟨hc2.trans hc1, hr2.trans hr1, hwf2, hred2 hred1 (by rw [Zp_Zi_zero]; exact hP)⟩, ?_⟩
  · unfold backSubstituteBody
    rw [Get_ok hwf hjc hj2]
    simp only [bind, Except.bind, h1, h2]
  · intro a b
    rw [hcell2 a b, hcell1 a b, Zp_Zi_zero]
    by_cases hb : b = j2
    · subst hb
      by_cases ha : a = j
      · rw [if_pos ⟨ha, rfl⟩, if_pos rfl, if_pos ha]
      · rw [if_neg (fun h => ha h.1), if_pos rfl, if_neg ha]
        by_cases hl : last ≤ a ∧ a < m.columns
        · rw [if_pos ⟨rfl, hl⟩, if_pos hl]
        · rw [if_neg (fun h => hl h.2), if_neg hl]
    · rw [if_neg (fun h => hb h.2), if_neg (fun h => hb h.1), if_neg hb]

theorem backSubstitute_spec {P : Nat} (hP : 0 < P) {m : Matrix} (hwf : m.WF)
    (hr : m.Reduced P) {j : Nat} (hj : j < m.rows) (hjc : j < m.columns) :
    ∃ m', backSubstitute P m j = .ok m' ∧ Keeps P m m' ∧
      ∀ a b, m'.cell a b =
        if Zp.Int64 (m.cell j j) = 1 then
          backSubstituted P m.columns (m.rows - 1) m.cell j a b
        else m.cell a b := by
  unfold backSubstitute
  rw [Get_ok hwf hjc hj]
  by_cases h64 : Zp.Int64 (m.cell j j) = 1
  · have key := loopDown_inv (backSubstituteBody P (m.rows - 1) j) 0
      (fun t m' => Keeps P m m' ∧ ∀ a b, m'.cell a b =
        if t ≤ b ∧ b < j then
          (if a = j then 0
           else if m.rows - 1 ≤ a ∧ a < m.columns then
             subCell P (m.cell j b) (m.cell a j) (m.cell a b) else m.cell a b)
        else m.cell a b)
      j m
      ⟨Keeps.refl hwf hr, fun a b => by rw [if_neg (by omega)]⟩
      (by
        rintro k mk hk ⟨⟨hc, hrw, hwfk, hrk⟩, hcell⟩
        obtain ⟨m', h1, hkeep', hcell'⟩ :=
          backSubstituteBody_spec hP hwfk hrk (m.rows - 1) (hrw ▸ hj) (hc ▸ hjc)
            (show k < mk.rows by omega)
        rw [Nat.zero_add]
        refine ⟨m', h1, Keeps.trans ⟨hc, hrw, hwfk, hrk⟩ hkeep', ?_⟩
        intro a b
        have e1 : mk.cell j k = m.cell j k := by rw [hcell]; exact if_neg (by omega)
        have e2 : mk.cell a j = m.cell a j := by rw [hcell]; exact if_neg (by omega)
        have e3 : mk.cell a k = m.cell a k := by rw [hcell]; exact if_neg (by omega)
        rw [hcell' a b, hc]
        by_cases hb : b = k
        · subst hb
          rw [if_pos rfl, if_pos (show b ≤ b ∧ b < j from ⟨Nat.le_refl _, hk⟩), e1, e2, e3]
        · rw [if_neg hb, hcell a b]
          by_cases hb2 : k + 1 ≤ b ∧ b < j
          · rw [if_pos hb2, if_pos (show k ≤ b ∧ b < j from ⟨by omega, hb2.2⟩)]
          · rw [if_neg hb2, if_neg (show ¬ (k ≤ b ∧ b < j) by omega)])
    obtain ⟨m', h1, hk, hcell⟩ := key
    refine ⟨m', ?_, hk, ?_⟩
    · simp only [bind, Except.bind, h64, beq_self_eq_true, if_true]
      exact h1
    · intro a b
      rw [hcell a b, if_pos h64]
      unfold backSubstituted
      by_cases hb : b < j
      · rw [if_pos ⟨Nat.zero_le _, hb⟩, if_pos hb]
      · rw [if_neg (fun h => hb h.2), if_neg hb]
  · refine ⟨m, ?_, Keeps.refl hwf hr, fun a b => by rw [if_neg h64]⟩
    simp [bind, Except.bind, h64, pure, Except.pure]

/-- Loop rule for the forward loop of `Reduce`. -/
theorem forwardLoop_inv (P : Nat) (I : Nat → Matrix → Prop) :
    ∀ (n j : Nat) (m : Matrix), I j m →
      (∀ k mk, j ≤ k → k < j + n → I k mk →
        ∃ m', processRowForward P mk k = .ok (none, m') ∧ I (k + 1) m') →
      ∃ m', forwardLoop P n j m = .ok (none, m') ∧ I (j + n) m' := by
  intro n
  induction n with
  | zero => intro j m h _; exact ⟨m, rfl, h⟩
  | succ n ih =>
    intro j m h hstep
    obtain ⟨m1, h1, h1I⟩ := hstep j m (Nat.le_refl _) (by omega) h
    obtain ⟨m2, h2, h2I⟩ :=
      ih (j + 1) m1 h1I (fun k s hk hk2 hI => hstep k s (by omega) (by omega) hI)
    refine ⟨m2, ?_, ?_⟩
    · simp only [forwardLoop, h1]; exact h2
    · have : j + (n + 1) = j + 1 + n := by omega
      rw [this]; exact h2I

theorem forwardLoop_keeps {P : Nat} (hP : 0 < P) {m : Matrix} (hwf : m.WF) (hr : m.Reduced P)
    (hcr : m.rows ≤ m.columns) :
    ∃ m', forwardLoop P m.rows 0 m = .ok (none, m') ∧ Keeps P m m' := by
  obtain ⟨m', h1, h2⟩ := forwardLoop_inv P (fun _ m' => Keeps P m m') m.rows 0 m
    (Keeps.refl hwf hr)
    (by
      rintro k mk _ hk ⟨hc, hrw, hwfk, hrk⟩
      obtain ⟨m', h1, hk', _⟩ :=
        processRowForward_spec hP hwfk hrk (show k < mk.rows by omega)
          (show k < mk.columns by omega)
      exact ⟨m', h1, Keeps.trans ⟨hc, hrw, hwfk, hrk⟩ hk'⟩)
  exact ⟨m', h1, h2⟩

theorem backLoop_keeps {P : Nat} (hP : 0 < P) {m : Matrix} (hwf : m.WF) (hr : m.Reduced P)
    (hcr : m.rows ≤ m.columns) :
    ∃ m', loopDown (fun j s => backSubstitute P s j) 1 (m.rows - 1) m = .ok m' ∧
      Keeps P m m' := by
  obtain ⟨m', h1, h2⟩ := loopDown_inv (fun j s => backSubstitute P s j) 1
    (fun _ m' => Keeps P m m') (m.rows - 1) m (Keeps.refl hwf hr)
    (by
      rintro k mk hk ⟨hc, hrw, hwfk, hrk⟩
      obtain ⟨m', h1, hk', _⟩ :=
        backSubstitute_spec hP hwfk hrk (show 1 + k < mk.rows by omega)
          (show 1 + k < mk.columns by omega)
      exact ⟨m', h1, Keeps.trans ⟨hc, hrw, hwfk, hrk⟩ hk'⟩)
  exact ⟨m', h1, h2⟩

theorem Reduce_ok {P : Nat} (hP : 0 < P) {m : Matrix} (hwf : m.WF) (hr : m.Reduced P)
    (hcr : m.rows ≤ m.columns) :
    ∃ m', Reduce P m = .ok (none, m') ∧ Keeps P m m' := by
  obtain ⟨m1, h1, hk1⟩ := forwardLoop_keeps hP hwf hr hcr
  obtain ⟨m2, h2, hk2⟩ := backLoop_keeps hP hk1.2.2.1 hk1.2.2.2 (by rw [hk1.1, hk1.2.1]; exact hcr)
  refine ⟨m2, ?_, Keeps.trans hk1 hk2⟩
  unfold Reduce
  rw [if_neg (by omega), h1]
  simp only [h2]

end Matrix

/-! ## Arithmetic of the field elements -/

namespace Matrix

theorem int64_eq_one_iff {v : Nat} (h : v < 2 ^ 64) : Zp.Int64 v = 1 ↔ v = 1 := by
  unfold Zp.Int64
  rw [Nat.mod_eq_of_lt h]
  constructor
  · intro h1
    split at h1
    · exact_mod_cast h1
    · omega
  · rintro rfl
    norm_num

theorem exact64_of_lt {v : Nat} (h : v < 2 ^ 64) : Exact64 v :=
  fun h1 => (int64_eq_one_iff h).mp h1

theorem exact64_zero : Exact64 0 := exact64_of_lt (by norm_num)

theorem cast_inj_of_lt {P x y : Nat} (hx : x < P) (hy : y < P)
    (h : (x : ZMod P) = (y : ZMod P)) : x = y := by
  have := (ZMod.natCast_eq_natCast_iff' x y P).mp h
  rwa [Nat.mod_eq_of_lt hx, Nat.mod_eq_of_lt hy] at this

theorem cast_ne_zero {P x : Nat} (hx : x < P) (h0 : x ≠ 0) : (x : ZMod P) ≠ 0 := by
  intro h
  apply h0
  have hP : 0 < P := by omega
  exact cast_inj_of_lt hx hP (by simpa using h)

theorem Zp_Mul_cast (P x y : Nat) : ((Zp.Mul P x y : Nat) : ZMod P) = (x : ZMod P) * y := by
  unfold Zp.Mul
  rw [ZMod.natCast_mod]
  push_cast
  rfl

theorem Zp_Sub_cast {P : Nat} (hP : 0 < P) (x y : Nat) :
    ((Zp.Sub P x y : Nat) : ZMod P) = (x : ZMod P) - y := by
  unfold Zp.Sub
  have h1 : (0 : Int) ≤ ((x : Int) - y) % P := Int.emod_nonneg _ (by omega)
  have h2 : (((((x : Int) - y) % P).toNat : Nat) : ZMod P)
      = (((((x : Int) - y) % P).toNat : Int) : ZMod P) := by
    rw [Int.cast_natCast]
  rw [h2, Int.toNat_of_nonneg h1, ZMod.intCast_mod]
  push_cast
  rfl

theorem Zp_inv_cast {P : Nat} (hp : P.Prime) {v : Nat} (hv : v < P) (hv0 : v ≠ 0) :
    ((v ^ (P - 2) % P : Nat) : ZMod P) = ((v : ZMod P))⁻¹ := by
  haveI : Fact P.Prime := ⟨hp⟩
  have hne : (v : ZMod P) ≠ 0 := cast_ne_zero hv hv0
  rw [ZMod.natCast_mod]
  push_cast
  apply eq_inv_of_mul_eq_one_right
  have h2 : 2 ≤ P := hp.two_le
  have : (v : ZMod P) * (v : ZMod P) ^ (P - 2) = (v : ZMod P) ^ (P - 1) := by
    rw [← pow_succ']
    congr 1
    omega
  rw [this]
  exact ZMod.pow_card_sub_one_eq_one hne

theorem subCell_cast_exact {P : Nat} (hP : 0 < P) {s sval v : Nat} (hex : Exact64 s) :
    ((subCell P s sval v : Nat) : ZMod P) = (v : ZMod P) - (sval : ZMod P) * s := by
  unfold subCell
  by_cases hz : sval = 0
  · subst hz
    simp [Zp.IsZero]
  · have hz' : (!Zp.IsZero sval) = true := by simp [Zp.IsZero, hz]
    rw [if_pos hz']
    by_cases h1 : Zp.Int64 s = 1
    · have hs1 : s = 1 := hex h1
      have : ¬ ((Zp.Int64 s != 1) = true) := by simp [h1]
      rw [if_neg this, Zp_Sub_cast hP, hs1]
      simp
    · have : (Zp.Int64 s != 1) = true := by simp [h1]
      rw [if_pos this, Zp_Sub_cast hP, Zp_Mul_cast]

theorem subCell_cast {P : Nat} (hP : 0 < P) (h64 : P ≤ 2 ^ 64) {s sval v : Nat} (hs : s < P) :
    ((subCell P s sval v : Nat) : ZMod P) = (v : ZMod P) - (sval : ZMod P) * s :=
  subCell_cast_exact hP (exact64_of_lt (lt_of_lt_of_le hs h64))

end Matrix

/-! ## One forward step, over `Z_P` -/

namespace Matrix

theorem pivotScaled_cast_exact {P : Nat} (hp : P.Prime) {h : Nat → Nat → Nat}
    (hred : Red P h) {c j : Nat} (hcol : ∀ a, a < j ∨ c ≤ a → h a j = 0) (hv : h j j ≠ 0)
    (hex : Exact64 (h j j)) (a b : Nat) :
    ((pivotScaled P c h j a b : Nat) : ZMod P) =
      if b = j then (h a j : ZMod P) * ((h j j : ZMod P))⁻¹ else (h a b : ZMod P) := by
  unfold pivotScaled
  by_cases h1 : Zp.Int64 (h j j) = 1
  · have hv1 : h j j = 1 := hex h1
    have : ¬ ((Zp.Int64 (h j j) != 1) = true) := by simp [h1]
    rw [if_neg this, hv1]
    by_cases hb : b = j
    · subst hb; simp
    · rw [if_neg hb]
  · have : (Zp.Int64 (h j j) != 1) = true := by simp [h1]
    rw [if_pos this]
    by_cases hb : b = j
    · subst hb
      rw [if_pos rfl]
      by_cases ha : b ≤ a ∧ a < c
      · rw [if_pos ⟨rfl, ha⟩, Zp_Mul_cast, Zp_inv_cast hp (hred b b) hv]
      · rw [if_neg (fun h => ha h.2), hcol a (by omega)]
        simp
    · rw [if_neg (fun h => hb h.1), if_neg hb]

theorem pivotScaled_cast {P : Nat} (hp : P.Prime) (h64 : P ≤ 2 ^ 64) {h : Nat → Nat → Nat}
    (hred : Red P h) {c j : Nat} (hcol : ∀ a, a < j ∨ c ≤ a → h a j = 0) (hv : h j j ≠ 0)
    (a b : Nat) :
    ((pivotScaled P c h j a b : Nat) : ZMod P) =
      if b = j then (h a j : ZMod P) * ((h j j : ZMod P))⁻¹ else (h a b : ZMod P) :=
  pivotScaled_cast_exact hp hred hcol hv (exact64_of_lt (lt_of_lt_of_le (hred j j) h64)) a b

theorem pivotScaled_red {P : Nat} (hP : 0 < P) {h : Nat → Nat → Nat} (hred : Red P h)
    (c j : Nat) : Red P (pivotScaled P c h j) := by
  intro a b
  unfold pivotScaled
  split
  · split
    · exact Zp_Mul_lt hP _ _
    · exact hred a b
  · exact hred a b

theorem eliminated_red {P : Nat} (hP : 0 < P) {g : Nat → Nat → Nat} (hred : Red P g)
    (c n j : Nat) : Red P (eliminated P c n g j) := by
  intro a b
  unfold eliminated
  split
  · exact subCell_lt hP _ _ _ (hred a b)
  · exact hred a b

theorem eliminated_cast_exact {P : Nat} (hP : 0 < P) {g : Nat → Nat → Nat} {c n j : Nat}
    (hcol : ∀ a, a < j ∨ c ≤ a → g a j = 0) (hex : ∀ b, j < b → b < n → Exact64 (g j b))
    (a b : Nat) :
    ((eliminated P c n g j a b : Nat) : ZMod P) =
      if j < b ∧ b < n then (g a b : ZMod P) - (g a j : ZMod P) * (g j b : ZMod P)
      else (g a b : ZMod P) := by
  unfold eliminated
  by_cases hb : j < b ∧ b < n
  · rw [if_pos hb]
    by_cases ha : j ≤ a ∧ a < c
    · rw [if_pos ⟨hb.1, hb.2, ha⟩, subCell_cast_exact hP (hex b hb.1 hb.2)]
    · rw [if_neg (fun h => ha h.2.2), hcol a (by omega)]
      simp
  · rw [if_neg hb, if_neg (fun h => hb ⟨h.1, h.2.1⟩)]

theorem eliminated_cast {P : Nat} (hP : 0 < P) (h64 : P ≤ 2 ^ 64) {g : Nat → Nat → Nat}
    (hred : Red P g) {c n j : Nat} (hcol : ∀ a, a < j ∨ c ≤ a → g a j = 0) (a b : Nat) :
    ((eliminated P c n g j a b : Nat) : ZMod P) =
      if j < b ∧ b < n then (g a b : ZMod P) - (g a j : ZMod P) * (g j b : ZMod P)
      else (g a b : ZMod P) :=
  eliminated_cast_exact hP hcol (fun b _ _ => exact64_of_lt (lt_of_lt_of_le (hred j b) h64)) a b

theorem swapped_red {P : Nat} {f : Nat → Nat → Nat} (hred : Red P f) (j r : Nat) :
    Red P (swapped f j r) := by
  intro a b
  unfold swapped
  split
  · exact hred _ _
  · split
    · exact hred _ _
    · exact hred _ _

theorem swapped_exact {f : Nat → Nat → Nat} {j r : Nat} (hex : ∀ b, Exact64 (f j b)) (b : Nat) :
    Exact64 (swapped f j r j b) := by
  unfold swapped
  split
  · exact hex _
  · split
    · exact hex _
    · exact hex _

theorem stepped_cast_exact {P : Nat} (hp : P.Prime) {f : Nat → Nat → Nat}
    (hred : Red P f) {c n j r : Nat} (hjr : j ≤ r) (hlz : LowerZero f j) (hin : Within c n f)
    (hv : f j r ≠ 0) (hex : ∀ b, Exact64 (f j b)) (a b : Nat) :
    ((stepped P c n f j r a b : Nat) : ZMod P) =
      if b = j then (swapped f j r a j : ZMod P) * ((f j r : ZMod P))⁻¹
      else if j < b ∧ b < n then
        (swapped f j r a b : ZMod P) -
          ((swapped f j r a j : ZMod P) * ((f j r : ZMod P))⁻¹) * (swapped f j r j b : ZMod P)
      else (swapped f j r a b : ZMod P) := by
  have hP : 0 < P := hp.pos
  have hjj : swapped f j r j j = f j r := by simp [swapped]
  have hcolh : ∀ a, a < j ∨ c ≤ a → swapped f j r a j = 0 := by
    intro a ha
    simp only [swapped, if_true]
    rcases ha with ha | ha
    · exact hlz a r ha (by omega)
    · exact hin a r (Or.inl ha)
  have hredh := swapped_red hred j r
  have hv' : swapped f j r j j ≠ 0 := by rw [hjj]; exact hv
  have hexp : Exact64 (swapped f j r j j) := swapped_exact hex j
  have hps := pivotScaled_cast_exact hp hredh hcolh hv' hexp
  have hcolg : ∀ a, a < j ∨ c ≤ a → pivotScaled P c (swapped f j r) j a j = 0 := by
    intro a ha
    have h1 := hps a j
    rw [if_pos rfl, hcolh a ha] at h1
    have h2 : ((pivotScaled P c (swapped f j r) j a j : Nat) : ZMod P) = ((0 : Nat) : ZMod P) := by
      rw [h1]; simp
    exact cast_inj_of_lt (pivotScaled_red hP hredh c j a j) hP h2
  have hexg : ∀ b, j < b → b < n → Exact64 (pivotScaled P c (swapped f j r) j j b) := by
    intro b hb _
    have e : pivotScaled P c (swapped f j r) j j b = swapped f j r j b := by
      unfold pivotScaled
      split
      · rw [if_neg (by omega)]
      · rfl
    rw [e]
    exact swapped_exact hex b
  unfold stepped
  rw [eliminated_cast_exact hP hcolg hexg]
  by_cases hb : b = j
  · subst hb
    rw [if_neg (by omega), if_pos rfl, hps, if_pos rfl, hjj]
  · rw [if_neg hb]
    by_cases hb2 : j < b ∧ b < n
    · rw [if_pos hb2, if_pos hb2, hps, if_neg hb, hps, if_pos rfl, hps, if_neg hb, hjj]
    · rw [if_neg hb2, if_neg hb2, hps, if_neg hb]

theorem stepped_cast {P : Nat} (hp : P.Prime) (h64 : P ≤ 2 ^ 64) {f : Nat → Nat → Nat}
    (hred : Red P f) {c n j r : Nat} (hjr : j ≤ r) (hlz : LowerZero f j) (hin : Within c n f)
    (hv : f j r ≠ 0) (a b : Nat) :
    ((stepped P c n f j r a b : Nat) : ZMod P) =
      if b = j then (swapped f j r a j : ZMod P) * ((f j r : ZMod P))⁻¹
      else if j < b ∧ b < n then
        (swapped f j r a b : ZMod P) -
          ((swapped f j r a j : ZMod P) * ((f j r : ZMod P))⁻¹) * (swapped f j r j b : ZMod P)
      else (swapped f j r a b : ZMod P) :=
  stepped_cast_exact hp hred hjr hlz hin hv
    (fun b => exact64_of_lt (lt_of_lt_of_le (hred j b) h64)) a b

end Matrix

namespace Matrix

theorem stepped_red {P : Nat} (hP : 0 < P) {f : Nat → Nat → Nat} (hred : Red P f)
    (c n j r : Nat) : Red P (stepped P c n f j r) :=
  eliminated_red hP (pivotScaled_red hP (swapped_red hred j r) c j) c n j

theorem swapped_lowerZero {f : Nat → Nat → Nat} {j r : Nat} (hjr : j ≤ r) (hlz : LowerZero f j)
    (a b : Nat) (ha : a < j) (hab : a < b) : swapped f j r a b = 0 := by
  unfold swapped
  split
  · exact hlz a r ha (by omega)
  · split
    · exact hlz a j ha ha
    · exact hlz a b ha hab

theorem stepped_above {P c n : Nat} {f : Nat → Nat → Nat} {j r : Nat} (hjr : j ≤ r)
    (a b : Nat) (hb : b < j) : stepped P c n f j r a b = f a b := by
  unfold stepped eliminated pivotScaled swapped
  have h1 : ¬ (j < b ∧ b < n ∧ j ≤ a ∧ a < c) := by omega
  have h2 : ¬ (b = j ∧ j ≤ a ∧ a < c) := by omega
  have h3 : ¬ b = j := by omega
  have h4 : ¬ b = r := by omega
  simp [h1, h3, h4]

theorem stepped_pivot_exact {P : Nat} (hp : P.Prime) {f : Nat → Nat → Nat}
    (hred : Red P f) {c n j r : Nat} (hjr : j ≤ r) (hlz : LowerZero f j) (hin : Within c n f)
    (hv : f j r ≠ 0)
    (hex : ∀ b, Exact64 (f j b)) : stepped P c n f j r j j = 1 := by
  haveI : Fact P.Prime := ⟨hp⟩
  have h := stepped_cast_exact hp hred hjr hlz hin hv hex j j
  rw [if_pos rfl] at h
  have hjj : swapped f j r j j = f j r := by simp [swapped]
  rw [hjj, mul_inv_cancel₀ (cast_ne_zero (hred j r) hv)] at h
  apply cast_inj_of_lt (stepped_red hp.pos hred c n j r j j) hp.one_lt
  rw [h]; simp

theorem stepped_pivot {P : Nat} (hp : P.Prime) (h64 : P ≤ 2 ^ 64) {f : Nat → Nat → Nat}
    (hred : Red P f) {c n j r : Nat} (hjr : j ≤ r) (hlz : LowerZero f j) (hin : Within c n f)
    (hv : f j r ≠ 0) : stepped P c n f j r j j = 1 :=
  stepped_pivot_exact hp hred hjr hlz hin hv
    (fun b => exact64_of_lt (lt_of_lt_of_le (hred j b) h64))

theorem stepped_lowerZero_exact {P : Nat} (hp : P.Prime) {f : Nat → Nat → Nat}
    (hred : Red P f) {c n j r : Nat} (hjr : j ≤ r) (hrn : r < n) (hlz : LowerZero f j)
    (hin : Within c n f) (hv : f j r ≠ 0)
    (hex : ∀ b, Exact64 (f j b)) : LowerZero (stepped P c n f j r) (j + 1) := by
  intro a b ha hab
  haveI : Fact P.Prime := ⟨hp⟩
  apply cast_inj_of_lt (stepped_red hp.pos hred c n j r a b) hp.pos
  rw [stepped_cast_exact hp hred hjr hlz hin hv hex a b]
  have hjj : swapped f j r j j = f j r := by simp [swapped]
  have hne : (f j r : ZMod P) ≠ 0 := cast_ne_zero (hred j r) hv
  by_cases hb : b = j
  · subst hb
    rw [if_pos rfl, swapped_lowerZero hjr hlz a b (by omega) hab]
    simp
  · rw [if_neg hb]
    by_cases hb2 : j < b ∧ b < n
    · rw [if_pos hb2]
      rcases Nat.lt_succ_iff_lt_or_eq.mp ha with h | h
      · rw [swapped_lowerZero hjr hlz a b h hab, swapped_lowerZero hjr hlz a j h h]
        simp
      · subst h
        rw [hjj, mul_inv_cancel₀ hne]
        simp
    · rw [if_neg hb2]
      have hbr : b ≠ r := by omega
      have : swapped f j r a b = f a b := by simp [swapped, hb, hbr]
      rw [this]
      by_cases hbn : n ≤ b
      · rw [hin a b (Or.inr hbn)]
      · rw [hlz a b (by omega) hab]

theorem stepped_lowerZero {P : Nat} (hp : P.Prime) (h64 : P ≤ 2 ^ 64) {f : Nat → Nat → Nat}
    (hred : Red P f) {c n j r : Nat} (hjr : j ≤ r) (hrn : r < n) (hlz : LowerZero f j)
    (hin : Within c n f) (hv : f j r ≠ 0) : LowerZero (stepped P c n f j r) (j + 1) :=
  stepped_lowerZero_exact hp hred hjr hrn hlz hin hv
    (fun b => exact64_of_lt (lt_of_lt_of_le (hred j b) h64))

theorem swapped_ortho {P c n : Nat} {f : Nat → Nat → Nat} {j r : Nat} (hj : j < n) (hr : r < n)
    {w : Nat → ZMod P} (h : Ortho P c n f w) : Ortho P c n (swapped f j r) w := by
  intro b hb
  by_cases h1 : b = j
  · subst h1; simpa [swapped] using h r hr
  · by_cases h2 : b = r
    · subst h2; simpa [swapped, h1] using h j hj
    · simpa [swapped, h1, h2] using h b hb

theorem stepped_ortho_exact {P : Nat} (hp : P.Prime) {f : Nat → Nat → Nat}
    (hred : Red P f) {c n j r : Nat} (hjr : j ≤ r) (hrn : r < n) (hlz : LowerZero f j)
    (hin : Within c n f) (hv : f j r ≠ 0)
    (hex : ∀ b, Exact64 (f j b)) {w : Nat → ZMod P} (h : Ortho P c n f w) :
    Ortho P c n (stepped P c n f j r) w := by
  have hs := swapped_ortho (show j < n by omega) hrn h
  intro b hb
  simp only [stepped_cast_exact hp hred hjr hlz hin hv hex]
  by_cases hb1 : b = j
  · simp only [hb1, if_true]
    have : ∀ a, (swapped f j r a j : ZMod P) * ((f j r : ZMod P))⁻¹ * w a =
        ((f j r : ZMod P))⁻¹ * ((swapped f j r a j : ZMod P) * w a) := by intro a; ring
    simp only [this]
    rw [← Finset.mul_sum, hs j (by omega), mul_zero]
  · by_cases hb2 : j < b ∧ b < n
    · simp only [hb1, hb2, if_true, if_false, and_self]
      have : ∀ a, ((swapped f j r a b : ZMod P) -
          (swapped f j r a j : ZMod P) * ((f j r : ZMod P))⁻¹ * (swapped f j r j b : ZMod P)) * w a =
          (swapped f j r a b : ZMod P) * w a -
            (((f j r : ZMod P))⁻¹ * (swapped f j r j b : ZMod P)) *
              ((swapped f j r a j : ZMod P) * w a) := by intro a; ring
      simp only [this]
      rw [Finset.sum_sub_distrib, ← Finset.mul_sum, hs j (by omega), hs b hb, mul_zero, sub_zero]
    · simp only [hb1, hb2, if_false]
      exact hs b hb

theorem stepped_ortho {P : Nat} (hp : P.Prime) (h64 : P ≤ 2 ^ 64) {f : Nat → Nat → Nat}
    (hred : Red P f) {c n j r : Nat} (hjr : j ≤ r) (hrn : r < n) (hlz : LowerZero f j)
    (hin : Within c n f) (hv : f j r ≠ 0) {w : Nat → ZMod P} (h : Ortho P c n f w) :
    Ortho P c n (stepped P c n f j r) w :=
  stepped_ortho_exact hp hred hjr hrn hlz hin hv
    (fun b => exact64_of_lt (lt_of_lt_of_le (hred j b) h64)) h

end Matrix

namespace Matrix

theorem swapped_swapped (f : Nat → Nat → Nat) (j r : Nat) : swapped (swapped f j r) j r = f := by
  funext a b
  unfold swapped
  by_cases h1 : b = j
  · subst h1
    by_cases h2 : r = b
    · subst h2; simp
    · simp [h2]
  · by_cases h2 : b = r
    · subst h2; simp [h1]
    · simp [h1, h2]

theorem stepped_ortho_rev_exact {P : Nat} (hp : P.Prime) {f : Nat → Nat → Nat}
    (hred : Red P f) {c n j r : Nat} (hjr : j ≤ r) (hrn : r < n) (hlz : LowerZero f j)
    (hin : Within c n f) (hv : f j r ≠ 0)
    (hex : ∀ b, Exact64 (f j b)) {w : Nat → ZMod P}
    (h : Ortho P c n (stepped P c n f j r) w) : Ortho P c n f w := by
  haveI : Fact P.Prime := ⟨hp⟩
  have hne : (f j r : ZMod P) ≠ 0 := cast_ne_zero (hred j r) hv
  have hj : j < n := by omega
  have hrowj : ∑ a in Finset.range c, (swapped f j r a j : ZMod P) * w a = 0 := by
    have h1 := h j hj
    simp only [stepped_cast_exact hp hred hjr hlz hin hv hex, if_true] at h1
    have : ∀ a, (swapped f j r a j : ZMod P) * w a =
        (f j r : ZMod P) * ((swapped f j r a j : ZMod P) * ((f j r : ZMod P))⁻¹ * w a) := by
      intro a
      field_simp
    simp only [this]
    rw [← Finset.mul_sum, h1, mul_zero]
  have hs : Ortho P c n (swapped f j r) w := by
    intro b hb
    by_cases hb1 : b = j
    · rw [hb1]; exact hrowj
    · have h1 := h b hb
      simp only [stepped_cast_exact hp hred hjr hlz hin hv hex, hb1, if_false] at h1
      by_cases hb2 : j < b ∧ b < n
      · simp only [hb2, and_self, if_true] at h1
        have : ∀ a, ((swapped f j r a b : ZMod P) -
            (swapped f j r a j : ZMod P) * ((f j r : ZMod P))⁻¹ * (swapped f j r j b : ZMod P)) * w a =
            (swapped f j r a b : ZMod P) * w a -
              (((f j r : ZMod P))⁻¹ * (swapped f j r j b : ZMod P)) *
                ((swapped f j r a j : ZMod P) * w a) := by intro a; ring
        simp only [this] at h1
        rw [Finset.sum_sub_distrib, ← Finset.mul_sum, hrowj, mul_zero, sub_zero] at h1
        exact h1
      · simp only [hb2, if_false] at h1
        exact h1
  have := swapped_ortho hj hrn hs
  rwa [swapped_swapped] at this

theorem stepped_ortho_rev {P : Nat} (hp : P.Prime) (h64 : P ≤ 2 ^ 64) {f : Nat → Nat → Nat}
    (hred : Red P f) {c n j r : Nat} (hjr : j ≤ r) (hrn : r < n) (hlz : LowerZero f j)
    (hin : Within c n f) (hv : f j r ≠ 0) {w : Nat → ZMod P}
    (h : Ortho P c n (stepped P c n f j r) w) : Ortho P c n f w :=
  stepped_ortho_rev_exact hp hred hjr hrn hlz hin hv
    (fun b => exact64_of_lt (lt_of_lt_of_le (hred j b) h64)) h

theorem cell_red {P : Nat} {m : Matrix} (hr : m.Reduced P) (hP : 0 < P) : Red P m.cell :=
  fun a b => hr.cell_lt hP a b

theorem cell_within (m : Matrix) : Within m.columns m.rows m.cell := by
  intro a b h
  rcases h with h | h
  · exact cell_eq_zero_of_ge m b h
  · exact cell_eq_zero_of_row_ge m a h

theorem lowerZero_succ_of_column_zero {f : Nat → Nat → Nat} {j : Nat} (hlz : LowerZero f j)
    (h0 : ∀ b, j < b → f j b = 0) : LowerZero f (j + 1) := by
  intro a b ha hab
  rcases Nat.lt_succ_iff_lt_or_eq.mp ha with h | h
  · exact hlz a b h hab
  · subst h; exact h0 b hab

theorem forward_step {P : Nat} (hp : P.Prime) (h64 : P ≤ 2 ^ 64) {m : Matrix}
    (hcr : m.rows ≤ m.columns) {k : Nat} {mk : Matrix} (hk : k < m.rows)
    (hI : ForwardInv P m k mk) :
    ∃ m', processRowForward P mk k = .ok (none, m') ∧ ForwardInv P m (k + 1) m' := by
  obtain ⟨⟨hc, hrw, hwfk, hrk⟩, hlz, hdiag, hortho⟩ := hI
  have hP : 0 < P := hp.pos
  obtain ⟨m', h1, hk', hcase⟩ :=
    processRowForward_spec hP hwfk hrk (show k < mk.rows by omega) (show k < mk.columns by omega)
  refine ⟨m', h1, ?_⟩
  have hkeep : Keeps P m m' := Keeps.trans ⟨hc, hrw, hwfk, hrk⟩ hk'
  rcases hcase with ⟨hz, rfl⟩ | ⟨r, hjr, hrn, hv, _, hcell⟩
  · refine ⟨hkeep, ?_, ?_, hortho⟩
    · apply lowerZero_succ_of_column_zero hlz
      intro b hb
      by_cases hbn : b < m'.rows
      · exact hz b (by omega) hbn
      · exact cell_eq_zero_of_row_ge _ _ (by omega)
    · intro a ha
      rcases Nat.lt_succ_iff_lt_or_eq.mp ha with h | h
      · exact hdiag a h
      · subst h; exact Or.inl (hz a (Nat.le_refl _) (by omega))
  · have hred := cell_red hrk hP
    have hin := cell_within mk
    have hm' : m'.cell = stepped P mk.columns mk.rows mk.cell k r := by
      funext a b; rw [hcell a b]; rfl
    refine ⟨hkeep, ?_, ?_, ?_⟩
    · rw [hm']; exact stepped_lowerZero hp h64 hred hjr hrn hlz hin hv
    · intro a ha
      rw [hm']
      rcases Nat.lt_succ_iff_lt_or_eq.mp ha with h | h
      · rw [stepped_above hjr a a h]; exact hdiag a h
      · subst h; exact Or.inr (stepped_pivot hp h64 hred hjr hlz hin hv)
    · intro w
      rw [hortho w, hm', ← hc, ← hrw]
      exact ⟨stepped_ortho hp h64 hred hjr hrn hlz hin hv,
        stepped_ortho_rev hp h64 hred hjr hrn hlz hin hv⟩

theorem forward_spec {P : Nat} (hp : P.Prime) (h64 : P ≤ 2 ^ 64) {m : Matrix} (hwf : m.WF)
    (hr : m.Reduced P) (hcr : m.rows ≤ m.columns) :
    ∃ m', forwardLoop P m.rows 0 m = .ok (none, m') ∧ ForwardInv P m m.rows m' := by
  obtain ⟨m', h1, h2⟩ := forwardLoop_inv P (fun k mk => ForwardInv P m k mk) m.rows 0 m
    ⟨Keeps.refl hwf hr, fun a b ha _ => by omega, fun a ha => by omega, fun w => Iff.rfl⟩
    (fun k mk _ hk hI => forward_step hp h64 hcr (by omega) hI)
  rw [Nat.zero_add] at h2
  exact ⟨m', h1, h2⟩

end Matrix

/-! ## Back substitution -/

namespace Matrix

theorem subCell_zero_src (P s v : Nat) : subCell P s 0 v = v := by
  simp [subCell, Zp.IsZero]

theorem backSubstituted_of_le {P c last : Nat} {g : Nat → Nat → Nat} {j : Nat} (hjl : j ≤ last)
    (a b : Nat) (hab : a ≤ b) : backSubstituted P c last g j a b = g a b := by
  unfold backSubstituted
  by_cases hb : b < j
  · rw [if_pos hb, if_neg (by omega), if_neg (by omega)]
  · rw [if_neg hb]

theorem backSubstituted_red {P : Nat} (hP : 0 < P) {g : Nat → Nat → Nat} (hred : Red P g)
    (c last j : Nat) : Red P (backSubstituted P c last g j) := by
  intro a b
  unfold backSubstituted
  split
  · split
    · exact hP
    · split
      · exact subCell_lt hP _ _ _ (hred a b)
      · exact hred a b
  · exact hred a b

theorem backSubstituted_cast_exact {P : Nat} (hP : 1 < P) {g : Nat → Nat → Nat}
    {c last j : Nat} (hjj : g j j = 1)
    (hrow : ∀ a, a ≠ j → a < last ∨ c ≤ a → g a j = 0)
    (hex : ∀ b, b < j → Exact64 (g j b)) (a b : Nat) :
    ((backSubstituted P c last g j a b : Nat) : ZMod P) =
      if b < j then (g a b : ZMod P) - (g a j : ZMod P) * (g j b : ZMod P)
      else (g a b : ZMod P) := by
  unfold backSubstituted
  by_cases hb : b < j
  · rw [if_pos hb, if_pos hb]
    by_cases ha : a = j
    · subst ha
      rw [if_pos rfl, hjj]
      simp
    · rw [if_neg ha]
      by_cases hl : last ≤ a ∧ a < c
      · rw [if_pos hl, subCell_cast_exact (by omega) (hex b hb)]
      · rw [if_neg hl, hrow a ha (by omega)]
        simp
  · rw [if_neg hb, if_neg hb]

theorem backSubstituted_cast {P : Nat} (hP : 1 < P) (h64 : P ≤ 2 ^ 64) {g : Nat → Nat → Nat}
    (hred : Red P g) {c last j : Nat} (hjj : g j j = 1)
    (hrow : ∀ a, a ≠ j → a < last ∨ c ≤ a → g a j = 0) (a b : Nat) :
    ((backSubstituted P c last g j a b : Nat) : ZMod P) =
      if b < j then (g a b : ZMod P) - (g a j : ZMod P) * (g j b : ZMod P)
      else (g a b : ZMod P) :=
  backSubstituted_cast_exact hP hjj hrow
    (fun b _ => exact64_of_lt (lt_of_lt_of_le (hred j b) h64)) a b

theorem backSubstituted_ortho_exact {P : Nat} (hP : 1 < P) {g : Nat → Nat → Nat}
    {c n last j : Nat} (hjn : j < n) (hjj : g j j = 1)
    (hrow : ∀ a, a ≠ j → a < last ∨ c ≤ a → g a j = 0)
    (hex : ∀ b, b < j → Exact64 (g j b)) (w : Nat → ZMod P) :
    Ortho P c n g w ↔ Ortho P c n (backSubstituted P c last g j) w := by
  have key : ∀ b, ∑ a in Finset.range c, ((backSubstituted P c last g j a b : Nat) : ZMod P) * w a =
      if b < j then
        ∑ a in Finset.range c, (g a b : ZMod P) * w a -
          (g j b : ZMod P) * ∑ a in Finset.range c, (g a j : ZMod P) * w a
      else ∑ a in Finset.range c, (g a b : ZMod P) * w a := by
    intro b
    simp only [backSubstituted_cast_exact hP hjj hrow hex]
    by_cases hb : b < j
    · simp only [hb, if_true]
      have : ∀ a, ((g a b : ZMod P) - (g a j : ZMod P) * (g j b : ZMod P)) * w a =
          (g a b : ZMod P) * w a - (g j b : ZMod P) * ((g a j : ZMod P) * w a) := by
        intro a; ring
      simp only [this]
      rw [Finset.sum_sub_distrib, ← Finset.mul_sum]
    · simp only [hb, if_false]
  constructor
  · intro h b hb
    rw [key b]
    split
    · rw [h b hb, h j hjn]; simp
    · exact h b hb
  · intro h
    have hj : ∑ a in Finset.range c, (g a j : ZMod P) * w a = 0 := by
      have := h j hjn
      rw [key j, if_neg (by omega)] at this
      exact this
    intro b hb
    have := h b hb
    rw [key b] at this
    split at this
    · rw [hj] at this
      simpa using this
    · exact this

theorem backSubstituted_ortho {P : Nat} (hP : 1 < P) (h64 : P ≤ 2 ^ 64) {g : Nat → Nat → Nat}
    (hred : Red P g) {c n last j : Nat} (hjn : j < n) (hjj : g j j = 1)
    (hrow : ∀ a, a ≠ j → a < last ∨ c ≤ a → g a j = 0) (w : Nat → ZMod P) :
    Ortho P c n g w ↔ Ortho P c n (backSubstituted P c last g j) w :=
  backSubstituted_ortho_exact hP hjn hjj hrow
    (fun b _ => exact64_of_lt (lt_of_lt_of_le (hred j b) h64)) w

theorem int64_one : Zp.Int64 1 = 1 := by
  unfold Zp.Int64
  norm_num

theorem back_step {P : Nat} (hp : P.Prime) (h64 : P ≤ 2 ^ 64) {m : Matrix}
    (hcr : m.rows ≤ m.columns) {k : Nat} {mk : Matrix} (hk : k + 1 < m.rows)
    (hI : BackInv P m (k + 1) mk) :
    ∃ m', backSubstitute P mk (1 + k) = .ok m' ∧ BackInv P m k m' := by
  obtain ⟨⟨hc, hrw, hwfk, hrk⟩, hlz, hdiag, hclr, hortho⟩ := hI
  have hP : 0 < P := hp.pos
  have hj : 1 + k < mk.rows := by omega
  obtain ⟨m', h1, hk', hcell⟩ := backSubstitute_spec hP hwfk hrk hj (show 1 + k < mk.columns by omega)
  have hjj : mk.cell (1 + k) (1 + k) = 1 := hdiag _ (by omega)
  have hm' : m'.cell = backSubstituted P mk.columns (mk.rows - 1) mk.cell (1 + k) := by
    funext a b
    rw [hcell a b, hjj, if_pos int64_one]
  have hred := cell_red hrk hP
  have hrow : ∀ a, a ≠ 1 + k → a < mk.rows - 1 ∨ mk.columns ≤ a → mk.cell a (1 + k) = 0 := by
    intro a ha hcase
    rcases hcase with h | h
    · rcases Nat.lt_or_gt_of_ne ha with h2 | h2
      · exact hlz a (1 + k) (by omega) h2
      · exact hclr a (1 + k) (by omega) (by omega) h2
    · exact cell_eq_zero_of_ge _ _ h
  refine ⟨m', h1, Keeps.trans ⟨hc, hrw, hwfk, hrk⟩ hk', ?_, ?_, ?_, ?_⟩
  · intro a b ha hab
    rw [hm']
    unfold backSubstituted
    by_cases hb : b < 1 + k
    · rw [if_pos hb, if_neg (by omega), if_neg (by omega)]
      exact hlz a b ha hab
    · rw [if_neg hb]
      exact hlz a b ha hab
  · intro a ha
    rw [hm', backSubstituted_of_le (by omega) a a (Nat.le_refl _)]
    exact hdiag a ha
  · intro a b hka han hba
    rw [hm']
    unfold backSubstituted
    by_cases hb : b < 1 + k
    · rw [if_pos hb]
      by_cases ha : a = 1 + k
      · rw [if_pos ha]
      · rw [if_neg ha]
        have hz : mk.cell a (1 + k) = 0 := hclr a (1 + k) (by omega) han (by omega)
        have hz2 : mk.cell a b = 0 := hclr a b (by omega) han hba
        split
        · rw [hz, subCell_zero_src, hz2]
        · exact hz2
    · rw [if_neg hb]
      exact hclr a b (by omega) han hba
  · intro w
    rw [hortho w, hm', ← hc, ← hrw]
    exact backSubstituted_ortho hp.one_lt h64 hred (by omega) hjj hrow w

/-- The back-substitution loop on a matrix that is well formed, reduced, zero
below the diagonal and has a unit diagonal. -/
theorem back_spec {P : Nat} (hp : P.Prime) (h64 : P ≤ 2 ^ 64) {m : Matrix} (hwf : m.WF)
    (hr : m.Reduced P) (hcr : m.rows ≤ m.columns) (hlz : LowerZero m.cell m.rows)
    (hdiag : ∀ a, a < m.rows → m.cell a a = 1) :
    ∃ m', loopDown (fun j s => backSubstitute P s j) 1 (m.rows - 1) m = .ok m' ∧
      BackInv P m 0 m' := by
  obtain ⟨m', h1, h2⟩ := loopDown_inv (fun j s => backSubstitute P s j) 1
    (fun t mt => BackInv P m t mt) (m.rows - 1) m
    ⟨Keeps.refl hwf hr, hlz, hdiag, fun a b h1 h2 _ => by omega, fun w => Iff.rfl⟩
    (fun k mk hk hI => back_step hp h64 hcr (by omega) hI)
  exact ⟨m', h1, h2⟩

/-- The back-substitution loop never touches a cell on or below the diagonal. -/
theorem back_frame {P : Nat} (hP : 0 < P) {m : Matrix} (hwf : m.WF) (hr : m.Reduced P)
    (hcr : m.rows ≤ m.columns) :
    ∃ m', loopDown (fun j s => backSubstitute P s j) 1 (m.rows - 1) m = .ok m' ∧
      Keeps P m m' ∧ ∀ a b, a ≤ b → m'.cell a b = m.cell a b := by
  obtain ⟨m', h1, h2, h3⟩ := loopDown_inv (fun j s => backSubstitute P s j) 1
    (fun _ m' => Keeps P m m' ∧ ∀ a b, a ≤ b → m'.cell a b = m.cell a b) (m.rows - 1) m
    ⟨Keeps.refl hwf hr, fun _ _ _ => rfl⟩
    (by
      rintro k mk hk ⟨⟨hc, hrw, hwfk, hrk⟩, hframe⟩
      obtain ⟨m', h1, hk', hcell⟩ :=
        backSubstitute_spec hP hwfk hrk (show 1 + k < mk.rows by omega)
          (show 1 + k < mk.columns by omega)
      refine ⟨m', h1, Keeps.trans ⟨hc, hrw, hwfk, hrk⟩ hk', ?_⟩
      intro a b hab
      rw [hcell a b, ← hframe a b hab]
      split
      · exact backSubstituted_of_le (by omega) a b hab
      · rfl)
  exact ⟨m', h1, h2, h3⟩

end Matrix

/-! ## The whole of `Reduce` -/

namespace Matrix

theorem Reduce_eq_of_loops {P : Nat} {m m1 m2 : Matrix} (hcr : m.rows ≤ m.columns)
    (h1 : forwardLoop P m.rows 0 m = .ok (none, m1))
    (h2 : loopDown (fun j s => backSubstitute P s j) 1 (m1.rows - 1) m1 = .ok m2) :
    Reduce P m = .ok (none, m2) := by
  unfold Reduce
  rw [if_neg (by omega), h1]
  simp only [h2]

/-- The diagonal left by `Reduce` is the diagonal left by its forward loop. -/
theorem Reduce_forward_diag {P : Nat} (hp : P.Prime) (h64 : P ≤ 2 ^ 64) {m : Matrix} (hwf : m.WF)
    (hr : m.Reduced P) (hcr : m.rows ≤ m.columns) {m2 : Matrix}
    (hR : Reduce P m = .ok (none, m2)) :
    ∃ m1, forwardLoop P m.rows 0 m = .ok (none, m1) ∧ ForwardInv P m m.rows m1 ∧
      loopDown (fun j s => backSubstitute P s j) 1 (m1.rows - 1) m1 = .ok m2 ∧
      ∀ a b, a ≤ b → m2.cell a b = m1.cell a b := by
  obtain ⟨m1, h1, hI⟩ := forward_spec hp h64 hwf hr hcr
  obtain ⟨hc, hrw, hwf1, hr1⟩ := hI.keeps
  obtain ⟨m2', h2, _, hframe⟩ := back_frame hp.pos hwf1 hr1 (by rw [hc, hrw]; exact hcr)
  have := Reduce_eq_of_loops hcr h1 h2
  rw [hR] at this
  cases this
  exact ⟨m1, h1, hI, h2, hframe⟩

/-- When no pivot was skipped, that is when `Reduce` leaves a unit diagonal,
the left square block of the reduced matrix is the identity and the rows of the
reduced matrix have the same orthogonal vectors as the rows of the input. -/
theorem Reduce_unit_diag {P : Nat} (hp : P.Prime) (h64 : P ≤ 2 ^ 64) {m : Matrix} (hwf : m.WF)
    (hr : m.Reduced P) (hcr : m.rows ≤ m.columns) {m2 : Matrix}
    (hR : Reduce P m = .ok (none, m2)) (hd : ∀ a, a < m.rows → m2.cell a a = 1) :
    Keeps P m m2 ∧
    (∀ a b, a < m.rows → b < m.rows → m2.cell a b = if a = b then 1 else 0) ∧
    (∀ w : Nat → ZMod P, Ortho P m.columns m.rows m.cell w ↔
      Ortho P m.columns m.rows m2.cell w) := by
  obtain ⟨m1, _, hI, h2, hframe⟩ := Reduce_forward_diag hp h64 hwf hr hcr hR
  obtain ⟨hc, hrw, hwf1, hr1⟩ := hI.keeps
  have hd1 : ∀ a, a < m1.rows → m1.cell a a = 1 := by
    intro a ha
    rw [← hframe a a (Nat.le_refl _)]
    exact hd a (by omega)
  obtain ⟨m2', h3, hB⟩ := back_spec hp h64 hwf1 hr1 (by rw [hc, hrw]; exact hcr)
    (by rw [hrw]; exact hI.lower) hd1
  rw [h2] at h3
  cases h3
  refine ⟨Keeps.trans hI.keeps hB.keeps, ?_, ?_⟩
  · intro a b ha hb
    by_cases hab : a = b
    · rw [if_pos hab, hab]
      exact hB.diag b (by omega)
    · rw [if_neg hab]
      rcases Nat.lt_or_gt_of_ne hab with h | h
      · exact hB.lower a b (by omega) h
      · exact hB.cleared a b (by omega) (by omega) h
  · intro w
    rw [hI.ortho w, ← hc, ← hrw]
    exact hB.ortho w

theorem ext_of_cell {m m' : Matrix} (hwf : m.WF) (hwf' : m'.WF) (hc : m'.columns = m.columns)
    (hr : m'.rows = m.rows) (h : ∀ a b, m'.cell a b = m.cell a b) : m' = m := by
  have hlen : m'.cells.length = m.cells.length := by rw [hwf, hwf', hc, hr]
  have hcells : m'.cells = m.cells := by
    apply List.ext_getElem hlen
    intro k h1 h2
    have hcpos : 0 < m.columns := by
      rcases Nat.eq_zero_or_pos m.columns with h0 | h0
      · rw [hwf, h0, Nat.zero_mul] at h2; omega
      · exact h0
    have hk : k < m.columns * m.rows := by rw [← hwf]; exact h2
    have hdiv : k / m.columns < m.rows := Nat.div_lt_of_lt_mul hk
    have hmod : k % m.columns < m.columns := Nat.mod_lt _ hcpos
    have hidx : k % m.columns + k / m.columns * m.columns = k := by
      rw [Nat.mul_comm]; exact Nat.mod_add_div k m.columns
    have := h (k % m.columns) (k / m.columns)
    unfold cell at this
    rw [hc, hr, if_pos ⟨hmod, hdiv⟩, if_pos ⟨hmod, hdiv⟩, hidx,
      List.getD_eq_getElem?_getD, List.getD_eq_getElem?_getD,
      List.getElem?_eq_getElem h1, List.getElem?_eq_getElem h2] at this
    simpa using this
  cases m; cases m'
  simp only at hc hr hcells
  subst hc hr hcells
  rfl

end Matrix

/-! ## Solutions of the encoded system -/

namespace Matrix

theorem solves_iff_ortho {P : Nat} (m : Matrix) (x : Nat → ZMod P) :
    Solves P m x ↔ Ortho P (m.rows + 1) m.rows m.cell (augment P m.rows x) := by
  unfold Solves Ortho
  have key : ∀ j,
      ∑ a in Finset.range (m.rows + 1), (m.cell a j : ZMod P) * augment P m.rows x a =
      ∑ i in Finset.range m.rows, (m.cell i j : ZMod P) * x i - (m.cell m.rows j : ZMod P) := by
    intro j
    rw [Finset.sum_range_succ]
    have h1 : ∑ a in Finset.range m.rows, (m.cell a j : ZMod P) * augment P m.rows x a =
        ∑ i in Finset.range m.rows, (m.cell i j : ZMod P) * x i := by
      apply Finset.sum_congr rfl
      intro a ha
      rw [Finset.mem_range] at ha
      simp [augment, ha]
    have h2 : augment P m.rows x m.rows = -1 := by simp [augment]
    rw [h1, h2]
    ring
  constructor
  · intro h j hj
    rw [key j, h j hj, sub_self]
  · intro h j hj
    have := h j hj
    rw [key j] at this
    exact sub_eq_zero.mp this

theorem solves_of_identity {P : Nat} {m : Matrix}
    (hid : ∀ a b, a < m.rows → b < m.rows → m.cell a b = if a = b then 1 else 0)
    (x : Nat → ZMod P) :
    Solves P m x ↔ ∀ j, j < m.rows → x j = (m.cell m.rows j : ZMod P) := by
  unfold Solves
  have key : ∀ j, j < m.rows →
      ∑ i in Finset.range m.rows, (m.cell i j : ZMod P) * x i = x j := by
    intro j hj
    rw [Finset.sum_eq_single j]
    · rw [hid j j hj hj, if_pos rfl]; simp
    · intro i hi hij
      rw [Finset.mem_range] at hi
      rw [hid i j hi hj, if_neg hij]; simp
    · intro h; exact absurd (Finset.mem_range.mpr hj) h
  constructor
  · intro h j hj; rw [← key j hj]; exact h j hj
  · intro h j hj; rw [key j hj]; exact h j hj

/-- On a matrix of `rows + 1` columns that `Reduce` leaves with a unit diagonal
the reduced system has the solutions of the original one. -/
theorem Reduce_solves_iff {P : Nat} (hp : P.Prime) (h64 : P ≤ 2 ^ 64) {m : Matrix} (hwf : m.WF)
    (hr : m.Reduced P) (hc : m.columns = m.rows + 1) {m2 : Matrix}
    (hR : Reduce P m = .ok (none, m2)) (hd : ∀ a, a < m.rows → m2.cell a a = 1)
    (x : Nat → ZMod P) : Solves P m x ↔ Solves P m2 x := by
  obtain ⟨hk, _, hortho⟩ := Reduce_unit_diag hp h64 hwf hr (by omega) hR hd
  rw [solves_iff_ortho m x, solves_iff_ortho m2 x, hk.2.1, ← hc]
  exact hortho _

/-! ## Idempotence on a reduced matrix -/

theorem subCell_zero_mult {P : Nat} (sval : Nat) {v : Nat} (hv : v < P) :
    subCell P 0 sval v = v := by
  unfold subCell
  by_cases hz : sval = 0
  · subst hz; simp [Zp.IsZero]
  · have hz' : (!Zp.IsZero sval) = true := by simp [Zp.IsZero, hz]
    have h0 : Zp.Int64 0 = 0 := by unfold Zp.Int64; norm_num
    have h1 : (Zp.Int64 0 != 1) = true := by rw [h0]; decide
    rw [if_pos hz', if_pos h1]
    unfold Zp.Sub Zp.Mul
    rw [Nat.mul_zero, Nat.zero_mod]
    have h2 : ((v : Int) - ((0 : Nat) : Int)) % (P : Int) = (v : Int) := by
      rw [Nat.cast_zero, sub_zero]
      exact Int.emod_eq_of_lt (by omega) (by omega)
    rw [h2]
    simp

theorem stepped_of_identity {P : Nat} {f : Nat → Nat → Nat} (hred : Red P f) {c n j : Nat}
    (hj : j < n) (hid : ∀ a b, a < n → b < n → f a b = if a = b then 1 else 0) :
    stepped P c n f j j = f := by
  have hjj : f j j = 1 := by rw [hid j j hj hj, if_pos rfl]
  have hps : pivotScaled P c f j = f := by
    funext a b
    unfold pivotScaled
    rw [hjj]
    have : ¬ ((Zp.Int64 1 != 1) = true) := by rw [int64_one]; decide
    rw [if_neg this]
  funext a b
  unfold stepped
  rw [swapped_self, hps]
  unfold eliminated
  by_cases h : j < b ∧ b < n ∧ j ≤ a ∧ a < c
  · rw [if_pos h]
    have h0 : f j b = 0 := by rw [hid j b hj h.2.1, if_neg (by omega)]
    rw [h0, subCell_zero_mult _ (hred a b)]
  · rw [if_neg h]

theorem backSubstituted_of_identity {P : Nat} {f : Nat → Nat → Nat} (hred : Red P f)
    {c n last j : Nat} (hj : j < n)
    (hid : ∀ a b, a < n → b < n → f a b = if a = b then 1 else 0) :
    backSubstituted P c last f j = f := by
  funext a b
  unfold backSubstituted
  by_cases hb : b < j
  · rw [if_pos hb]
    have h0 : f j b = 0 := by rw [hid j b hj (by omega), if_neg (by omega)]
    by_cases ha : a = j
    · rw [if_pos ha, ha, h0]
    · rw [if_neg ha]
      split
      · rw [h0, subCell_zero_mult _ (hred a b)]
      · rfl
  · rw [if_neg hb]

theorem processRowForward_of_identity {P : Nat} (hP : 0 < P) {m : Matrix} (hwf : m.WF)
    (hr : m.Reduced P) (hcr : m.rows ≤ m.columns)
    (hid : ∀ a b, a < m.rows → b < m.rows → m.cell a b = if a = b then 1 else 0)
    {j : Nat} (hj : j < m.rows) : processRowForward P m j = .ok (none, m) := by
  obtain ⟨m', h1, hk, hcase⟩ := processRowForward_spec hP hwf hr hj (by omega)
  have hjj : m.cell j j = 1 := by rw [hid j j hj hj, if_pos rfl]
  rcases hcase with ⟨hz, _⟩ | ⟨r, hjr, hrn, hv, hfirst, hcell⟩
  · have := hz j (Nat.le_refl _) hj
    rw [hjj] at this
    omega
  · have hrj : r = j := by
      by_contra hne
      have := hfirst j (Nat.le_refl _) (by omega)
      rw [hjj] at this
      omega
    rw [hrj] at hcell
    have hm : m' = m := ext_of_cell hwf hk.2.2.1 hk.1 hk.2.1 (fun a b => by
      rw [hcell a b]
      exact congrFun (congrFun (stepped_of_identity (cell_red hr hP) hj hid) a) b)
    rw [hm] at h1
    exact h1

theorem backSubstitute_of_identity {P : Nat} (hP : 0 < P) {m : Matrix} (hwf : m.WF)
    (hr : m.Reduced P) (hcr : m.rows ≤ m.columns)
    (hid : ∀ a b, a < m.rows → b < m.rows → m.cell a b = if a = b then 1 else 0)
    {j : Nat} (hj : j < m.rows) : backSubstitute P m j = .ok m := by
  obtain ⟨m', h1, hk, hcell⟩ := backSubstitute_spec hP hwf hr hj (by omega)
  have hm : m' = m := ext_of_cell hwf hk.2.2.1 hk.1 hk.2.1 (fun a b => by
    rw [hcell a b]
    split
    · exact congrFun (congrFun (backSubstituted_of_identity (cell_red hr hP) hj hid) a) b
    · rfl)
  rw [hm] at h1
  exact h1

/-- `Reduce` leaves a matrix alone whose left square block is the identity. -/
theorem Reduce_of_identity {P : Nat} (hP : 0 < P) {m : Matrix} (hwf : m.WF)
    (hr : m.Reduced P) (hcr : m.rows ≤ m.columns)
    (hid : ∀ a b, a < m.rows → b < m.rows → m.cell a b = if a = b then 1 else 0) :
    Reduce P m = .ok (none, m) := by
  obtain ⟨m1, h1, h1e⟩ := forwardLoop_inv P (fun _ mk => mk = m) m.rows 0 m rfl
    (by
      intro k mk _ hk hI
      rw [hI]
      exact ⟨m, processRowForward_of_identity hP hwf hr hcr hid (by omega), rfl⟩)
  rw [h1e] at h1
  obtain ⟨m2, h2, h2e⟩ := loopDown_inv (fun j s => backSubstitute P s j) 1
    (fun _ mk => mk = m) (m.rows - 1) m rfl
    (by
      intro k mk hk hI
      rw [hI]
      exact ⟨m, backSubstitute_of_identity hP hwf hr hcr hid (by omega), rfl⟩)
  rw [h2e] at h2
  exact Reduce_eq_of_loops hcr h1 h2

/-! ## Invertible systems -/

theorem squarePart_mulVec {P n c : Nat} (hnc : n ≤ c) (f : Nat → Nat → Nat)
    (y : Fin n → ZMod P) (b : Fin n) :
    (squarePart P n f).mulVec y b =
      ∑ a in Finset.range c, (f a b.val : ZMod P) * (if h : a < n then y ⟨a, h⟩ else 0) := by
  have hsub : ∑ a in Finset.range n, (f a b.val : ZMod P) * (if h : a < n then y ⟨a, h⟩ else 0) =
      ∑ a in Finset.range c, (f a b.val : ZMod P) * (if h : a < n then y ⟨a, h⟩ else 0) :=
    Finset.sum_subset (Finset.range_subset.mpr hnc) (fun a _ ha => by
      rw [Finset.mem_range] at ha
      rw [dif_neg ha, mul_zero])
  rw [← hsub, Finset.sum_range]
  simp only [Matrix.mulVec, Matrix.dotProduct, squarePart]
  apply Finset.sum_congr rfl
  intro i _
  rw [dif_pos i.isLt]

theorem mulVec_eq_zero_iff_ortho {P n c : Nat} (hnc : n ≤ c) (f : Nat → Nat → Nat)
    (y : Fin n → ZMod P) :
    (squarePart P n f).mulVec y = 0 ↔
      Ortho P c n f (fun a => if h : a < n then y ⟨a, h⟩ else 0) := by
  constructor
  · intro h b hb
    have := congrFun h ⟨b, hb⟩
    rw [squarePart_mulVec hnc] at this
    exact this
  · intro h
    funext b
    rw [squarePart_mulVec hnc]
    exact h b.val b.isLt

/-- Forward elimination of a system with an invertible square part skips no
pivot: it leaves a unit diagonal. -/
theorem forward_unit_diag_of_det {P : Nat} (hp : P.Prime) {m m1 : Matrix}
    (hcr : m.rows ≤ m.columns) (hdet : (squarePart P m.rows m.cell).det ≠ 0)
    (hI : ForwardInv P m m.rows m1) : ∀ a, a < m.rows → m1.cell a a = 1 := by
  haveI : Fact P.Prime := ⟨hp⟩
  intro a ha
  rcases hI.diag a ha with h0 | h1
  · exfalso
    apply hdet
    have htri : (squarePart P m.rows m1.cell).BlockTriangular id := by
      intro i j hij
      have hji : j.val < i.val := Fin.lt_def.mp hij
      show ((m1.cell j.val i.val : Nat) : ZMod P) = 0
      rw [hI.lower j.val i.val j.isLt hji]
      simp
    have hdetU : (squarePart P m.rows m1.cell).det = 0 := by
      rw [Matrix.det_of_upperTriangular htri]
      apply Finset.prod_eq_zero (Finset.mem_univ (⟨a, ha⟩ : Fin m.rows))
      show ((m1.cell a a : Nat) : ZMod P) = 0
      rw [h0]
      simp
    obtain ⟨y, hy0, hy⟩ := Matrix.exists_mulVec_eq_zero_iff.mpr hdetU
    apply Matrix.exists_mulVec_eq_zero_iff.mp
    refine ⟨y, hy0, ?_⟩
    rw [mulVec_eq_zero_iff_ortho hcr]
    rw [mulVec_eq_zero_iff_ortho hcr] at hy
    exact (hI.ortho _).mpr hy
  · exact h1

/-- `Reduce` on an augmented matrix `[A|b]` with invertible `A`, over a prime
modulus that fits 64 bits: the left block becomes the identity and the trailing
column is the one solution of `A·x = b`. -/
theorem Reduce_invertible {P : Nat} (hp : P.Prime) (h64 : P ≤ 2 ^ 64) {m : Matrix} (hwf : m.WF)
    (hr : m.Reduced P) (hc : m.columns = m.rows + 1)
    (hdet : (squarePart P m.rows m.cell).det ≠ 0) :
    ∃ m2, Reduce P m = .ok (none, m2) ∧ Keeps P m m2 ∧
      (∀ a b, a < m.rows → b < m.rows → m2.cell a b = if a = b then 1 else 0) ∧
      Solves P m (fun i => (m2.cell m.rows i : ZMod P)) ∧
      ∀ y, Solves P m y → ∀ i, i < m.rows → y i = (m2.cell m.rows i : ZMod P) := by
  have hcr : m.rows ≤ m.columns := by omega
  obtain ⟨m2, hR, hk⟩ := Reduce_ok hp.pos hwf hr hcr
  obtain ⟨m1, _, hI, _, hframe⟩ := Reduce_forward_diag hp h64 hwf hr hcr hR
  have hd : ∀ a, a < m.rows → m2.cell a a = 1 := by
    intro a ha
    rw [hframe a a (Nat.le_refl _)]
    exact forward_unit_diag_of_det hp hcr hdet hI a ha
  obtain ⟨_, hid, _⟩ := Reduce_unit_diag hp h64 hwf hr hcr hR hd
  have hid2 : ∀ a b, a < m2.rows → b < m2.rows → m2.cell a b = if a = b then 1 else 0 := by
    rw [hk.2.1]; exact hid
  have hiff := fun x => (Reduce_solves_iff hp h64 hwf hr hc hR hd x).trans
    (solves_of_identity hid2 x)
  refine ⟨m2, hR, hk, hid, ?_, ?_⟩
  · rw [hiff]
    intro j _
    rw [hk.2.1]
  · intro y hy i hi
    have := (hiff y).mp hy i (by rw [hk.2.1]; exact hi)
    rw [hk.2.1] at this
    exact this

end Matrix

/-! ## The node parser: bit keys and child derivation -/


theorem byteBit_pack (b0 b1 b2 b3 b4 b5 b6 b7 : Bool) (i : Nat) (hi : i < 8) :
    byteBit (128 * b0.toNat + 64 * b1.toNat + 32 * b2.toNat + 16 * b3.toNat + 8 * b4.toNat +
      4 * b5.toNat + 2 * b6.toNat + b7.toNat) i = [b0, b1, b2, b3, b4, b5, b6, b7].getD i false := by
  interval_cases i <;> cases b0 <;> cases b1 <;> cases b2 <;> cases b3 <;> cases b4 <;>
    cases b5 <;> cases b6 <;> cases b7 <;> rfl

theorem byteBit_byteOfBits (l : List Bool) (i : Nat) (hi : i < 8) :
    byteBit (byteOfBits l) i = l.getD i false := by
  unfold byteOfBits
  rw [byteBit_pack _ _ _ _ _ _ _ _ i hi]
  interval_cases i <;> rfl

theorem length_bitsOfBytes (bs : List Nat) : (bitsOfBytes bs).length = 8 * bs.length := by
  induction bs with
  | nil => rfl
  | cons b bs ih =>
    simp only [bitsOfBytes, List.length_append, List.length_map, List.length_range, ih,
      List.length_cons]
    omega

theorem byteBit_zero (i : Nat) : byteBit 0 i = false := by
  simp [byteBit]

theorem getD_bitsOfBytes (bs : List Nat) : ∀ (k i : Nat), i < 8 →
    (bitsOfBytes bs).getD (8 * k + i) false = byteBit (bs.getD k 0) i := by
  induction bs with
  | nil => intro k i _; simp [bitsOfBytes, byteBit_zero]
  | cons b bs ih =>
    intro k i hi
    cases k with
    | zero =>
      simp only [bitsOfBytes, Nat.mul_zero, Nat.zero_add, List.getD_cons_zero]
      rw [List.getD_append _ _ _ _ (by simp; exact hi)]
      rw [List.getD_eq_getElem _ _ (by simp; exact hi)]
      simp
    | succ k =>
      simp only [bitsOfBytes, List.getD_cons_succ]
      rw [List.getD_append_right _ _ _ _ (by simp; omega)]
      have : 8 * (k + 1) + i - ((List.range 8).map (byteBit b)).length = 8 * k + i := by
        simp; omega
      rw [this]
      exact ih k i hi




theorem ext_getD {l1 l2 : List Bool} (hl : l1.length = l2.length)
    (h : ∀ p, l1.getD p false = l2.getD p false) : l1 = l2 := by
  apply List.ext_getElem hl
  intro p h1 h2
  have := h p
  rw [List.getD_eq_getElem _ _ h1, List.getD_eq_getElem _ _ h2] at this
  exact this

theorem getD_append_replicate (l : List Bool) (m p : Nat) :
    (l ++ List.replicate m false).getD p false = l.getD p false := by
  simp only [List.getD_eq_getElem?_getD, List.getElem?_append]
  split
  · rfl
  · rename_i h
    rw [List.getElem?_replicate]
    have : l[p]? = none := List.getElem?_eq_none (by omega)
    rw [this]
    split <;> rfl

theorem getD_Bytes (key : Bitstring) (k : Nat) (hk : k < (key.bits.length + 7) / 8) :
    key.Bytes.getD k 0 = byteOfBits (key.bits.drop (8 * k)) := by
  unfold Bitstring.Bytes
  simp [List.getD_eq_getElem?_getD, List.getElem?_map, List.getElem?_range hk]

theorem getD_bitsOfBytes_Bytes (key : Bitstring) (p : Nat) :
    (bitsOfBytes key.Bytes).getD p false = key.bits.getD p false := by
  have hp : p = 8 * (p / 8) + p % 8 := (Nat.div_add_mod p 8).symm
  have hmod : p % 8 < 8 := Nat.mod_lt _ (by norm_num)
  by_cases hk : p / 8 < (key.bits.length + 7) / 8
  · rw [hp, getD_bitsOfBytes _ _ _ hmod, getD_Bytes key _ hk, byteBit_byteOfBits _ _ hmod]
    simp [List.getD_eq_getElem?_getD, List.getElem?_drop]
  · have h1 : (bitsOfBytes key.Bytes).length ≤ p := by
      rw [length_bitsOfBytes]
      simp only [Bitstring.Bytes, List.length_map, List.length_range]
      omega
    have h2 : key.bits.length ≤ p := by omega
    simp [List.getD_eq_getElem?_getD, List.getElem?_eq_none h1, List.getElem?_eq_none h2]

theorem SetBytes_zeros (key : Bitstring) (k : Nat) :
    (Bitstring.mk (List.replicate (key.bits.length + k) false)).SetBytes key.Bytes =
      ⟨key.bits ++ List.replicate k false⟩ := by
  unfold Bitstring.SetBytes
  congr 1
  have hB : key.bits.length ≤ (bitsOfBytes key.Bytes).length := by
    rw [length_bitsOfBytes]
    simp only [Bitstring.Bytes, List.length_map, List.length_range]
    omega
  apply ext_getD
  · simp only [List.length_append, List.length_take, List.length_drop, List.length_replicate]
    omega
  · intro p
    rw [getD_append_replicate]
    simp only [List.length_replicate, List.length_take]
    simp only [List.getD_eq_getElem?_getD, List.getElem?_append, List.length_take,
      List.getElem?_take, List.getElem?_drop, List.getElem?_replicate]
    have hg := getD_bitsOfBytes_Bytes key p
    simp only [List.getD_eq_getElem?_getD] at hg
    by_cases h1 : p < min (key.bits.length + k) (bitsOfBytes key.Bytes).length
    · rw [if_pos h1, if_pos (by omega)]
      exact hg
    · rw [if_neg h1]
      have h2 : key.bits.length ≤ p := by omega
      rw [List.getElem?_eq_none h2]
      split <;> rfl



theorem childBitBody_eq (n i j : Nat) (pre rest : List Bool) (hpre : pre.length = n + j) :
    childBitBody n i j ⟨pre ++ false :: rest⟩ = .ok ⟨pre ++ bitSet i j :: rest⟩ := by
  have hidx : ((n : Int) + (j : Int)).toNat = n + j := by omega
  have hrange : 0 ≤ (n : Int) + (j : Int) ∧
      (n : Int) + (j : Int) < ((pre ++ false :: rest).length : Int) := by
    simp only [List.length_append, List.length_cons, hpre]
    push_cast
    omega
  have hset : ∀ v : Bool, (pre ++ false :: rest).set (n + j) v = pre ++ v :: rest := by
    intro v
    rw [← hpre, List.set_append_right _ _ (Nat.le_refl _)]
    simp
  unfold childBitBody Bitstring.Set Bitstring.Clear
  by_cases hb : bitSet i j = true
  · rw [if_pos hb, if_pos hrange, hidx, hset, hb]
  · rw [if_neg hb, if_pos hrange, hidx, hset]
    simp only [Bool.not_eq_true] at hb
    rw [hb]

theorem childBits_loop (kb : List Bool) (i : Nat) : ∀ (cnt j : Nat) (S : List Bool),
    S.length = j →
    loopUp (childBitBody kb.length i) cnt j ⟨kb ++ S ++ List.replicate cnt false⟩ =
      .ok ⟨kb ++ S ++ (List.range' j cnt).map (bitSet i)⟩ := by
  intro cnt
  induction cnt with
  | zero => intro j S _; simp [loopUp]
  | succ cnt ih =>
    intro j S hS
    have h1 := childBitBody_eq kb.length i j (kb ++ S) (List.replicate cnt false)
      (by simp [hS])
    have h2 := ih (j + 1) (S ++ [bitSet i j]) (by simp [hS])
    simp only [loopUp, List.replicate_succ, h1]
    have e1 : kb ++ S ++ bitSet i j :: List.replicate cnt false =
        kb ++ (S ++ [bitSet i j]) ++ List.replicate cnt false := by simp
    rw [e1, h2]
    simp [List.range'_succ]

theorem childKey_eq (key : Bitstring) (k i : Nat) :
    childKey key (k : Int) i = .ok ⟨key.bits ++ (List.range k).map (bitSet i)⟩ := by
  unfold childKey NewBitstring
  have h0 : ¬ ((key.BitLen : Int) + (k : Int) < 0) := by omega
  have h1 : ((key.BitLen : Int) + (k : Int)).toNat = key.bits.length + k := by
    simp only [Bitstring.BitLen]; omega
  simp only [h0, if_false, h1, bind, Except.bind, SetBytes_zeros, Int.toNat_ofNat]
  have := childBits_loop key.bits i k 0 [] rfl
  simp only [List.append_nil] at this
  rw [Bitstring.BitLen, this, List.range_eq_range']

theorem deriveChildren_loop (key : Bitstring) (k : Nat) : ∀ (cnt i : Nat) (acc : List String),
    loopUp (childrenBody key (k : Int)) cnt i acc =
      .ok (acc ++ (List.range' i cnt).map
        (fun i => (Bitstring.mk (key.bits ++ (List.range k).map (bitSet i))).String)) := by
  intro cnt
  induction cnt with
  | zero => intro i acc; simp [loopUp]
  | succ cnt ih =>
    intro i acc
    simp only [loopUp, childrenBody, childKey_eq, bind, Except.bind, pure, Except.pure, ih]
    simp [List.range'_succ]

theorem shl1_of_le {k : Nat} (hk : k ≤ 62) : (shl1 (k : Int)).toNat = 2 ^ k := by
  unfold shl1
  have : 0 ≤ (k : Int) ∧ (k : Int) < 63 := by omega
  rw [if_pos this, Int.toNat_ofNat]
  have e : (2 : Int) ^ k = ((2 ^ k : Nat) : Int) := by norm_cast
  rw [e]
  exact Int.toNat_ofNat _

/-- The child keys that `unmarshalNode` derives for a key and `0 ≤ k ≤ 62`. -/
theorem deriveChildren_eq (key : Bitstring) {k : Nat} (hk : k ≤ 62) :
    deriveChildren key (k : Int) =
      .ok ((List.range (2 ^ k)).map
        (fun i => (Bitstring.mk (key.bits ++ (List.range k).map (bitSet i))).String)) := by
  unfold deriveChildren
  rw [shl1_of_le hk, deriveChildren_loop]
  simp [List.range_eq_range']

theorem suffix_injective {k : Nat} (hk : k ≤ 62) {i i' : Nat} (hi : i < 2 ^ k) (hi' : i' < 2 ^ k)
    (h : (List.range k).map (bitSet i) = (List.range k).map (bitSet i')) : i = i' := by
  apply Nat.eq_of_testBit_eq
  intro j
  by_cases hj : j < k
  · have h1 : ((List.range k).map (bitSet i))[j]? = ((List.range k).map (bitSet i'))[j]? := by
      rw [h]
    simp only [List.getElem?_map, List.getElem?_range hj, Option.map_some',
      Option.some.injEq] at h1
    unfold bitSet at h1
    rwa [if_pos (by omega), if_pos (by omega)] at h1
  · have hle : 2 ^ k ≤ 2 ^ j := Nat.pow_le_pow_right (by norm_num) (by omega)
    rw [Nat.testBit_lt_two_pow (lt_of_lt_of_le hi hle),
      Nat.testBit_lt_two_pow (lt_of_lt_of_le hi' hle)]

theorem Bitstring_String_injective : Function.Injective Bitstring.String := by
  intro a b h
  unfold Bitstring.String at h
  have h1 : a.bits.map (fun b => if b then '1' else '0') =
      b.bits.map (fun b => if b then '1' else '0') := congrArg String.data h
  have hinj : Function.Injective (fun b : Bool => if b then '1' else '0') := by
    intro x y hxy
    cases x <;> cases y <;> simp_all
  have := List.map_injective_iff.mpr hinj h1
  cases a; cases b
  simp only at this
  rw [this]


theorem unmarshalBody_internal {w : Wire} {key : Bitstring} {bq : Int} {nd node : Node}
    {r : List Nat} (h : unmarshalBody w key bq nd r = .ok (some node, none))
    (hleaf : node.Leaf = false) :
    node.Key = nd.Key ∧ deriveChildren key bq = .ok node.Children := by
  unfold unmarshalBody at h
  split at h
  · rename_i hl
    split at h
    · cases h
    · split at h
      · cases h
      · simp only [Except.ok.injEq, Prod.mk.injEq, Option.some.injEq] at h
        rw [← h.1] at hleaf
        simp only at hleaf
        rw [hl] at hleaf
        cases hleaf
  · split at h
    · cases h
    · rename_i children hd
      simp only [Except.ok.injEq, Prod.mk.injEq, Option.some.injEq, and_true] at h
      rw [← h]
      exact ⟨rfl, hd⟩

theorem unmarshalNode_internal {w : Wire} {buf : List Nat} {bq ns : Int} {node : Node}
    (h : unmarshalNode w buf bq ns = .ok (some node, none)) (hleaf : node.Leaf = false) :
    ∃ key : Bitstring, node.Key = key.String ∧ deriveChildren key bq = .ok node.Children := by
  unfold unmarshalNode unmarshalKey unmarshalSamples at h
  repeat' split at h
  all_goals first
    | cases h
    | exact ⟨_, unmarshalBody_internal h hleaf⟩

theorem tdiv_tmod_facts (k : Int) : k = 8 * Int.tdiv k 8 + Int.tmod k 8 ∧
    (0 ≤ k → 0 ≤ Int.tmod k 8 ∧ Int.tmod k 8 < 8) ∧
    (k < 0 → -8 < Int.tmod k 8 ∧ Int.tmod k 8 ≤ 0) := by
  refine ⟨(Int.tdiv_add_tmod k 8).symm, ?_, ?_⟩
  · intro h
    rw [Int.tmod_eq_emod h (by norm_num)]
    omega
  · intro h
    have h1 : Int.tdiv k 8 = -((-k) / 8) := by
      have : k = -(-k) := by ring
      rw [this, Int.neg_tdiv, Int.tdiv_eq_ediv (by omega) (by norm_num)]
      simp
    rw [Int.tmod_def, h1]
    omega

theorem keyByteLen_ceil (k : Int) : keyByteLen k = ⌈(k : ℚ) / 8⌉ := by
  obtain ⟨h1, h2, h3⟩ := tdiv_tmod_facts k
  symm
  rw [Int.ceil_eq_iff]
  unfold keyByteLen
  have hk : (k : ℚ) = 8 * (Int.tdiv k 8 : ℚ) + (Int.tmod k 8 : ℚ) := by exact_mod_cast h1
  rcases lt_or_le k 0 with hneg | hpos
  · obtain ⟨h4, h5⟩ := h3 hneg
    have : ¬ (Int.tmod k 8 > 0) := by omega
    rw [if_neg this]
    have h4' : (-8 : ℚ) < (Int.tmod k 8 : ℚ) := by exact_mod_cast h4
    have h5' : (Int.tmod k 8 : ℚ) ≤ 0 := by exact_mod_cast h5
    constructor
    · rw [hk]; linarith
    · rw [hk]; linarith
  · obtain ⟨h4, h5⟩ := h2 hpos
    have h4' : (0 : ℚ) ≤ (Int.tmod k 8 : ℚ) := by exact_mod_cast h4
    have h5' : (Int.tmod k 8 : ℚ) < 8 := by exact_mod_cast h5
    by_cases h : Int.tmod k 8 > 0
    · rw [if_pos h]
      have h' : (0 : ℚ) < (Int.tmod k 8 : ℚ) := by exact_mod_cast h
      constructor
      · rw [hk]; push_cast; linarith
      · rw [hk]; push_cast; linarith
    · rw [if_neg h]
      have h0 : Int.tmod k 8 = 0 := by omega
      have h0' : (Int.tmod k 8 : ℚ) = 0 := by exact_mod_cast h0
      constructor
      · rw [hk]; linarith
      · rw [hk]; linarith

/-! ## The node parser: truncated input -/


theorem prefix_append_cases {p a b : List Nat} (h : p <+: a ++ b) :
    (p <+: a ∧ p ≠ a) ∨ ∃ q, p = a ++ q ∧ q <+: b := by
  by_cases hl : p.length < a.length
  · left
    refine ⟨List.prefix_of_prefix_length_le h (List.prefix_append a b) (by omega), ?_⟩
    intro he
    rw [he] at hl
    omega
  · right
    have ha : a <+: p :=
      List.prefix_of_prefix_length_le (List.prefix_append a b) h (by omega)
    obtain ⟨q, rfl⟩ := ha
    exact ⟨q, rfl, (List.prefix_append_right_inj a).mp h⟩

theorem bufferRead_exact (K q : List Nat) : bufferRead (K ++ q) K.length = .ok (K, q) := by
  unfold bufferRead
  by_cases he : (K ++ q).isEmpty = true
  · rw [if_pos he]
    rw [List.isEmpty_iff] at he
    have hK : K = [] := (List.append_eq_nil.mp he).1
    have hq : q = [] := (List.append_eq_nil.mp he).2
    subst hK hq
    simp
  · rw [if_neg he]
    simp

theorem bufferRead_short {q : List Nat} {n : Nat} (h : q.length < n) :
    (∃ e, bufferRead q n = .error e) ∨ ∃ d, bufferRead q n = .ok (d, []) := by
  unfold bufferRead
  by_cases he : q.isEmpty = true
  · left
    rw [if_pos he, if_neg (by omega)]
    exact ⟨_, rfl⟩
  · right
    rw [if_neg he]
    exact ⟨_, by rw [List.drop_eq_nil_of_le (by omega)]⟩

theorem ReadFull_exact (f q : List Nat) : ReadFull (f ++ q) f.length = .ok (f, q) := by
  unfold ReadFull
  rw [if_pos (by simp)]
  simp

theorem ReadFull_short {q : List Nat} {n : Nat} (h : q.length < n) :
    ∃ e, ReadFull q n = .error e := by
  unfold ReadFull
  rw [if_neg (by omega)]
  split
  · exact ⟨_, rfl⟩
  · exact ⟨_, rfl⟩

theorem readSamples_suffix {w : Wire} (hs : ∀ r v r', w.ReadZp r = .ok (v, r') → r' <:+ r) :
    ∀ (n : Nat) (acc r sv r' : List Nat), readSamples w n acc r = .ok (sv, r') → r' <:+ r := by
  intro n
  induction n with
  | zero =>
    intro acc r sv r' h
    simp only [readSamples, Except.ok.injEq, Prod.mk.injEq] at h
    rw [h.2]
  | succ n ih =>
    intro acc r sv r' h
    unfold readSamples at h
    split at h
    · cases h
    · rename_i v r1 hz
      exact (ih _ _ _ _ h).trans (hs _ _ _ hz)

theorem readSamples_prefix {w : Wire} {encZp : Nat → List Nat} (R : List Nat) :
    ∀ (samples acc q : List Nat),
      (∀ v, v ∈ samples → ∀ rest, w.ReadZp (encZp v ++ rest) = .ok (v, rest)) →
      (∀ v, v ∈ samples → ∀ q, q <+: encZp v → q ≠ encZp v → ∃ e, w.ReadZp q = .error e) →
      q <+: samples.flatMap encZp ++ R →
      (∃ e, readSamples w samples.length acc q = .error e) ∨
      ∃ q', readSamples w samples.length acc q = .ok (acc ++ samples, q') ∧
        q = samples.flatMap encZp ++ q' ∧ q' <+: R := by
  intro samples
  induction samples with
  | nil =>
    intro acc q _ _ hq
    right
    exact ⟨q, by simp [readSamples], by simp, by simpa using hq⟩
  | cons v vs ih =>
    intro acc q hok hshort hq
    simp only [List.flatMap_cons, List.append_assoc] at hq
    rcases prefix_append_cases hq with ⟨h1, h2⟩ | ⟨q1, rfl, h1⟩
    · left
      obtain ⟨e, he⟩ := hshort v (List.mem_cons_self _ _) q h1 h2
      exact ⟨e, by simp [readSamples, he]⟩
    · have hz := hok v (List.mem_cons_self _ _) q1
      rcases ih (acc ++ [v]) q1 (fun x hx => hok x (List.mem_cons_of_mem _ hx))
          (fun x hx => hshort x (List.mem_cons_of_mem _ hx)) h1 with ⟨e, he⟩ | ⟨q', h2, h3, h4⟩
      · left
        exact ⟨e, by simp only [List.length_cons, readSamples, hz]; exact he⟩
      · right
        refine ⟨q', ?_, ?_, h4⟩
        · simp only [List.length_cons, readSamples, hz]
          rw [h2]
          simp
        · rw [h3]
          simp

theorem readFingerprints_short (width : Nat) :
    ∀ (fps : List (List Nat)) (i : Nat) (acc : List String) (q : List Nat),
      (∀ f ∈ fps, f.length = width) → q <+: fps.flatten → q ≠ fps.flatten →
      ∃ e, (readFingerprints width fps.length i acc q).2 = some e := by
  intro fps
  induction fps with
  | nil =>
    intro i acc q _ hq hne
    simp only [List.flatten_nil, List.prefix_nil] at hq
    exact absurd hq (by simpa using hne)
  | cons f fs ih =>
    intro i acc q hw hq hne
    simp only [List.flatten_cons] at hq hne
    have hf : f.length = width := hw f (List.mem_cons_self _ _)
    rcases prefix_append_cases hq with ⟨h1, h2⟩ | ⟨q1, rfl, h1⟩
    · have hlen : q.length < width := by
        have := h1.length_le
        rcases Nat.lt_or_ge q.length f.length with h | h
        · omega
        · exact absurd (h1.eq_of_length_le h) h2
      obtain ⟨e, he⟩ := ReadFull_short hlen
      exact ⟨e, by simp [readFingerprints, he]⟩
    · have hr := ReadFull_exact f q1
      rw [hf] at hr
      obtain ⟨e, he⟩ := ih (i + 1) (acc.set i (hexString f)) q1
        (fun x hx => hw x (List.mem_cons_of_mem _ hx)) h1
        (fun h => hne (by rw [h]))
      exact ⟨e, by simp only [List.length_cons, readFingerprints, hr]; exact he⟩


theorem unmarshalBody_prefix {w : Wire} (encInt : Int → List Nat) (key : Bitstring) (bq : Int)
    (nd : Node) (fps : List (List Nat)) (hleaf : nd.Leaf = true)
    (hok : ∀ rest, w.ReadInt (encInt (fps.length : Int) ++ rest) = .ok ((fps.length : Int), rest))
    (hshort : ∀ q, q <+: encInt (fps.length : Int) → q ≠ encInt (fps.length : Int) →
      ∃ e, w.ReadInt q = .error e)
    (hw : ∀ f ∈ fps, f.length = w.SksZpNbytes) {q : List Nat}
    (hq : q <+: encInt (fps.length : Int) ++ fps.flatten)
    (hne : q ≠ encInt (fps.length : Int) ++ fps.flatten) :
    ∃ node e, unmarshalBody w key bq nd q = .ok (node, some e) := by
  unfold unmarshalBody
  rw [if_pos hleaf]
  rcases prefix_append_cases hq with ⟨h1, h2⟩ | ⟨q1, rfl, h1⟩
  · obtain ⟨e, he⟩ := hshort q h1 h2
    exact ⟨some nd, e, by rw [he]⟩
  · rw [hok q1]
    have hnn : ¬ ((fps.length : Int) < 0) := by omega
    simp only [hnn, if_false, Int.toNat_ofNat]
    obtain ⟨e, he⟩ := readFingerprints_short w.SksZpNbytes fps 0
      (List.replicate fps.length "") q1 hw h1 (fun h => hne (by rw [h]))
    exact ⟨_, e, by rw [he]⟩

theorem unmarshalSamples_nil {w : Wire}
    (hs : ∀ r v r', w.ReadZp r = .ok (v, r') → r' <:+ r) (key : Bitstring) (bq ne : Int)
    (n : Nat) : ∃ node e, unmarshalSamples w key bq (n : Int) ne [] = .ok (node, some e) := by
  unfold unmarshalSamples
  have hnn : ¬ ((n : Int) < 0) := by omega
  simp only [hnn, if_false, Int.toNat_ofNat]
  cases hr : readSamples w n [] [] with
  | error e => exact ⟨none, e, rfl⟩
  | ok res =>
    obtain ⟨sv, r'⟩ := res
    have hsuf := readSamples_suffix hs n [] [] sv r' hr
    have hnil : r' = [] := List.suffix_nil.mp hsuf
    subst hnil
    exact ⟨none, ParseError.EOF, rfl⟩

theorem unmarshalSamples_prefix {w : Wire} {encInt : Int → List Nat} {encZp : Nat → List Nat}
    (key : Bitstring) (bq ne : Int) (samples : List Nat) (leaf : Bool) (fps : List (List Nat))
    (hzok : ∀ v, v ∈ samples → ∀ rest, w.ReadZp (encZp v ++ rest) = .ok (v, rest))
    (hzshort : ∀ v, v ∈ samples → ∀ q, q <+: encZp v → q ≠ encZp v →
      ∃ e, w.ReadZp q = .error e)
    (hok : ∀ rest, w.ReadInt (encInt (fps.length : Int) ++ rest) = .ok ((fps.length : Int), rest))
    (hshort : ∀ q, q <+: encInt (fps.length : Int) → q ≠ encInt (fps.length : Int) →
      ∃ e, w.ReadInt q = .error e)
    (hw : ∀ f ∈ fps, f.length = w.SksZpNbytes) {q : List Nat}
    (hq : q <+: samples.flatMap encZp ++ ((if leaf then 1 else 0) ::
      (if leaf then encInt (fps.length : Int) ++ fps.flatten else [])))
    (hne : q ≠ samples.flatMap encZp ++ ((if leaf then 1 else 0) ::
      (if leaf then encInt (fps.length : Int) ++ fps.flatten else []))) :
    ∃ node e, unmarshalSamples w key bq (samples.length : Int) ne q = .ok (node, some e) := by
  unfold unmarshalSamples
  have hnn : ¬ ((samples.length : Int) < 0) := by omega
  simp only [hnn, if_false, Int.toNat_ofNat]
  rcases readSamples_prefix _ samples [] q hzok hzshort hq with ⟨e, he⟩ | ⟨q4, h1, rfl, h3⟩
  · exact ⟨none, e, by rw [he]⟩
  · rw [h1]
    cases q4 with
    | nil => exact ⟨none, ParseError.EOF, rfl⟩
    | cons x q5 =>
      have hx : x = (if leaf then 1 else 0) := (List.cons_prefix_cons.mp h3).1
      have h5 : q5 <+: (if leaf then encInt (fps.length : Int) ++ fps.flatten else []) :=
        (List.cons_prefix_cons.mp h3).2
      have hbr : bufferRead (x :: q5) 1 = .ok ([x], q5) := by
        simp [bufferRead]
      simp only [hbr]
      cases leaf with
      | false =>
        exfalso
        simp only [Bool.false_eq_true, if_false, List.prefix_nil] at h5 hx
        apply hne
        rw [hx, h5]
        simp
      | true =>
        simp only [if_true] at h5 hx hne
        apply unmarshalBody_prefix encInt key bq _ fps _ hok hshort hw h5
        · intro h
          apply hne
          rw [hx, h]
        · simp [hx]


theorem unmarshalKey_prefix {w : Wire} {encInt : Int → List Nat} {encZp : Nat → List Nat}
    (bq ne kb : Int) (K samples : List Nat) (leaf : Bool) (fps : List (List Nat))
    (hkb : 0 ≤ kb) (hK : (K.length : Int) = keyByteLen kb)
    (hzok : ∀ v, v ∈ samples → ∀ rest, w.ReadZp (encZp v ++ rest) = .ok (v, rest))
    (hzshort : ∀ v, v ∈ samples → ∀ q, q <+: encZp v → q ≠ encZp v →
      ∃ e, w.ReadZp q = .error e)
    (hs : ∀ r v r', w.ReadZp r = .ok (v, r') → r' <:+ r)
    (hok : ∀ rest, w.ReadInt (encInt (fps.length : Int) ++ rest) = .ok ((fps.length : Int), rest))
    (hshort : ∀ q, q <+: encInt (fps.length : Int) → q ≠ encInt (fps.length : Int) →
      ∃ e, w.ReadInt q = .error e)
    (hw : ∀ f ∈ fps, f.length = w.SksZpNbytes) {q : List Nat}
    (hq : q <+: K ++ (samples.flatMap encZp ++ ((if leaf then 1 else 0) ::
      (if leaf then encInt (fps.length : Int) ++ fps.flatten else []))))
    (hne : q ≠ K ++ (samples.flatMap encZp ++ ((if leaf then 1 else 0) ::
      (if leaf then encInt (fps.length : Int) ++ fps.flatten else [])))) :
    ∃ node e, unmarshalKey w bq (samples.length : Int) ne kb q = .ok (node, some e) := by
  unfold unmarshalKey
  have h0 : ¬ (keyByteLen kb < 0) := by rw [← hK]; omega
  have hn : (keyByteLen kb).toNat = K.length := by rw [← hK]; exact Int.toNat_ofNat _
  have hnb : NewBitstring kb = .ok ⟨List.replicate kb.toNat false⟩ := by
    unfold NewBitstring
    rw [if_neg (by omega)]
  rw [if_neg h0, hn]
  rcases prefix_append_cases hq with ⟨h1, h2⟩ | ⟨q3, rfl, h3⟩
  · have hlen : q.length < K.length := by
      have := h1.length_le
      rcases Nat.lt_or_ge q.length K.length with h | h
      · exact h
      · exact absurd (h1.eq_of_length_le h) h2
    rcases bufferRead_short hlen with ⟨e, he⟩ | ⟨d, hd⟩
    · exact ⟨none, e, by rw [he]⟩
    · rw [hd]
      simp only [hnb]
      exact unmarshalSamples_nil hs _ bq ne samples.length
  · rw [bufferRead_exact]
    simp only [hnb]
    exact unmarshalSamples_prefix _ bq ne samples leaf fps hzok hzshort hok hshort hw h3
      (fun h => hne (by rw [h]))

theorem byteWire_decodes (rec : NodeRecord)
    (hint : ∀ n, n ∈ [rec.numElements, rec.keyBits, (rec.fingerprints.length : Int)] →
      0 ≤ n ∧ n < 128) : Decodes byteWire encByteInt encByteZp rec := by
  refine ⟨?_, ?_, ?_, ?_, ?_⟩
  · intro n hn rest
    obtain ⟨h0, h1⟩ := hint n hn
    simp only [byteWire, encByteInt, h0, if_true, List.singleton_append, readByteInt]
    have : n.toNat < 128 := by omega
    rw [if_pos this, Int.toNat_of_nonneg h0]
  · intro n _ q hq hne
    have hq' : q = [] := by
      have hl := hq.length_le
      simp only [encByteInt, List.length_singleton] at hl
      rcases Nat.lt_or_ge q.length 1 with h | h
      · exact List.length_eq_zero.mp (by omega)
      · exact absurd (hq.eq_of_length_le (by simpa [encByteInt] using h)) hne
    subst hq'
    exact ⟨ParseError.EOF, rfl⟩
  · intro v _ rest
    rfl
  · intro v _ q hq hne
    have hq' : q = [] := by
      have hl := hq.length_le
      simp only [encByteZp, List.length_singleton] at hl
      rcases Nat.lt_or_ge q.length 1 with h | h
      · exact List.length_eq_zero.mp (by omega)
      · exact absurd (hq.eq_of_length_le (by simpa [encByteZp] using h)) hne
    subst hq'
    exact ⟨ParseError.EOF, rfl⟩
  · intro r v r' h
    cases r with
    | nil => cases h
    | cons b rest =>
      simp only [byteWire, readByteZp, Except.ok.injEq, Prod.mk.injEq] at h
      rw [← h.2]
      exact List.suffix_cons _ _

/-! ## Claims on `Reduce`: solving a system -/

/-- C1, at the failing input: over the prime modulus `2^127 - 1` the one-row
augmented matrix `[2^64+1 | 1]` has an invertible square part, yet `Reduce`
returns it unchanged.  `Int64()` of the pivot `2^64+1` is 1, so the row is not
normalised: the left block is not the identity and the trailing column `1` does
not solve `(2^64+1)·x = 1`. -/
theorem reduce_full_rank_wide_modulus :
    Nat.Prime (2 ^ 127 - 1) ∧
    Matrix.WF ⟨2, 1, [2 ^ 64 + 1, 1]⟩ ∧ Matrix.Reduced (2 ^ 127 - 1) ⟨2, 1, [2 ^ 64 + 1, 1]⟩ ∧
    (Matrix.squarePart (2 ^ 127 - 1) 1 (Matrix.cell ⟨2, 1, [2 ^ 64 + 1, 1]⟩)).det ≠ 0 ∧
    Matrix.Reduce (2 ^ 127 - 1) ⟨2, 1, [2 ^ 64 + 1, 1]⟩ =
      .ok (none, ⟨2, 1, [2 ^ 64 + 1, 1]⟩) ∧
    Matrix.cell ⟨2, 1, [2 ^ 64 + 1, 1]⟩ 0 0 ≠ 1 ∧
    ((2 ^ 64 + 1) * Matrix.cell ⟨2, 1, [2 ^ 64 + 1, 1]⟩ 1 0) % (2 ^ 127 - 1) ≠
      Matrix.cell ⟨2, 1, [2 ^ 64 + 1, 1]⟩ 1 0 % (2 ^ 127 - 1) := by
  have hp : Nat.Prime (2 ^ 127 - 1) := lucas_lehmer_sufficiency 127 (by norm_num) (by norm_num)
  refine ⟨hp, by decide, by decide, ?_, by decide, by decide, by decide⟩
  rw [Matrix.det_fin_one]
  have hlt : Matrix.cell ⟨2, 1, [2 ^ 64 + 1, 1]⟩ 0 0 < 2 ^ 127 - 1 := by decide
  exact Matrix.cast_ne_zero hlt (by decide)

/-- The solver on moduli that fit 64 bits: for such a prime modulus it is correct
on every invertible system.  `Reduce` on the
augmented matrix `[A|b]` returns no error, leaves the identity in the left
block and the unique solution of `A·x = b` in the trailing column. -/
theorem reduce_full_rank_small_modulus (P : Nat) (hp : P.Prime) (h64 : P ≤ 2 ^ 64) (m : Matrix)
    (hwf : m.WF) (hr : m.Reduced P) (hc : m.columns = m.rows + 1)
    (hdet : (Matrix.squarePart P m.rows m.cell).det ≠ 0) :
    ∃ m2, Matrix.Reduce P m = .ok (none, m2) ∧
      (∀ a b, a < m.rows → b < m.rows → m2.cell a b = if a = b then 1 else 0) ∧
      Matrix.Solves P m (fun i => (m2.cell m.rows i : ZMod P)) ∧
      ∀ y, Matrix.Solves P m y → ∀ i, i < m.rows → y i = (m2.cell m.rows i : ZMod P) := by
  obtain ⟨m2, h1, _, h2, h3, h4⟩ := Matrix.Reduce_invertible hp h64 hwf hr hc hdet
  exact ⟨m2, h1, h2, h3, h4⟩

theorem reduce_full_rank_small_modulus_witness :
    ∃ m2, Matrix.Reduce 17 ⟨3, 2, [1, 1, 5, 2, 16, 1]⟩ = .ok (none, m2) ∧
      (∀ a b, a < 2 → b < 2 → m2.cell a b = if a = b then 1 else 0) ∧
      Matrix.Solves 17 ⟨3, 2, [1, 1, 5, 2, 16, 1]⟩ (fun i => (m2.cell 2 i : ZMod 17)) ∧
      ∀ y, Matrix.Solves 17 ⟨3, 2, [1, 1, 5, 2, 16, 1]⟩ y →
        ∀ i, i < 2 → y i = (m2.cell 2 i : ZMod 17) :=
  reduce_full_rank_small_modulus 17 (by norm_num) (by norm_num) ⟨3, 2, [1, 1, 5, 2, 16, 1]⟩
    (by decide) (by decide) rfl (by
      rw [Matrix.det_fin_two]
      simp [Matrix.squarePart, Matrix.cell]
      decide)

/-- The hand-checkable case of the spec: over `P = 17` the system with rows
`[1, 1, 5]` and `[2, -1, 1]` reduces to the trailing column `x0 = 2`, `x1 = 3`. -/
theorem reduce_example_mod_17 :
    Matrix.Reduce 17 ⟨3, 2, [1, 1, 5, 2, Zp.Zi 17 (-1), 1]⟩ =
      .ok (none, ⟨3, 2, [1, 0, 2, 0, 1, 3]⟩) := by
  decide

/-- C4, refuted as stated: over `P = 17` the vector `x = (0, 3, 1, 5)` solves the
rank-deficient system `x0 + x1 = 3`, `x1 + x2 = 4`, `0 = 0`, `x3 = 5`, but not the
system that `Reduce` leaves, whose first row reads `x0 = 16`: back-substitution
of row 1 into row 0 skips column 2. -/
theorem reduce_drops_solution :
    Nat.Prime 17 ∧
    Matrix.WF ⟨5, 4, [1, 1, 0, 0, 3, 0, 1, 1, 0, 4, 0, 0, 0, 0, 0, 0, 0, 0, 1, 5]⟩ ∧
    Matrix.Reduced 17 ⟨5, 4, [1, 1, 0, 0, 3, 0, 1, 1, 0, 4, 0, 0, 0, 0, 0, 0, 0, 0, 1, 5]⟩ ∧
    Matrix.Reduce 17 ⟨5, 4, [1, 1, 0, 0, 3, 0, 1, 1, 0, 4, 0, 0, 0, 0, 0, 0, 0, 0, 1, 5]⟩ =
      .ok (none, ⟨5, 4, [1, 0, 0, 0, 16, 0, 1, 1, 0, 4, 0, 0, 0, 0, 0, 0, 0, 0, 1, 5]⟩) ∧
    Matrix.Solves 17 ⟨5, 4, [1, 1, 0, 0, 3, 0, 1, 1, 0, 4, 0, 0, 0, 0, 0, 0, 0, 0, 1, 5]⟩
      (fun i => (([0, 3, 1, 5].getD i 0 : Nat) : ZMod 17)) ∧
    ¬ Matrix.Solves 17 ⟨5, 4, [1, 0, 0, 0, 16, 0, 1, 1, 0, 4, 0, 0, 0, 0, 0, 0, 0, 0, 1, 5]⟩
      (fun i => (([0, 3, 1, 5].getD i 0 : Nat) : ZMod 17)) := by
  refine ⟨by norm_num, by decide, by decide, by decide, ?_, ?_⟩
  · intro j hj
    simp only [] at hj
    interval_cases j
    all_goals simp [Finset.sum_range_succ, Matrix.cell]
    all_goals decide
  · intro h
    have := h 0 (by decide)
    simp [Finset.sum_range_succ, Matrix.cell] at this
    revert this
    decide

/-- C5, at the failing input: over the prime modulus `2^127 - 1` a first `Reduce`
of the matrix with rows `[1, 0]` and `[2^64+1, 1]` leaves rows `[1, 0]` and
`[2^64, 1]`, with a unit diagonal, and a second `Reduce` changes the cell in
column 0 of row 1 from `2^64` to `0`.  `Int64()` of the multiplier `2^64+1` is
1, so the first elimination subtracts the pivot row once instead of `2^64+1`
times. -/
theorem reduce_twice_wide_modulus :
    Nat.Prime (2 ^ 127 - 1) ∧
    Matrix.WF ⟨2, 2, [1, 0, 2 ^ 64 + 1, 1]⟩ ∧
    Matrix.Reduced (2 ^ 127 - 1) ⟨2, 2, [1, 0, 2 ^ 64 + 1, 1]⟩ ∧
    Matrix.Reduce (2 ^ 127 - 1) ⟨2, 2, [1, 0, 2 ^ 64 + 1, 1]⟩ =
      .ok (none, ⟨2, 2, [1, 0, 2 ^ 64, 1]⟩) ∧
    (∀ j, j < 2 → Matrix.cell ⟨2, 2, [1, 0, 2 ^ 64, 1]⟩ j j = 1) ∧
    Matrix.Reduce (2 ^ 127 - 1) ⟨2, 2, [1, 0, 2 ^ 64, 1]⟩ =
      .ok (none, ⟨2, 2, [1, 0, 0, 1]⟩) ∧
    Matrix.cell ⟨2, 2, [1, 0, 0, 1]⟩ 0 1 ≠ Matrix.cell ⟨2, 2, [1, 0, 2 ^ 64, 1]⟩ 0 1 := by
  have hp : Nat.Prime (2 ^ 127 - 1) := lucas_lehmer_sufficiency 127 (by norm_num) (by norm_num)
  exact ⟨hp, by decide, by decide, by decide, by decide, by decide, by decide⟩

/-- Idempotence on moduli that fit 64 bits: for such a prime modulus `Reduce` is
idempotent on reduced matrices with a unit diagonal.  When a
first `Reduce` of a matrix with `columns ≥ rows` leaves every diagonal cell
equal to 1, a second `Reduce` returns no error and the same matrix. -/
theorem reduce_idempotent_small_modulus (P : Nat) (hp : P.Prime) (h64 : P ≤ 2 ^ 64)
    (m : Matrix) (hwf : m.WF) (hr : m.Reduced P) (hcr : m.rows ≤ m.columns) (m2 : Matrix)
    (hR : Matrix.Reduce P m = .ok (none, m2)) (hd : ∀ j, j < m.rows → m2.cell j j = 1) :
    Matrix.Reduce P m2 = .ok (none, m2) := by
  obtain ⟨hk, hid, _⟩ := Matrix.Reduce_unit_diag hp h64 hwf hr hcr hR hd
  apply Matrix.Reduce_of_identity hp.pos hk.2.2.1 hk.2.2.2 (by rw [hk.1, hk.2.1]; exact hcr)
  rw [hk.2.1]
  exact hid

theorem reduce_idempotent_small_modulus_witness :
    Matrix.Reduce 17 ⟨3, 2, [1, 0, 2, 0, 1, 3]⟩ = .ok (none, ⟨3, 2, [1, 0, 2, 0, 1, 3]⟩) :=
  reduce_idempotent_small_modulus 17 (by norm_num) (by norm_num) ⟨3, 2, [1, 1, 5, 2, 16, 1]⟩
    (by decide) (by decide) (by decide) ⟨3, 2, [1, 0, 2, 0, 1, 3]⟩ (by decide) (by decide)

namespace Matrix

theorem Reduce_narrow (P : Nat) (m : Matrix) (h : m.columns < m.rows) :
    Reduce P m = .ok (some Error.MatrixTooNarrow, m) := by
  unfold Reduce
  rw [if_pos h]

end Matrix

/-! ## Claims on `Reduce`: errors -/

/-- C2: for every matrix with `columns < rows`, `Reduce` returns the
`MatrixTooNarrow` error and leaves the matrix (dimensions and every cell) as it
was. -/
theorem reduce_too_narrow (P : Nat) (m : Matrix) (h : m.columns < m.rows) :
    Matrix.Reduce P m = .ok (some Error.MatrixTooNarrow, m) := by
  unfold Matrix.Reduce
  rw [if_pos h]

theorem reduce_too_narrow_witness :
    Matrix.Reduce 17 ⟨1, 2, [3, 4]⟩ = .ok (some Error.MatrixTooNarrow, ⟨1, 2, [3, 4]⟩) :=
  reduce_too_narrow 17 ⟨1, 2, [3, 4]⟩ (by decide)

/-- C3: on a well-formed matrix of reduced cells with `columns ≥ rows`, singular
ones included, `Reduce` runs to completion and returns no error; the only error
it ever returns is `MatrixTooNarrow`, exactly when `columns < rows`, and never
`SwapRowNotFound`. -/
theorem reduce_error_iff_narrow (P : Nat) (hP : 0 < P) (m : Matrix) (hwf : m.WF)
    (hr : m.Reduced P) :
    (m.rows ≤ m.columns → ∃ m', Matrix.Reduce P m = .ok (none, m')) ∧
    (∀ e m', Matrix.Reduce P m = .ok (some e, m') → e = Error.MatrixTooNarrow) ∧
    ((∃ m', Matrix.Reduce P m = .ok (some Error.MatrixTooNarrow, m')) ↔ m.columns < m.rows) ∧
    (∀ m', Matrix.Reduce P m ≠ .ok (some Error.SwapRowNotFound, m')) := by
  have hok : m.rows ≤ m.columns → ∃ m', Matrix.Reduce P m = .ok (none, m') := fun hcr => by
    obtain ⟨m', h, _⟩ := Matrix.Reduce_ok hP hwf hr hcr
    exact ⟨m', h⟩
  have honly : ∀ e m', Matrix.Reduce P m = .ok (some e, m') →
      e = Error.MatrixTooNarrow ∧ m.columns < m.rows := by
    intro e m' h
    by_cases hcr : m.columns < m.rows
    · rw [Matrix.Reduce_narrow P m hcr] at h
      cases h
      exact ⟨rfl, hcr⟩
    · obtain ⟨m1, h1⟩ := hok (by omega)
      rw [h1] at h
      cases h
  refine ⟨hok, fun e m' h => (honly e m' h).1, ⟨?_, ?_⟩, ?_⟩
  · rintro ⟨m', h⟩
    exact (honly _ m' h).2
  · intro h
    exact ⟨m, Matrix.Reduce_narrow P m h⟩
  · intro m' h
    have := (honly _ m' h).1
    cases this

theorem reduce_error_iff_narrow_witness :
    (2 ≤ 3 → ∃ m', Matrix.Reduce 17 ⟨3, 2, [0, 1, 1, 0, 1, 2]⟩ = .ok (none, m')) ∧
    (∀ e m', Matrix.Reduce 17 ⟨3, 2, [0, 1, 1, 0, 1, 2]⟩ = .ok (some e, m') →
      e = Error.MatrixTooNarrow) ∧
    ((∃ m', Matrix.Reduce 17 ⟨3, 2, [0, 1, 1, 0, 1, 2]⟩ =
        .ok (some Error.MatrixTooNarrow, m')) ↔ 3 < 2) ∧
    (∀ m', Matrix.Reduce 17 ⟨3, 2, [0, 1, 1, 0, 1, 2]⟩ ≠
      .ok (some Error.SwapRowNotFound, m')) :=
  reduce_error_iff_narrow 17 (by decide) ⟨3, 2, [0, 1, 1, 0, 1, 2]⟩ (by decide) (by decide)

/-! ## Claims on cell addressing -/

theorem mulInt_of_lt {a b : Nat} (h : a * b < 2 ^ 63) :
    mulInt (a : Int) (b : Int) = ((a * b : Nat) : Int) := by
  unfold mulInt
  have e : (a : Int) * (b : Int) = ((a * b : Nat) : Int) := by push_cast; rfl
  rw [e]
  omega

theorem NewMatrix_ok {columns rows : Nat} (x : Nat) (h : columns * rows < 2 ^ 63) :
    NewMatrix columns rows x =
      .ok { columns := columns, rows := rows, cells := List.replicate (columns * rows) x } := by
  unfold NewMatrix
  rw [mulInt_of_lt h, if_neg (by omega), Int.toNat_ofNat]

/-- C6, refuted as stated: `NewMatrix(2^32, 2^32, 5)` computes its store length
`2^32 * 2^32` at Go's `int`, where it is 0: the matrix it returns has `2^32`
columns and rows and no cell, so the in-range cell (0, 0) cannot be read or
written, and its store is not one of `columns * rows` cells.  With `2^31` rows
the product wraps to a negative length and `make` panics. -/
theorem cell_addressing_overflow :
    NewMatrix (2 ^ 32) (2 ^ 32) 5 = .ok ⟨2 ^ 32, 2 ^ 32, []⟩ ∧
    0 < 2 ^ 32 ∧
    Matrix.Get ⟨2 ^ 32, 2 ^ 32, []⟩ 0 0 = .error Panic.indexOutOfRange ∧
    Matrix.Set ⟨2 ^ 32, 2 ^ 32, []⟩ 0 0 7 = .error Panic.indexOutOfRange ∧
    ¬ Matrix.WF ⟨2 ^ 32, 2 ^ 32, []⟩ ∧
    NewMatrix (2 ^ 32) (2 ^ 31) 5 = .error Panic.negativeLength := by
  decide

/-- C6, amended: when `columns * rows` does not overflow Go's `int`
(`columns * rows < 2^63`), the flat store is a faithful two-dimensional store.
`NewMatrix` returns a matrix of `columns * rows` cells that all read back as
the fill value; on a well-formed matrix `Set(i, j, y)` followed by `Get(i, j)`
gives `y` and every other in-range cell reads as before; the address map
`(i, j) ↦ i + j * columns` is injective on in-range positions and lands inside
the store. -/
theorem cell_addressing_faithful (columns rows x : Nat) (hsize : columns * rows < 2 ^ 63) :
    (∃ m, NewMatrix columns rows x = .ok m ∧ m.columns = columns ∧ m.rows = rows ∧ m.WF ∧
      m.cells.length = columns * rows ∧
      ∀ i j, i < columns → j < rows → m.Get i j = .ok x) ∧
    (∀ (m : Matrix) (i j y : Nat), m.WF → i < m.columns → j < m.rows →
      ∃ m', m.Set i j y = .ok m' ∧ m'.columns = m.columns ∧ m'.rows = m.rows ∧ m'.WF ∧
        m'.Get i j = .ok y ∧
        ∀ i' j', i' < m.columns → j' < m.rows → (i', j') ≠ (i, j) →
          m'.Get i' j' = m.Get i' j') ∧
    (∀ i j i' j', i < columns → i' < columns → j < rows → j' < rows →
      i + j * columns = i' + j' * columns → i = i' ∧ j = j') ∧
    (∀ i j, i < columns → j < rows → i + j * columns < columns * rows) := by
  refine ⟨⟨_, NewMatrix_ok x hsize, rfl, rfl, ?_, ?_, ?_⟩, ?_, ?_, ?_⟩
  · simp [Matrix.WF]
  · simp
  · intro i j hi hj
    have hk : i + j * columns < columns * rows := Matrix.idx_lt hi hj
    simp [Matrix.Get, Matrix.load, List.getElem?_replicate, hk]
  · intro m i j y hm hi hj
    obtain ⟨m', h1, hc, hrw, hwf', hcell, _⟩ := Matrix.Set_spec 0 y hm hi hj
    refine ⟨m', h1, hc, hrw, hwf', ?_, ?_⟩
    · rw [Matrix.Get_ok hwf' (hc ▸ hi) (hrw ▸ hj), hcell, if_pos ⟨rfl, rfl⟩]
    · intro i' j' hi' hj' hne
      rw [Matrix.Get_ok hwf' (hc ▸ hi') (hrw ▸ hj'), Matrix.Get_ok hm hi' hj', hcell,
        if_neg (fun h => hne (by rw [h.1, h.2]))]
  · intro i j i' j' hi hi' _ _ h
    exact Matrix.idx_inj hi hi' h
  · intro i j hi hj
    exact Matrix.idx_lt hi hj

theorem cell_addressing_faithful_witness :
    (∃ m, NewMatrix 3 2 5 = .ok m ∧ m.Get 2 1 = .ok 5) ∧
    (∃ m', Matrix.Set ⟨3, 2, [5, 5, 5, 5, 5, 5]⟩ 2 0 7 = .ok m' ∧ m'.Get 2 0 = .ok 7 ∧
      m'.Get 0 1 = Matrix.Get ⟨3, 2, [5, 5, 5, 5, 5, 5]⟩ 0 1) := by
  obtain ⟨⟨m, hm, _, _, _, _, hget⟩, hset, _, _⟩ := cell_addressing_faithful 3 2 5 (by decide)
  refine ⟨⟨m, hm, hget 2 1 (by decide) (by decide)⟩, ?_⟩
  obtain ⟨m', h1, _, _, _, h2, h3⟩ :=
    hset ⟨3, 2, [5, 5, 5, 5, 5, 5]⟩ 2 0 7 (by decide) (by decide) (by decide)
  exact ⟨m', h1, h2, h3 0 1 (by decide) (by decide) (by decide)⟩

/-! ## Claims on the node parser -/

/-- C7: every proper prefix of the encoding of a well-formed node record is
rejected: `unmarshalNode` returns a non-nil error on it, wherever the record is
cut, a cut inside the key bytes included. -/
theorem truncated_record_rejected (w : Wire) (encInt : Int → List Nat)
    (encZp : Nat → List Nat) (rec : NodeRecord) (bitQuantum : Int)
    (hdec : Decodes w encInt encZp rec) (hwf : rec.WellFormed w.SksZpNbytes)
    (p : List Nat) (hp : p <+: encodeNode encInt encZp rec)
    (hne : p ≠ encodeNode encInt encZp rec) :
    ∃ node e,
      unmarshalNode w p bitQuantum (rec.sampleValues.length : Int) = .ok (node, some e) := by
  obtain ⟨hkb, hK, hw⟩ := hwf
  unfold encodeNode at hp hne
  unfold unmarshalNode
  have m1 : rec.numElements ∈
      [rec.numElements, rec.keyBits, (rec.fingerprints.length : Int)] := by simp
  have m2 : rec.keyBits ∈
      [rec.numElements, rec.keyBits, (rec.fingerprints.length : Int)] := by simp
  have m3 : (rec.fingerprints.length : Int) ∈
      [rec.numElements, rec.keyBits, (rec.fingerprints.length : Int)] := by simp
  rcases prefix_append_cases hp with ⟨h1, h2⟩ | ⟨q1, rfl, h1⟩
  · obtain ⟨e, he⟩ := hdec.int_short _ m1 p h1 h2
    exact ⟨none, e, by rw [he]⟩
  · rw [hdec.int_ok _ m1 q1]
    simp only
    rcases prefix_append_cases h1 with ⟨h2, h3⟩ | ⟨q2, rfl, h2⟩
    · obtain ⟨e, he⟩ := hdec.int_short _ m2 q1 h2 h3
      exact ⟨none, e, by rw [he]⟩
    · rw [hdec.int_ok _ m2 q2]
      simp only
      exact unmarshalKey_prefix bitQuantum rec.numElements rec.keyBits rec.key
        rec.sampleValues rec.leaf rec.fingerprints hkb hK hdec.zp_ok hdec.zp_short
        hdec.zp_suffix (hdec.int_ok _ m3) (hdec.int_short _ m3) hw h2
        (fun h => hne (by rw [h]))

theorem truncated_record_rejected_witness :
    ∃ node e, unmarshalNode byteWire [5, 3, 160, 1, 2, 3, 4, 5, 6, 1, 2, 171, 205, 1] 2
      (([1, 2, 3, 4, 5, 6] : List Nat).length : Int) = .ok (node, some e) :=
  truncated_record_rejected byteWire encByteInt encByteZp
    ⟨5, 3, [160], [1, 2, 3, 4, 5, 6], true, [[171, 205], [1, 2]]⟩ 2
    (byteWire_decodes _ (by decide))
    ⟨by decide, by decide, by decide⟩
    [5, 3, 160, 1, 2, 3, 4, 5, 6, 1, 2, 171, 205, 1]
    ⟨[2], by decide⟩ (by decide)

/-- The complete encoding of a leaf record with two fingerprints is accepted. -/
theorem complete_record_accepted :
    unmarshalNode byteWire
      (encodeNode encByteInt encByteZp
        ⟨5, 3, [160], [1, 2, 3, 4, 5, 6], true, [[171, 205], [1, 2]]⟩) 2 6 =
      .ok (some ⟨[1, 2, 3, 4, 5, 6], 5, "101", true, ["abcd", "0102"], []⟩, none) := by
  decide

/-- C9: the key byte length that `unmarshalNode` computes from `keyBits` is the
ceiling of `keyBits / 8` for every integer `keyBits`, and when it is negative
`unmarshalNode` returns the invalid-length error, whatever the buffer holds
after the two integers. -/
theorem key_byte_length_ceiling :
    (∀ keyBits : Int, keyByteLen keyBits = ⌈(keyBits : ℚ) / 8⌉) ∧
    (∀ (w : Wire) (buf r1 r2 : List Nat) (bq ns numElements keyBits : Int),
      w.ReadInt buf = .ok (numElements, r1) → w.ReadInt r1 = .ok (keyBits, r2) →
      keyByteLen keyBits < 0 →
      unmarshalNode w buf bq ns =
        .ok (none, some (ParseError.InvalidBitstringLength (keyByteLen keyBits)))) := by
  refine ⟨keyByteLen_ceil, ?_⟩
  intro w buf r1 r2 bq ns numElements keyBits h1 h2 hneg
  unfold unmarshalNode
  simp only [h1, h2]
  unfold unmarshalKey
  rw [if_pos hneg]

theorem key_byte_length_ceiling_witness :
    keyByteLen (-9) = ⌈((-9 : Int) : ℚ) / 8⌉ ∧
    unmarshalNode byteWire [5, 247, 1, 2, 3] 2 6 =
      .ok (none, some (ParseError.InvalidBitstringLength (keyByteLen (-9)))) :=
  ⟨key_byte_length_ceiling.1 (-9),
    key_byte_length_ceiling.2 byteWire [5, 247, 1, 2, 3] [247, 1, 2, 3] [1, 2, 3] 2 6 5 (-9)
      (by decide) (by decide) (by decide)⟩

/-- C10, refuted as stated: with `bitQuantum = 64` the loop bound `1<<uint(64)`
is 0 at Go's 64-bit `int`, and the successfully parsed internal node gets no
child key at all instead of `2^64`. -/
theorem children_overflow :
    unmarshalNode byteWire [5, 3, 160, 1, 2, 3, 4, 5, 6, 0] 64 6 =
      .ok (some ⟨[1, 2, 3, 4, 5, 6], 5, "101", false, [], []⟩, none) := by
  decide

/-- C10, amended: for every successfully parsed internal node and every
`bitQuantum` `k` with `0 ≤ k ≤ 62`, `unmarshalNode` derives exactly `2^k` child
keys; each has the bit length of the node's key plus `k` and the bits of the
node's key as its leading bits, and the child keys are pairwise distinct, as
keys and in their string form. -/
theorem children_derived (w : Wire) (buf : List Nat) (k : Nat) (ns : Int) (hk : k ≤ 62)
    (node : Node) (h : unmarshalNode w buf (k : Int) ns = .ok (some node, none))
    (hleaf : node.Leaf = false) :
    ∃ (key : Bitstring) (children : List Bitstring),
      node.Key = key.String ∧ node.Children = children.map Bitstring.String ∧
      children.length = 2 ^ k ∧
      (∀ c ∈ children, c.BitLen = key.BitLen + k ∧ c.bits.take key.BitLen = key.bits) ∧
      children.Nodup ∧ node.Children.Nodup := by
  obtain ⟨key, hkey, hd⟩ := unmarshalNode_internal h hleaf
  rw [deriveChildren_eq key hk] at hd
  simp only [Except.ok.injEq] at hd
  have hnodup : ((List.range (2 ^ k)).map
      (fun i => Bitstring.mk (key.bits ++ (List.range k).map (bitSet i)))).Nodup := by
    apply List.Nodup.map_on _ (List.nodup_range _)
    intro i hi i' hi' heq
    rw [List.mem_range] at hi hi'
    simp only [Bitstring.mk.injEq, List.append_cancel_left_eq] at heq
    exact suffix_injective hk hi hi' heq
  refine ⟨key, (List.range (2 ^ k)).map
    (fun i => Bitstring.mk (key.bits ++ (List.range k).map (bitSet i))), hkey, ?_, ?_, ?_,
    hnodup, ?_⟩
  · rw [← hd, List.map_map]
    rfl
  · simp
  · intro c hc
    simp only [List.mem_map, List.mem_range] at hc
    obtain ⟨i, _, rfl⟩ := hc
    simp [Bitstring.BitLen]
  · rw [← hd]
    have := List.Nodup.map Bitstring_String_injective hnodup
    rw [List.map_map] at this
    exact this

theorem children_derived_witness :
    ∃ (key : Bitstring) (children : List Bitstring),
      "101" = key.String ∧
      ["10100", "10110", "10101", "10111"] = children.map Bitstring.String ∧
      children.length = 2 ^ 2 ∧
      (∀ c ∈ children, c.BitLen = key.BitLen + 2 ∧ c.bits.take key.BitLen = key.bits) ∧
      children.Nodup ∧ ["10100", "10110", "10101", "10111"].Nodup :=
  children_derived byteWire [5, 3, 160, 1, 2, 3, 4, 5, 6, 0] 2 6 (by decide)
    ⟨[1, 2, 3, 4, 5, 6], 5, "101", false, [], ["10100", "10110", "10101", "10111"]⟩
    (by decide) rfl

/-! ## The steps of `Reduce`, one by one -/

namespace Matrix

theorem exists_bound (l : List Nat) : ∃ Q, 0 < Q ∧ ∀ x ∈ l, x < Q := by
  induction l with
  | nil => exact ⟨1, Nat.one_pos, fun x hx => by cases hx⟩
  | cons y l ih =>
    obtain ⟨Q, hQ, h⟩ := ih
    refine ⟨Q + y + 1, by omega, fun x hx => ?_⟩
    rcases List.mem_cons.mp hx with h1 | h1
    · omega
    · have := h x h1
      omega

theorem exists_reduced (m : Matrix) : ∃ Q, 0 < Q ∧ m.Reduced Q :=
  exists_bound m.cells

/-- Column `j` after a forward step that found its pivot in row `r`, over a
prime modulus that fits 64 bits: the pivot is 1 and the rows below hold 0. -/
theorem stepped_column {P : Nat} (hp : P.Prime) (h64 : P ≤ 2 ^ 64) {f : Nat → Nat → Nat}
    (hred : Red P f) {c n j r : Nat} (hjc : j < c) (hv : f j r ≠ 0) :
    stepped P c n f j r j j = 1 ∧ ∀ b, j < b → b < n → stepped P c n f j r j b = 0 := by
  haveI : Fact P.Prime := ⟨hp⟩
  have hP : 0 < P := hp.pos
  have hredh := swapped_red hred j r
  have hjj : swapped f j r j j = f j r := by simp [swapped]
  have hredg := pivotScaled_red hP hredh c j
  have hg : pivotScaled P c (swapped f j r) j j j = 1 := by
    unfold pivotScaled
    by_cases h1 : Zp.Int64 (swapped f j r j j) = 1
    · have hv1 : swapped f j r j j = 1 :=
        (int64_eq_one_iff (lt_of_lt_of_le (hredh j j) h64)).mp h1
      have : ¬ ((Zp.Int64 (swapped f j r j j) != 1) = true) := by simp [h1]
      rw [if_neg this, hv1]
    · have : (Zp.Int64 (swapped f j r j j) != 1) = true := by simp [h1]
      rw [if_pos this, if_pos (show j = j ∧ j ≤ j ∧ j < c from ⟨rfl, Nat.le_refl _, hjc⟩)]
      apply cast_inj_of_lt (Zp_Mul_lt hP _ _) hp.one_lt
      rw [Zp_Mul_cast, Zp_inv_cast hp (hredh j j) (by rw [hjj]; exact hv),
        mul_inv_cancel₀ (cast_ne_zero (hredh j j) (by rw [hjj]; exact hv))]
      simp
  constructor
  · unfold stepped eliminated
    rw [if_neg (by omega), hg]
  · intro b hb hbn
    unfold stepped eliminated
    rw [if_pos (show j < b ∧ b < n ∧ j ≤ j ∧ j < c from ⟨hb, hbn, Nat.le_refl _, hjc⟩), hg]
    apply cast_inj_of_lt (subCell_lt hP _ _ _ (hredg j b)) hP
    rw [subCell_cast hP h64 (hredg j b)]
    simp

/-- A forward step changes no cell in a column left of the pivot, when these
columns are zero below the diagonal. -/
theorem stepped_left {P c n : Nat} {f : Nat → Nat → Nat} {j r : Nat} (hjr : j ≤ r)
    (hlz : LowerZero f j) (a b : Nat) (ha : a < j) : stepped P c n f j r a b = f a b := by
  have hs : swapped f j r a b = f a b := by
    unfold swapped
    by_cases h1 : b = j
    · rw [if_pos h1, h1]
      rcases Nat.eq_or_lt_of_le hjr with h | h
      · rw [h]
      · rw [hlz a r ha (by omega), hlz a j ha ha]
    · rw [if_neg h1]
      by_cases h2 : b = r
      · rw [if_pos h2, h2, hlz a j ha ha, hlz a r ha (by omega)]
      · rw [if_neg h2]
  unfold stepped eliminated pivotScaled
  rw [if_neg (by omega)]
  split
  · rw [if_neg (by omega)]; exact hs
  · exact hs


/-- The forward loop of `Reduce` stopped before step `k`. -/
theorem forward_prefix {P : Nat} (hp : P.Prime) (h64 : P ≤ 2 ^ 64) {m : Matrix} (hwf : m.WF)
    (hr : m.Reduced P) (hcr : m.rows ≤ m.columns) {k : Nat} (hk : k ≤ m.rows) :
    ∃ mk, forwardLoop P k 0 m = .ok (none, mk) ∧ ForwardInv P m k mk := by
  obtain ⟨m', h1, h2⟩ := forwardLoop_inv P (fun k mk => ForwardInv P m k mk) k 0 m
    ⟨Keeps.refl hwf hr, fun a b ha _ => by omega, fun a ha => by omega, fun w => Iff.rfl⟩
    (fun k mk _ hk hI => forward_step hp h64 hcr (by omega) hI)
  rw [Nat.zero_add] at h2
  exact ⟨m', h1, h2⟩

/-- The back-substitution loop of `Reduce`, pivots skipped or not: it changes
no cell on or below the diagonal, and it clears column `j` above the diagonal
for every `j` whose diagonal cell is 1. -/
theorem back_cleared {P : Nat} (hP : 0 < P) {m : Matrix} (hwf : m.WF) (hr : m.Reduced P)
    (hcr : m.rows ≤ m.columns) :
    ∃ m', loopDown (fun j s => backSubstitute P s j) 1 (m.rows - 1) m = .ok m' ∧ Keeps P m m' ∧
      (∀ a b, a ≤ b → m'.cell a b = m.cell a b) ∧
      (∀ j, 0 < j → j < m.rows → m.cell j j = 1 → ∀ b, b < j → m'.cell j b = 0) := by
  obtain ⟨m', h1, hk, hf, hc⟩ := loopDown_inv (fun j s => backSubstitute P s j) 1
    (fun t mt => Keeps P m mt ∧ (∀ a b, a ≤ b → mt.cell a b = m.cell a b) ∧
      (∀ j, t < j → j < m.rows → m.cell j j = 1 → ∀ b, b < j → mt.cell j b = 0))
    (m.rows - 1) m
    ⟨Keeps.refl hwf hr, fun a b _ => rfl, fun j h1 h2 => by omega⟩
    (by
      rintro k mk hk ⟨⟨hc, hrw, hwfk, hrk⟩, hframe, hclr⟩
      have hj : 1 + k < mk.rows := by omega
      obtain ⟨m', h1, hk', hcell⟩ :=
        backSubstitute_spec hP hwfk hrk hj (show 1 + k < mk.columns by omega)
      refine ⟨m', h1, Keeps.trans ⟨hc, hrw, hwfk, hrk⟩ hk', ?_, ?_⟩
      · intro a b hab
        rw [hcell a b]
        split
        · rw [backSubstituted_of_le (by omega) a b hab]; exact hframe a b hab
        · exact hframe a b hab
      · intro j hkj hjr hd b hb
        rw [hcell j b]
        by_cases h64 : Zp.Int64 (mk.cell (1 + k) (1 + k)) = 1
        · rw [if_pos h64]
          unfold backSubstituted
          by_cases hbk : b < 1 + k
          · rw [if_pos hbk]
            by_cases hjk : j = 1 + k
            · rw [if_pos hjk]
            · rw [if_neg hjk]
              have hz : mk.cell j (1 + k) = 0 := hclr j (by omega) hjr hd (1 + k) (by omega)
              have hz2 : mk.cell j b = 0 := hclr j (by omega) hjr hd b hb
              split
              · rw [hz, subCell_zero_src]; exact hz2
              · exact hz2
          · rw [if_neg hbk]
            exact hclr j (by omega) hjr hd b hb
        · rw [if_neg h64]
          by_cases hjk : j = 1 + k
          · exfalso
            apply h64
            rw [hframe _ _ (Nat.le_refl _), ← hjk, hd]
            exact int64_one
          · exact hclr j (by omega) hjr hd b hb)
  exact ⟨m', h1, hk, hf, fun j _ => hc j (by omega)⟩

/-- The shape of the matrix that `Reduce` leaves, over a prime modulus that fits
64 bits: zero below the diagonal, a diagonal of zeros and ones, and a unit
column wherever the diagonal holds 1. -/
theorem Reduce_shape {P : Nat} (hp : P.Prime) (h64 : P ≤ 2 ^ 64) {m : Matrix} (hwf : m.WF)
    (hr : m.Reduced P) (hcr : m.rows ≤ m.columns) :
    ∃ m2, Reduce P m = .ok (none, m2) ∧ Keeps P m m2 ∧
      (∀ i j, i < j → j < m.rows → m2.cell i j = 0) ∧
      (∀ j, j < m.rows → m2.cell j j = 0 ∨ m2.cell j j = 1) ∧
      (∀ j, j < m.rows → m2.cell j j = 1 → ∀ j2, j2 < m.rows → j2 ≠ j → m2.cell j j2 = 0) := by
  obtain ⟨m1, h1, hI⟩ := forward_spec hp h64 hwf hr hcr
  obtain ⟨hc, hrw, hwf1, hr1⟩ := hI.keeps
  obtain ⟨m2, h2, hk2, hframe, hclr⟩ :=
    back_cleared hp.pos hwf1 hr1 (by rw [hc, hrw]; exact hcr)
  have ha : ∀ i j, i < j → j < m.rows → m2.cell i j = 0 := by
    intro i j hij hj
    rw [hframe i j (by omega)]
    exact hI.lower i j (by omega) hij
  refine ⟨m2, Reduce_eq_of_loops hcr h1 h2, Keeps.trans hI.keeps hk2, ha, ?_, ?_⟩
  · intro j hj
    rw [hframe j j (Nat.le_refl _)]
    exact hI.diag j hj
  · intro j hj hd j2 hj2 hne
    rcases Nat.lt_or_gt_of_ne hne with h | h
    · rw [hframe j j (Nat.le_refl _)] at hd
      exact hclr j (by omega) (by rw [hrw]; exact hj) hd j2 h
    · exact ha j j2 h hj2

end Matrix

/-! ## Claims on the steps of `Reduce` -/

/-- C13, refuted as stated: over `P = 17` the rank-deficient matrix with rows
`[1,1,0,0,3]`, `[0,1,1,0,4]`, `[0,0,0,0,0]`, `[0,0,0,1,5]` is the state that
forward elimination and the back-substitutions of rows 3 and 2 leave.  Its cell
(1,1) is 1, and `backSubstitute(1)` leaves 0 in column 2 of row 0, where
row 0 minus `cell(1,0)` times row 1 has `0 - 1·1 = 16`: only the columns from
`rows - 1 = 3` on are subtracted. -/
theorem back_substitution_skips_column :
    Matrix.forwardLoop 17 4 0 ⟨5, 4, [1, 1, 0, 0, 3, 0, 1, 1, 0, 4, 0, 0, 0, 0, 0, 0, 0, 0, 1, 5]⟩ =
      .ok (none, ⟨5, 4, [1, 1, 0, 0, 3, 0, 1, 1, 0, 4, 0, 0, 0, 0, 0, 0, 0, 0, 1, 5]⟩) ∧
    Matrix.backSubstitute 17 ⟨5, 4, [1, 1, 0, 0, 3, 0, 1, 1, 0, 4, 0, 0, 0, 0, 0, 0, 0, 0, 1, 5]⟩ 3 =
      .ok ⟨5, 4, [1, 1, 0, 0, 3, 0, 1, 1, 0, 4, 0, 0, 0, 0, 0, 0, 0, 0, 1, 5]⟩ ∧
    Matrix.backSubstitute 17 ⟨5, 4, [1, 1, 0, 0, 3, 0, 1, 1, 0, 4, 0, 0, 0, 0, 0, 0, 0, 0, 1, 5]⟩ 2 =
      .ok ⟨5, 4, [1, 1, 0, 0, 3, 0, 1, 1, 0, 4, 0, 0, 0, 0, 0, 0, 0, 0, 1, 5]⟩ ∧
    Matrix.cell ⟨5, 4, [1, 1, 0, 0, 3, 0, 1, 1, 0, 4, 0, 0, 0, 0, 0, 0, 0, 0, 1, 5]⟩ 1 1 = 1 ∧
    Matrix.backSubstitute 17 ⟨5, 4, [1, 1, 0, 0, 3, 0, 1, 1, 0, 4, 0, 0, 0, 0, 0, 0, 0, 0, 1, 5]⟩ 1 =
      .ok ⟨5, 4, [1, 0, 0, 0, 16, 0, 1, 1, 0, 4, 0, 0, 0, 0, 0, 0, 0, 0, 1, 5]⟩ ∧
    Matrix.cell ⟨5, 4, [1, 0, 0, 0, 16, 0, 1, 1, 0, 4, 0, 0, 0, 0, 0, 0, 0, 0, 1, 5]⟩ 2 0 = 0 ∧
    Zp.Sub 17 (Matrix.cell ⟨5, 4, [1, 1, 0, 0, 3, 0, 1, 1, 0, 4, 0, 0, 0, 0, 0, 0, 0, 0, 1, 5]⟩ 2 0)
      (Zp.Mul 17 (Matrix.cell ⟨5, 4, [1, 1, 0, 0, 3, 0, 1, 1, 0, 4, 0, 0, 0, 0, 0, 0, 0, 0, 1, 5]⟩ 1 0)
        (Matrix.cell ⟨5, 4, [1, 1, 0, 0, 3, 0, 1, 1, 0, 4, 0, 0, 0, 0, 0, 0, 0, 0, 1, 5]⟩ 2 1)) = 16 := by
  decide

/-- C13, amended: over every modulus `P > 1`, on every well-formed matrix of
reduced cells and for every row `j` with `cell(j,j) = 1` whose multipliers
`cell(j,j2)`, `j2 < j`, are tested rightly against one (`Int64` of the
multiplier is 1 only when the multiplier is 1, as it is for every value below
`2^64`), `backSubstitute(j)` returns and leaves the rows `j2 ≥ j` unchanged; in
every row `j2 < j` it sets `cell(j,j2)` to zero, replaces the cell of every
column `i ≥ rows - 1` by `cell(i,j2) − cell(i,j)·cell(j,j2)` and leaves the other
cells of the row unchanged.  This is the row operation
`row j2 − cell(j,j2)·row j` in every column whenever row `j` is zero in the
columns `i ≠ j` left of `rows - 1`, as it is when no pivot was skipped. -/
theorem back_substitution_row_operation (P : Nat) (hP : 1 < P) (m : Matrix)
    (hwf : m.WF) (hr : m.Reduced P) (j : Nat) (hj : j < m.rows) (hjc : j < m.columns)
    (hd : m.cell j j = 1)
    (hex : ∀ j2, j2 < j → Zp.Int64 (m.cell j j2) = 1 → m.cell j j2 = 1) :
    ∃ m', Matrix.backSubstitute P m j = .ok m' ∧ m'.columns = m.columns ∧ m'.rows = m.rows ∧
      (∀ i j2, j ≤ j2 → m'.cell i j2 = m.cell i j2) ∧
      (∀ j2, j2 < j → m'.cell j j2 = 0) ∧
      (∀ i j2, j2 < j → m.rows - 1 ≤ i → i < m.columns →
        (m'.cell i j2 : ZMod P) =
          (m.cell i j2 : ZMod P) - (m.cell i j : ZMod P) * (m.cell j j2 : ZMod P)) ∧
      (∀ i j2, j2 < j → i ≠ j → i < m.rows - 1 → m'.cell i j2 = m.cell i j2) ∧
      ((∀ i, i ≠ j → i < m.rows - 1 → m.cell i j = 0) →
        ∀ i j2, j2 < j → (m'.cell i j2 : ZMod P) =
          (m.cell i j2 : ZMod P) - (m.cell i j : ZMod P) * (m.cell j j2 : ZMod P)) := by
  have hP0 : 0 < P := by omega
  obtain ⟨m', h1, hk, hcell⟩ := Matrix.backSubstitute_spec hP0 hwf hr hj hjc
  have h1' : Zp.Int64 (m.cell j j) = 1 := by rw [hd]; exact Matrix.int64_one
  have hm' : ∀ a b, m'.cell a b =
      Matrix.backSubstituted P m.columns (m.rows - 1) m.cell j a b := by
    intro a b; rw [hcell a b, if_pos h1']
  refine ⟨m', h1, hk.1, hk.2.1, ?_, ?_, ?_, ?_, ?_⟩
  · intro i j2 h
    rw [hm']
    unfold Matrix.backSubstituted
    rw [if_neg (by omega)]
  · intro j2 h
    rw [hm']
    unfold Matrix.backSubstituted
    rw [if_pos h, if_pos rfl]
  · intro i j2 h hi hic
    rw [hm']
    unfold Matrix.backSubstituted
    rw [if_pos h]
    by_cases hij : i = j
    · rw [if_pos hij, hij, hd]
      simp
    · rw [if_neg hij, if_pos ⟨hi, hic⟩, Matrix.subCell_cast_exact hP0 (hex j2 h)]
  · intro i j2 h hij hi
    rw [hm']
    unfold Matrix.backSubstituted
    rw [if_pos h, if_neg hij, if_neg (by omega)]
  · intro hrow i j2 h
    rw [hm', Matrix.backSubstituted_cast_exact hP hd _ hex, if_pos h]
    intro a ha1 ha2
    rcases ha2 with ha2 | ha2
    · exact hrow a ha1 ha2
    · exact Matrix.cell_eq_zero_of_ge m j ha2

theorem back_substitution_row_operation_witness :
    ∃ m', Matrix.backSubstitute (2 ^ 127 - 1) ⟨3, 2, [1, 2, 5, 0, 1, 3]⟩ 1 = .ok m' ∧
      m'.cell 1 0 = 0 ∧
      (m'.cell 2 0 : ZMod (2 ^ 127 - 1)) =
        ((5 : Nat) : ZMod (2 ^ 127 - 1)) -
          ((3 : Nat) : ZMod (2 ^ 127 - 1)) * ((2 : Nat) : ZMod (2 ^ 127 - 1)) := by
  obtain ⟨m', h1, _, _, _, h2, h3, _, _⟩ :=
    back_substitution_row_operation (2 ^ 127 - 1) (by norm_num) ⟨3, 2, [1, 2, 5, 0, 1, 3]⟩
      (by decide) (by decide) 1 (by decide) (by decide) (by decide)
      (fun j2 h => by
        have h0 : j2 = 0 := by omega
        subst h0
        decide)
  exact ⟨m', h1, h2 0 (by decide), h3 2 0 (by decide) (by decide) (by decide)⟩

/-- C14, at the failing input: over the prime modulus `2^127 - 1` the pivot
`2^64+1` of the one-row matrix `[2^64+1 | 1]` is non-zero, yet
`processRowForward(0)` leaves it as it is, not 1; and on the rows `[1, 0]`,
`[2^64+1, 1]` it leaves `2^64`, not 0, below the pivot.  `Int64()` of `2^64+1`
is 1, so the pivot row is not scaled and the elimination subtracts the pivot
row once instead of `2^64+1` times. -/
theorem pivot_not_normalised_wide_modulus :
    Nat.Prime (2 ^ 127 - 1) ∧
    Matrix.WF ⟨2, 1, [2 ^ 64 + 1, 1]⟩ ∧ Matrix.Reduced (2 ^ 127 - 1) ⟨2, 1, [2 ^ 64 + 1, 1]⟩ ∧
    Matrix.cell ⟨2, 1, [2 ^ 64 + 1, 1]⟩ 0 0 ≠ 0 ∧
    Matrix.processRowForward (2 ^ 127 - 1) ⟨2, 1, [2 ^ 64 + 1, 1]⟩ 0 =
      .ok (none, ⟨2, 1, [2 ^ 64 + 1, 1]⟩) ∧
    Matrix.cell ⟨2, 1, [2 ^ 64 + 1, 1]⟩ 0 0 ≠ 1 ∧
    Matrix.WF ⟨2, 2, [1, 0, 2 ^ 64 + 1, 1]⟩ ∧
    Matrix.Reduced (2 ^ 127 - 1) ⟨2, 2, [1, 0, 2 ^ 64 + 1, 1]⟩ ∧
    Matrix.processRowForward (2 ^ 127 - 1) ⟨2, 2, [1, 0, 2 ^ 64 + 1, 1]⟩ 0 =
      .ok (none, ⟨2, 2, [1, 0, 2 ^ 64, 1]⟩) ∧
    Matrix.cell ⟨2, 2, [1, 0, 2 ^ 64, 1]⟩ 0 1 ≠ 0 := by
  have hp : Nat.Prime (2 ^ 127 - 1) := lucas_lehmer_sufficiency 127 (by norm_num) (by norm_num)
  exact ⟨hp, by decide, by decide, by decide, by decide, by decide, by decide, by decide,
    by decide, by decide⟩

/-- Pivot normalisation on moduli that fit 64 bits: for such a prime modulus, on
every well-formed matrix of reduced cells with `columns ≥ rows` and for every
pivot index `j < rows` such that some row at or below `j` has a non-zero entry
in column `j`, `processRowForward(j)` returns `nil` and leaves `cell(j,j) = 1`
and `cell(j,j2) = 0` for every row `j2 > j`. -/
theorem pivot_normalised_small_modulus (P : Nat) (hp : P.Prime) (h64 : P ≤ 2 ^ 64) (m : Matrix)
    (hwf : m.WF) (hr : m.Reduced P) (hcr : m.rows ≤ m.columns) (j : Nat) (hj : j < m.rows)
    (hex : ∃ r, j ≤ r ∧ r < m.rows ∧ m.cell j r ≠ 0) :
    ∃ m', Matrix.processRowForward P m j = .ok (none, m') ∧ m'.cell j j = 1 ∧
      ∀ j2, j < j2 → j2 < m.rows → m'.cell j j2 = 0 := by
  have hjc : j < m.columns := by omega
  obtain ⟨m', h1, _, hcase⟩ := Matrix.processRowForward_spec hp.pos hwf hr hj hjc
  refine ⟨m', h1, ?_⟩
  rcases hcase with ⟨hz, _⟩ | ⟨r, _, _, hv, _, hcell⟩
  · obtain ⟨r, h2, h3, h4⟩ := hex
    exact absurd (hz r h2 h3) h4
  · have hm' : ∀ a b, m'.cell a b = Matrix.stepped P m.columns m.rows m.cell j r a b := hcell
    obtain ⟨h5, h6⟩ :=
      Matrix.stepped_column (c := m.columns) (n := m.rows) hp h64 (Matrix.cell_red hr hp.pos) hjc hv
    refine ⟨by rw [hm']; exact h5, fun j2 h7 h8 => ?_⟩
    rw [hm']
    exact h6 j2 h7 h8

theorem pivot_normalised_small_modulus_witness :
    ∃ m', Matrix.processRowForward 17 ⟨3, 2, [0, 1, 2, 3, 4, 5]⟩ 0 = .ok (none, m') ∧
      m'.cell 0 0 = 1 ∧ ∀ j2, 0 < j2 → j2 < 2 → m'.cell 0 j2 = 0 :=
  pivot_normalised_small_modulus 17 (by norm_num) (by norm_num) ⟨3, 2, [0, 1, 2, 3, 4, 5]⟩
    (by decide) (by decide) (by decide) 0 (by decide) ⟨1, by decide, by decide, by decide⟩

/-- C15, at the failing input: over the prime modulus `2^127 - 1`, `Reduce` leaves
the one-row matrix `[2^64+1 | 1]` with the diagonal cell `2^64+1`, neither 0 nor
1, and leaves the rows `[1, 0]`, `[2^64+1, 1]` as `[1, 0]`, `[2^64, 1]`: the cell
in column 0 of row 1 lies below the diagonal and is not zero, and column 0 is
not a unit column although its diagonal cell is 1.  `Int64()` of `2^64+1` is 1,
so neither the pivot is scaled nor the row below eliminated. -/
theorem reduced_form_wide_modulus :
    Nat.Prime (2 ^ 127 - 1) ∧
    Matrix.WF ⟨2, 1, [2 ^ 64 + 1, 1]⟩ ∧ Matrix.Reduced (2 ^ 127 - 1) ⟨2, 1, [2 ^ 64 + 1, 1]⟩ ∧
    Matrix.Reduce (2 ^ 127 - 1) ⟨2, 1, [2 ^ 64 + 1, 1]⟩ = .ok (none, ⟨2, 1, [2 ^ 64 + 1, 1]⟩) ∧
    ¬ (Matrix.cell ⟨2, 1, [2 ^ 64 + 1, 1]⟩ 0 0 = 0 ∨ Matrix.cell ⟨2, 1, [2 ^ 64 + 1, 1]⟩ 0 0 = 1) ∧
    Matrix.WF ⟨2, 2, [1, 0, 2 ^ 64 + 1, 1]⟩ ∧
    Matrix.Reduced (2 ^ 127 - 1) ⟨2, 2, [1, 0, 2 ^ 64 + 1, 1]⟩ ∧
    Matrix.Reduce (2 ^ 127 - 1) ⟨2, 2, [1, 0, 2 ^ 64 + 1, 1]⟩ =
      .ok (none, ⟨2, 2, [1, 0, 2 ^ 64, 1]⟩) ∧
    Matrix.cell ⟨2, 2, [1, 0, 2 ^ 64, 1]⟩ 0 0 = 1 ∧
    Matrix.cell ⟨2, 2, [1, 0, 2 ^ 64, 1]⟩ 0 1 ≠ 0 := by
  have hp : Nat.Prime (2 ^ 127 - 1) := lucas_lehmer_sufficiency 127 (by norm_num) (by norm_num)
  exact ⟨hp, by decide, by decide, by decide, by decide, by decide, by decide, by decide,
    by decide, by decide⟩

/-- The reduced form on moduli that fit 64 bits: for such a prime modulus and
every well-formed matrix of reduced cells with `columns ≥ rows`, rank-deficient
ones included, `Reduce` returns `nil` and leaves (a) zero in every cell below
the diagonal, (b) 0 or 1 in every diagonal cell and (c) a unit column `j`, zero
in every row `j2 ≠ j`, wherever `cell(j,j) = 1`. -/
theorem reduced_form_small_modulus (P : Nat) (hp : P.Prime) (h64 : P ≤ 2 ^ 64) (m : Matrix)
    (hwf : m.WF) (hr : m.Reduced P) (hcr : m.rows ≤ m.columns) :
    ∃ m2, Matrix.Reduce P m = .ok (none, m2) ∧
      (∀ i j, i < j → j < m.rows → m2.cell i j = 0) ∧
      (∀ j, j < m.rows → m2.cell j j = 0 ∨ m2.cell j j = 1) ∧
      (∀ j, j < m.rows → m2.cell j j = 1 → ∀ j2, j2 < m.rows → j2 ≠ j → m2.cell j j2 = 0) := by
  obtain ⟨m2, h1, _, h2, h3, h4⟩ := Matrix.Reduce_shape hp h64 hwf hr hcr
  exact ⟨m2, h1, h2, h3, h4⟩

theorem reduced_form_small_modulus_witness :
    ∃ m2, Matrix.Reduce 17
        ⟨5, 4, [1, 1, 0, 0, 3, 0, 1, 1, 0, 4, 0, 0, 0, 0, 0, 0, 0, 0, 1, 5]⟩ = .ok (none, m2) ∧
      (∀ i j, i < j → j < 4 → m2.cell i j = 0) ∧
      (∀ j, j < 4 → m2.cell j j = 0 ∨ m2.cell j j = 1) ∧
      (∀ j, j < 4 → m2.cell j j = 1 → ∀ j2, j2 < 4 → j2 ≠ j → m2.cell j j2 = 0) :=
  reduced_form_small_modulus 17 (by norm_num) (by norm_num)
    ⟨5, 4, [1, 1, 0, 0, 3, 0, 1, 1, 0, 4, 0, 0, 0, 0, 0, 0, 0, 0, 1, 5]⟩
    (by decide) (by decide) (by decide)

/-- C16: on every well-formed matrix, when `cell(j,j)` is zero and some row below
`j` has a non-zero entry in column `j`, `processRowForward(j)` swaps row `j`
with the lowest such row `r` (every row strictly between holds zero in column
`j`); the swap exchanges the rows `j` and `r` in every column and leaves every
other row unchanged, and the step goes on with the normalisation and the
elimination on the swapped matrix, whose pivot is the former `cell(j,r)`. -/
theorem pivot_selection (P : Nat) (m : Matrix) (hwf : m.WF) (j : Nat) (hj : j < m.rows)
    (hjc : j < m.columns) (hz : m.cell j j = 0)
    (hex : ∃ r, j < r ∧ r < m.rows ∧ m.cell j r ≠ 0) :
    ∃ r m1, j < r ∧ r < m.rows ∧ m.cell j r ≠ 0 ∧
      (∀ r', j < r' → r' < r → m.cell j r' = 0) ∧
      m.swapRows j r = .ok m1 ∧ m1.columns = m.columns ∧ m1.rows = m.rows ∧
      (∀ a b, m1.cell a b =
        if b = j then m.cell a r else if b = r then m.cell a j else m.cell a b) ∧
      Matrix.processRowForward P m j = Matrix.normalizeAndEliminate P m1 j (m.cell j r) := by
  obtain ⟨Q, _, hr⟩ := Matrix.exists_reduced m
  rcases Matrix.findSwap_spec hwf hjc (m.rows - (j + 1)) (j + 1) (by omega) with
    ⟨_, h2⟩ | ⟨r, h1, h2, h3, h4, h5⟩
  · obtain ⟨r, hr1, hr2, hr3⟩ := hex
    exact absurd (h2 r hr1 hr2) hr3
  · obtain ⟨m1, hs1, hk1, hcell1⟩ := Matrix.swapRows_spec hwf hr hj h3
    obtain ⟨hc1, hr1, hwf1, _⟩ := hk1
    refine ⟨r, m1, h2, h3, h4, fun r' a b => h5 r' a b, hs1, hc1, hr1, hcell1, ?_⟩
    have hv : m1.cell j j = m.cell j r := by rw [hcell1, if_pos rfl]
    unfold Matrix.processRowForward
    rw [Matrix.Get_ok hwf hjc hj]
    simp only [Zp.IsZero, hz, beq_self_eq_true, if_true, bind, Except.bind, h1, hs1,
      Matrix.Get_ok hwf1 (hc1 ▸ hjc) (hr1 ▸ hj), hv]

theorem pivot_selection_witness :
    ∃ r m1, 0 < r ∧ r < 3 ∧ Matrix.cell ⟨3, 3, [0, 1, 2, 0, 3, 4, 5, 6, 7]⟩ 0 r ≠ 0 ∧
      (∀ r', 0 < r' → r' < r → Matrix.cell ⟨3, 3, [0, 1, 2, 0, 3, 4, 5, 6, 7]⟩ 0 r' = 0) ∧
      Matrix.swapRows ⟨3, 3, [0, 1, 2, 0, 3, 4, 5, 6, 7]⟩ 0 r = .ok m1 ∧
      m1.columns = 3 ∧ m1.rows = 3 ∧
      (∀ a b, m1.cell a b =
        if b = 0 then Matrix.cell ⟨3, 3, [0, 1, 2, 0, 3, 4, 5, 6, 7]⟩ a r
        else if b = r then Matrix.cell ⟨3, 3, [0, 1, 2, 0, 3, 4, 5, 6, 7]⟩ a 0
        else Matrix.cell ⟨3, 3, [0, 1, 2, 0, 3, 4, 5, 6, 7]⟩ a b) ∧
      Matrix.processRowForward 17 ⟨3, 3, [0, 1, 2, 0, 3, 4, 5, 6, 7]⟩ 0 =
        Matrix.normalizeAndEliminate 17 m1 0
          (Matrix.cell ⟨3, 3, [0, 1, 2, 0, 3, 4, 5, 6, 7]⟩ 0 r) :=
  pivot_selection 17 ⟨3, 3, [0, 1, 2, 0, 3, 4, 5, 6, 7]⟩ (by decide) 0 (by decide) (by decide)
    (by decide) ⟨2, by decide, by decide, by decide⟩

/-- C17: on every well-formed matrix and for every pivot index `j < rows` (a
column of the grid) with `cell(j,j) = 0` and `cell(j,jf) = 0` for every row `jf`
in `j+1 .. rows-1`, `processRowForward(j)` returns `nil` and the matrix as it
was: no swap, no scaling, no elimination. -/
theorem skipped_pivot_unchanged (P : Nat) (m : Matrix) (hwf : m.WF) (j : Nat) (hj : j < m.rows)
    (hjc : j < m.columns) (hz : m.cell j j = 0)
    (hbelow : ∀ jf, j < jf → jf < m.rows → m.cell j jf = 0) :
    Matrix.processRowForward P m j = .ok (none, m) := by
  unfold Matrix.processRowForward
  rw [Matrix.Get_ok hwf hjc hj]
  rcases Matrix.findSwap_spec hwf hjc (m.rows - (j + 1)) (j + 1) (by omega) with
    ⟨h1, _⟩ | ⟨r, _, h2, h3, h4, _⟩
  · simp [Zp.IsZero, hz, bind, Except.bind, h1, pure, Except.pure]
  · exact absurd (hbelow r h2 h3) h4

theorem skipped_pivot_unchanged_witness :
    Matrix.processRowForward 17 ⟨3, 3, [1, 0, 2, 0, 0, 3, 0, 0, 4]⟩ 1 =
      .ok (none, ⟨3, 3, [1, 0, 2, 0, 0, 3, 0, 0, 4]⟩) :=
  skipped_pivot_unchanged 17 ⟨3, 3, [1, 0, 2, 0, 0, 3, 0, 0, 4]⟩ (by decide) 1 (by decide)
    (by decide) (by decide) (fun jf h1 h2 => by
      have h3 : jf < 3 := h2
      interval_cases jf
      decide)

/-- C19: for every modulus `P > 0`, prime or not, and every well-formed matrix
of reduced cells with `columns ≥ rows`, `Reduce` returns `nil`, so no call of
`Inv` inside it failed with a division by zero; and in every forward step the
only call of `Inv`, in the part after the pivot search, is on the pivot `v` read
from the matrix, which is not zero and lies below the modulus, and on which
`Inv` returns. -/
theorem inverse_never_of_zero (P : Nat) (hP : 0 < P) (m : Matrix) (hwf : m.WF)
    (hr : m.Reduced P) (hcr : m.rows ≤ m.columns) :
    (∃ m', Matrix.Reduce P m = .ok (none, m')) ∧
    Matrix.Reduce P m ≠ .error Panic.divisionByZero ∧
    (∀ (mk : Matrix) (j : Nat), mk.WF → mk.Reduced P → j < mk.rows → j < mk.columns →
      Matrix.processRowForward P mk j = .ok (none, mk) ∨
      ∃ m1 v, v = m1.cell j j ∧ v ≠ 0 ∧ v < P ∧ Zp.Inv P v = .ok (v ^ (P - 2) % P) ∧
        Matrix.processRowForward P mk j = Matrix.normalizeAndEliminate P m1 j v) := by
  obtain ⟨m', h1, _⟩ := Matrix.Reduce_ok hP hwf hr hcr
  refine ⟨⟨m', h1⟩, (by rw [h1]; intro h; cases h), ?_⟩
  intro mk j hwfk hrk hj hjc
  by_cases hz : mk.cell j j = 0
  · rcases Matrix.findSwap_spec hwfk hjc (mk.rows - (j + 1)) (j + 1) (by omega) with
      ⟨h2, _⟩ | ⟨r, h2, _, h3, h4, _⟩
    · left
      unfold Matrix.processRowForward
      rw [Matrix.Get_ok hwfk hjc hj]
      simp [Zp.IsZero, hz, bind, Except.bind, h2, pure, Except.pure]
    · right
      obtain ⟨m1, hs1, ⟨hc1, hr1, hwf1, _⟩, hcell1⟩ := Matrix.swapRows_spec hwfk hrk hj h3
      have hv : m1.cell j j = mk.cell j r := by rw [hcell1, if_pos rfl]
      have hlt : mk.cell j r < P := hrk.cell_lt hP _ _
      refine ⟨m1, mk.cell j r, hv.symm, h4, hlt, Matrix.Zp_Inv_ok hlt h4, ?_⟩
      unfold Matrix.processRowForward
      rw [Matrix.Get_ok hwfk hjc hj]
      simp only [Zp.IsZero, hz, beq_self_eq_true, if_true, bind, Except.bind, h2, hs1,
        Matrix.Get_ok hwf1 (hc1 ▸ hjc) (hr1 ▸ hj), hv]
  · right
    have hlt : mk.cell j j < P := hrk.cell_lt hP _ _
    refine ⟨mk, mk.cell j j, rfl, hz, hlt, Matrix.Zp_Inv_ok hlt hz, ?_⟩
    unfold Matrix.processRowForward
    rw [Matrix.Get_ok hwfk hjc hj]
    simp only [Zp.IsZero, beq_iff_eq, hz, if_false, bind, Except.bind]

theorem inverse_never_of_zero_witness :
    (∃ m', Matrix.Reduce 17 ⟨3, 2, [0, 0, 1, 0, 2, 3]⟩ = .ok (none, m')) ∧
    Matrix.Reduce 17 ⟨3, 2, [0, 0, 1, 0, 2, 3]⟩ ≠ .error Panic.divisionByZero := by
  obtain ⟨h1, h2, _⟩ :=
    inverse_never_of_zero 17 (by decide) ⟨3, 2, [0, 0, 1, 0, 2, 3]⟩ (by decide) (by decide)
      (by decide)
  exact ⟨h1, h2⟩


/-- C18, at the failing input: over the prime modulus `2^127 - 1`, `Reduce` on the
rows `[1,0,0]`, `[2^64+1,0,1]`, `[0,1,0]` reaches after forward step 0 the rows
`[1,0,0]`, `[2^64,0,1]`, `[0,1,0]`, and forward step 1 swaps the rows 1 and 2:
the cell in column 0 of row 1 changes from `2^64` to `0`, in a column left of
the pivot index 1.  `Int64()` of the multiplier `2^64+1` is 1, so step 0 did
not clear column 0 below the diagonal. -/
theorem forward_step_changes_left_column_wide_modulus :
    Nat.Prime (2 ^ 127 - 1) ∧
    Matrix.WF ⟨3, 3, [1, 0, 0, 2 ^ 64 + 1, 0, 1, 0, 1, 0]⟩ ∧
    Matrix.Reduced (2 ^ 127 - 1) ⟨3, 3, [1, 0, 0, 2 ^ 64 + 1, 0, 1, 0, 1, 0]⟩ ∧
    Matrix.forwardLoop (2 ^ 127 - 1) 1 0 ⟨3, 3, [1, 0, 0, 2 ^ 64 + 1, 0, 1, 0, 1, 0]⟩ =
      .ok (none, ⟨3, 3, [1, 0, 0, 2 ^ 64, 0, 1, 0, 1, 0]⟩) ∧
    Matrix.processRowForward (2 ^ 127 - 1) ⟨3, 3, [1, 0, 0, 2 ^ 64, 0, 1, 0, 1, 0]⟩ 1 =
      .ok (none, ⟨3, 3, [1, 0, 0, 0, 1, 0, 2 ^ 64, 0, 1]⟩) ∧
    Matrix.cell ⟨3, 3, [1, 0, 0, 2 ^ 64, 0, 1, 0, 1, 0]⟩ 0 1 = 2 ^ 64 ∧
    Matrix.cell ⟨3, 3, [1, 0, 0, 0, 1, 0, 2 ^ 64, 0, 1]⟩ 0 1 = 0 := by
  have hp : Nat.Prime (2 ^ 127 - 1) := lucas_lehmer_sufficiency 127 (by norm_num) (by norm_num)
  exact ⟨hp, by decide, by decide, by decide, by decide, by decide, by decide⟩

/-- Work stays at or right of the pivot, on moduli that fit 64 bits: for such a
prime modulus and every well-formed matrix of reduced cells with
`columns ≥ rows`, the forward loop of `Reduce` reaches step `k`, and step `k`,
its row swap included, leaves every cell in a column `< k` and every row `< k`
as it was; and, for any modulus, `scmultRow(scol, j, s)` and
`rowsub(scol, src, dst, s)` change no cell in a column `< scol` and no row other
than `j`, respectively `dst`. -/
theorem forward_step_frame_small_modulus (P : Nat) (hp : P.Prime) (h64 : P ≤ 2 ^ 64)
    (m : Matrix) (hwf : m.WF) (hr : m.Reduced P) (hcr : m.rows ≤ m.columns) :
    (∀ k, k < m.rows → ∃ mk m', Matrix.forwardLoop P k 0 m = .ok (none, mk) ∧
      Matrix.processRowForward P mk k = .ok (none, m') ∧
      (∀ a b, a < k → m'.cell a b = mk.cell a b) ∧
      (∀ a b, b < k → m'.cell a b = mk.cell a b)) ∧
    (∀ scol j s, j < m.rows → ∃ m', Matrix.scmultRow P m scol j s = .ok m' ∧
      ∀ a b, a < scol ∨ b ≠ j → m'.cell a b = m.cell a b) ∧
    (∀ scol src dst s, src < m.rows → dst < m.rows →
      ∃ m', Matrix.rowsub P m scol src dst s = .ok m' ∧
        ∀ a b, a < scol ∨ b ≠ dst → m'.cell a b = m.cell a b) := by
  have hP : 0 < P := hp.pos
  refine ⟨?_, ?_, ?_⟩
  · intro k hk
    obtain ⟨mk, h1, hI⟩ := Matrix.forward_prefix hp h64 hwf hr hcr (Nat.le_of_lt hk)
    obtain ⟨hc, hrw, hwfk, hrk⟩ := hI.keeps
    obtain ⟨m', h2, _, hcase⟩ :=
      Matrix.processRowForward_spec hP hwfk hrk (show k < mk.rows by omega)
        (show k < mk.columns by omega)
    refine ⟨mk, m', h1, h2, ?_⟩
    rcases hcase with ⟨_, rfl⟩ | ⟨r, hjr, _, _, _, hcell⟩
    · exact ⟨fun _ _ _ => rfl, fun _ _ _ => rfl⟩
    · have hm' : ∀ a b, m'.cell a b = Matrix.stepped P mk.columns mk.rows mk.cell k r a b := hcell
      constructor
      · intro a b ha
        rw [hm', Matrix.stepped_left hjr hI.lower a b ha]
      · intro a b hb
        rw [hm', Matrix.stepped_above hjr a b hb]
  · intro scol j s hj
    obtain ⟨m', h1, _, hcell⟩ := Matrix.scmultRow_spec hP hwf hr scol s hj
    refine ⟨m', h1, fun a b h => ?_⟩
    rw [hcell a b, if_neg (by omega)]
  · intro scol src dst s hsrc hdst
    obtain ⟨m', h1, _, hcell⟩ := Matrix.rowsub_spec hP hwf hr scol s hsrc hdst
    refine ⟨m', h1, fun a b h => ?_⟩
    rw [hcell a b, if_neg (by omega)]

theorem forward_step_frame_small_modulus_witness :
    ∃ mk m', Matrix.forwardLoop 17 1 0 ⟨3, 3, [1, 2, 3, 1, 2, 4, 1, 5, 6]⟩ = .ok (none, mk) ∧
      Matrix.processRowForward 17 mk 1 = .ok (none, m') ∧
      (∀ a b, a < 1 → m'.cell a b = mk.cell a b) ∧
      (∀ a b, b < 1 → m'.cell a b = mk.cell a b) :=
  (forward_step_frame_small_modulus 17 (by norm_num) (by norm_num)
    ⟨3, 3, [1, 2, 3, 1, 2, 4, 1, 5, 6]⟩ (by decide) (by decide) (by decide)).1 1 (by decide)

namespace Matrix

theorem inGrid_ok {m : Matrix} {i j : Nat} (hi : i < m.columns) (hj : j < m.rows) :
    m.inGrid i j = .ok () := by
  unfold inGrid
  rw [if_pos ⟨hi, hj⟩]

theorem GetChecked_eq {m : Matrix} {i j : Nat} (hi : i < m.columns) (hj : j < m.rows) :
    m.GetChecked i j = m.Get i j := by
  unfold GetChecked
  rw [inGrid_ok hi hj]
  rfl

theorem SetChecked_eq {m : Matrix} {i j : Nat} (x : Nat) (hi : i < m.columns) (hj : j < m.rows) :
    m.SetChecked i j x = m.Set i j x := by
  unfold SetChecked
  rw [inGrid_ok hi hj]
  rfl

/-- Two loop bodies that agree on the states of an invariant give the same
loop. -/
theorem loopUp_congr {σ : Type} (I : σ → Prop) (f g : Nat → σ → Except Panic σ) :
    ∀ (n i : Nat) (s : σ), I s →
      (∀ k s, i ≤ k → k < i + n → I s → f k s = g k s ∧ ∀ s', g k s = .ok s' → I s') →
      loopUp f n i s = loopUp g n i s := by
  intro n
  induction n with
  | zero => intro i s _ _; rfl
  | succ n ih =>
    intro i s h hstep
    obtain ⟨h1, h2⟩ := hstep i s (Nat.le_refl _) (by omega) h
    unfold loopUp
    rw [h1]
    cases hg : g i s with
    | error e => rfl
    | ok s' =>
      exact ih (i + 1) s' (h2 s' hg) (fun k s hk hk2 hI => hstep k s (by omega) (by omega) hI)

theorem loopDown_congr {σ : Type} (I : σ → Prop) (f g : Nat → σ → Except Panic σ) (lo : Nat) :
    ∀ (n : Nat) (s : σ), I s →
      (∀ k s, k < n → I s → f (lo + k) s = g (lo + k) s ∧ ∀ s', g (lo + k) s = .ok s' → I s') →
      loopDown f lo n s = loopDown g lo n s := by
  intro n
  induction n with
  | zero => intro s _ _; rfl
  | succ n ih =>
    intro s h hstep
    obtain ⟨h1, h2⟩ := hstep n s (by omega) h
    unfold loopDown
    rw [h1]
    cases hg : g (lo + n) s with
    | error e => rfl
    | ok s' =>
      exact ih s' (h2 s' hg) (fun k s hk hI => hstep k s (by omega) hI)

theorem rowsubBodyChecked_eq (P : Nat) {m : Matrix} {src dst k : Nat} (s : Nat)
    (hsrc : src < m.rows) (hdst : dst < m.rows) (hk : k < m.columns) :
    rowsubBodyChecked P src dst s k m = rowsubBody P src dst s k m := by
  unfold rowsubBodyChecked rowsubBody
  have hS : ∀ x, m.SetChecked k dst x = m.Set k dst x := fun x => SetChecked_eq x hk hdst
  simp only [GetChecked_eq hk hsrc, GetChecked_eq hk hdst, hS]

theorem rowsubChecked_eq {P : Nat} (hP : 0 < P) {m : Matrix} (hwf : m.WF) (hr : m.Reduced P)
    (scol : Nat) {src dst : Nat} (s : Nat) (hsrc : src < m.rows) (hdst : dst < m.rows) :
    rowsubChecked P m scol src dst s = rowsub P m scol src dst s := by
  unfold rowsubChecked rowsub
  apply loopUp_congr (fun s => Keeps P m s) _ _ _ _ _ (Keeps.refl hwf hr)
  rintro k mk _ hk2 ⟨hc, hrw, hwfk, hrk⟩
  have hkc : k < mk.columns := by omega
  refine ⟨rowsubBodyChecked_eq P s (hrw ▸ hsrc) (hrw ▸ hdst) hkc, fun s' hs' => ?_⟩
  obtain ⟨m', h1, hk', _⟩ := rowsubBody_spec hP hwfk hrk s (hrw ▸ hsrc) (hrw ▸ hdst) hkc
  rw [h1] at hs'
  cases hs'
  exact Keeps.trans ⟨hc, hrw, hwfk, hrk⟩ hk'

theorem scmultRowBodyChecked_eq (P : Nat) {m : Matrix} {j k : Nat} (start sc : Nat)
    (hj : j < m.rows) (hk : k < m.columns) :
    scmultRowBodyChecked P j start sc k m = scmultRowBody P start sc k m := by
  unfold scmultRowBodyChecked scmultRowBody
  rw [inGrid_ok hk hj]
  rfl

theorem scmultRowChecked_eq {P : Nat} (hP : 0 < P) {m : Matrix} (hwf : m.WF) (hr : m.Reduced P)
    (scol : Nat) {j : Nat} (sc : Nat) (hj : j < m.rows) :
    scmultRowChecked P m scol j sc = scmultRow P m scol j sc := by
  unfold scmultRowChecked scmultRow
  apply loopUp_congr (fun s => Keeps P m s) _ _ _ _ _ (Keeps.refl hwf hr)
  rintro k mk _ hk2 ⟨hc, hrw, hwfk, hrk⟩
  have hkc : k < mk.columns := by omega
  refine ⟨scmultRowBodyChecked_eq P _ sc (hrw ▸ hj) hkc, fun s' hs' => ?_⟩
  obtain ⟨m', h1, hk', _⟩ := scmultRowBody_spec hP hwfk hrk sc (hrw ▸ hj) hkc m.columns hc.symm
  rw [h1] at hs'
  cases hs'
  exact Keeps.trans ⟨hc, hrw, hwfk, hrk⟩ hk'

theorem store_dims {m m1 : Matrix} {k x : Nat} (h : m.store k x = .ok m1) :
    m1.columns = m.columns ∧ m1.rows = m.rows := by
  unfold store at h
  split at h
  · cases h; exact ⟨rfl, rfl⟩
  · cases h

theorem swapRowsBodyChecked_eq {m : Matrix} {j1 j2 k : Nat} (start1 start2 : Nat)
    (hj1 : j1 < m.rows) (hj2 : j2 < m.rows) (hk : k < m.columns) :
    swapRowsBodyChecked j1 j2 start1 start2 k m = swapRowsBody start1 start2 k m := by
  unfold swapRowsBodyChecked swapRowsBody
  rw [inGrid_ok hk hj2, inGrid_ok hk hj1]
  cases ha : m.load (start2 + k) with
  | error e => rfl
  | ok a =>
    cases hb : m.load (start1 + k) with
    | error e => simp [bind, Except.bind, ha, hb]
    | ok b =>
      cases hs : m.store (start1 + k) a with
      | error e => simp [bind, Except.bind, ha, hb, hs]
      | ok m1 =>
        obtain ⟨hc, hrw⟩ := store_dims hs
        simp [bind, Except.bind, ha, hb, hs, inGrid_ok (hc ▸ hk) (hrw ▸ hj2)]

theorem swapRowsChecked_eq {P : Nat} {m : Matrix} (hwf : m.WF) (hr : m.Reduced P)
    {j1 j2 : Nat} (hj1 : j1 < m.rows) (hj2 : j2 < m.rows) :
    swapRowsChecked m j1 j2 = swapRows m j1 j2 := by
  unfold swapRowsChecked swapRows
  apply loopUp_congr (fun s => Keeps P m s) _ _ _ _ _ (Keeps.refl hwf hr)
  rintro k mk _ hk2 ⟨hc, hrw, hwfk, hrk⟩
  have hkc : k < mk.columns := by omega
  refine ⟨swapRowsBodyChecked_eq _ _ (hrw ▸ hj1) (hrw ▸ hj2) hkc, fun s' hs' => ?_⟩
  obtain ⟨m', h1, hk', _⟩ :=
    swapRowsBody_spec hwfk hrk (hrw ▸ hj1) (hrw ▸ hj2) hkc m.columns hc.symm
  rw [h1] at hs'
  cases hs'
  exact Keeps.trans ⟨hc, hrw, hwfk, hrk⟩ hk'


theorem findSwapChecked_eq {m : Matrix} {j : Nat} (hj : j < m.columns) :
    ∀ (n jf : Nat), jf + n ≤ m.rows → findSwapChecked m j n jf = findSwap m j n jf := by
  intro n
  induction n with
  | zero => intro jf _; rfl
  | succ n ih =>
    intro jf h
    unfold findSwapChecked findSwap
    rw [GetChecked_eq hj (show jf < m.rows by omega), ih (jf + 1) (by omega)]

theorem eliminateBody_keeps {P : Nat} (hP : 0 < P) {m : Matrix} (hwf : m.WF) (hr : m.Reduced P)
    {j j2 : Nat} (hj : j < m.rows) (hjc : j < m.columns) (hj2 : j2 < m.rows) :
    ∃ m', eliminateBody P j j2 m = .ok m' ∧ Keeps P m m' := by
  obtain ⟨m', h1, hk, _⟩ := rowsub_spec hP hwf hr j (m.cell j j2) hj hj2
  refine ⟨m', ?_, hk⟩
  unfold eliminateBody
  rw [Get_ok hwf hjc hj2]
  simpa [bind, Except.bind] using h1

theorem eliminateBodyChecked_eq {P : Nat} (hP : 0 < P) {m : Matrix} (hwf : m.WF)
    (hr : m.Reduced P) {j j2 : Nat} (hj : j < m.rows) (hjc : j < m.columns) (hj2 : j2 < m.rows) :
    eliminateBodyChecked P j j2 m = eliminateBody P j j2 m := by
  unfold eliminateBodyChecked eliminateBody
  have hS : ∀ s, m.rowsubChecked P j j j2 s = m.rowsub P j j j2 s :=
    fun s => rowsubChecked_eq hP hwf hr j s hj hj2
  simp only [GetChecked_eq hjc hj2, hS]

theorem eliminateChecked_eq {P : Nat} (hP : 0 < P) {m : Matrix} (hwf : m.WF) (hr : m.Reduced P)
    {j : Nat} (hj : j < m.rows) (hjc : j < m.columns) :
    loopUp (eliminateBodyChecked P j) (m.rows - (j + 1)) (j + 1) m =
      loopUp (eliminateBody P j) (m.rows - (j + 1)) (j + 1) m := by
  apply loopUp_congr (fun s => Keeps P m s) _ _ _ _ _ (Keeps.refl hwf hr)
  rintro k mk _ hk2 ⟨hc, hrw, hwfk, hrk⟩
  have hkr : k < mk.rows := by omega
  refine ⟨eliminateBodyChecked_eq hP hwfk hrk (hrw ▸ hj) (hc ▸ hjc) hkr, fun s' hs' => ?_⟩
  obtain ⟨m', h1, hk'⟩ := eliminateBody_keeps hP hwfk hrk (hrw ▸ hj) (hc ▸ hjc) hkr
  rw [h1] at hs'
  cases hs'
  exact Keeps.trans ⟨hc, hrw, hwfk, hrk⟩ hk'

theorem normalizeAndEliminateChecked_eq {P : Nat} (hP : 0 < P) {m : Matrix} (hwf : m.WF)
    (hr : m.Reduced P) {j : Nat} (hj : j < m.rows) (hjc : j < m.columns) (v : Nat) :
    normalizeAndEliminateChecked P m j v = normalizeAndEliminate P m j v := by
  unfold normalizeAndEliminateChecked normalizeAndEliminate
  by_cases h64 : Zp.Int64 v = 1
  · simp [h64, bind, Except.bind, pure, Except.pure, eliminateChecked_eq hP hwf hr hj hjc]
  · cases hi : Zp.Inv P v with
    | error e => simp [h64, bind, Except.bind, hi]
    | ok sc =>
      obtain ⟨m1, h1, ⟨hc1, hr1, hwf1, hred1⟩, _⟩ := scmultRow_spec hP hwf hr j sc hj
      simp [h64, bind, Except.bind, pure, Except.pure, hi, scmultRowChecked_eq hP hwf hr j sc hj,
        h1, eliminateChecked_eq hP hwf1 hred1 (hr1 ▸ hj) (hc1 ▸ hjc)]

theorem processRowForwardChecked_eq {P : Nat} (hP : 0 < P) {m : Matrix} (hwf : m.WF)
    (hr : m.Reduced P) {j : Nat} (hj : j < m.rows) (hjc : j < m.columns) :
    processRowForwardChecked P m j = processRowForward P m j := by
  unfold processRowForwardChecked processRowForward
  rw [GetChecked_eq hjc hj, Get_ok hwf hjc hj, findSwapChecked_eq hjc _ _ (by omega)]
  by_cases hz : m.cell j j = 0
  · rcases findSwap_spec hwf hjc (m.rows - (j + 1)) (j + 1) (by omega) with
      ⟨h1, _⟩ | ⟨r, h1, _, h3, _, _⟩
    · simp [Zp.IsZero, hz, bind, Except.bind, h1]
    · obtain ⟨m1, hs1, ⟨hc1, hr1, hwf1, hred1⟩, _⟩ := swapRows_spec hwf hr hj h3
      have hn : ∀ v, normalizeAndEliminateChecked P m1 j v = normalizeAndEliminate P m1 j v :=
        fun v => normalizeAndEliminateChecked_eq hP hwf1 hred1 (hr1 ▸ hj) (hc1 ▸ hjc) v
      simp [Zp.IsZero, hz, bind, Except.bind, h1, swapRowsChecked_eq hwf hr hj h3, hs1,
        GetChecked_eq (hc1 ▸ hjc : j < m1.columns) (hr1 ▸ hj : j < m1.rows), hn]
  · have hn : ∀ v, normalizeAndEliminateChecked P m j v = normalizeAndEliminate P m j v :=
      fun v => normalizeAndEliminateChecked_eq hP hwf hr hj hjc v
    simp [Zp.IsZero, hz, bind, Except.bind, hn]

theorem backSubstituteBodyChecked_eq {P : Nat} (hP : 0 < P) {m : Matrix} (hwf : m.WF)
    (hr : m.Reduced P) (last : Nat) {j j2 : Nat} (hj : j < m.rows) (hjc : j < m.columns)
    (hj2 : j2 < m.rows) :
    backSubstituteBodyChecked P last j j2 m = backSubstituteBody P last j j2 m := by
  unfold backSubstituteBodyChecked backSubstituteBody
  rw [GetChecked_eq hjc hj2, Get_ok hwf hjc hj2]
  obtain ⟨m1, h1, ⟨hc1, hr1, _, _⟩, _⟩ := rowsub_spec hP hwf hr last (m.cell j j2) hj hj2
  simp [bind, Except.bind, rowsubChecked_eq hP hwf hr last (m.cell j j2) hj hj2, h1,
    SetChecked_eq _ (hc1 ▸ hjc : j < m1.columns) (hr1 ▸ hj2 : j2 < m1.rows)]

theorem backSubstituteChecked_eq {P : Nat} (hP : 0 < P) {m : Matrix} (hwf : m.WF)
    (hr : m.Reduced P) {j : Nat} (hj : j < m.rows) (hjc : j < m.columns) :
    backSubstituteChecked P m j = backSubstitute P m j := by
  unfold backSubstituteChecked backSubstitute
  rw [GetChecked_eq hjc hj]
  have hl : loopDown (backSubstituteBodyChecked P (m.rows - 1) j) 0 j m =
      loopDown (backSubstituteBody P (m.rows - 1) j) 0 j m := by
    apply loopDown_congr (fun s => Keeps P m s) _ _ _ _ _ (Keeps.refl hwf hr)
    rintro k mk hk ⟨hc, hrw, hwfk, hrk⟩
    have hkr : 0 + k < mk.rows := by omega
    refine ⟨backSubstituteBodyChecked_eq hP hwfk hrk _ (hrw ▸ hj) (hc ▸ hjc) hkr,
      fun s' hs' => ?_⟩
    obtain ⟨m', h1, hk', _⟩ :=
      backSubstituteBody_spec hP hwfk hrk (m.rows - 1) (hrw ▸ hj) (hc ▸ hjc) hkr
    rw [h1] at hs'
    cases hs'
    exact Keeps.trans ⟨hc, hrw, hwfk, hrk⟩ hk'
  simp only [hl]

theorem forwardLoopChecked_eq {P : Nat} (hP : 0 < P) :
    ∀ (n j : Nat) (m : Matrix), m.WF → m.Reduced P → m.rows ≤ m.columns → j + n ≤ m.rows →
      forwardLoopChecked P n j m = forwardLoop P n j m := by
  intro n
  induction n with
  | zero => intro j m _ _ _ _; rfl
  | succ n ih =>
    intro j m hwf hr hcr hjn
    have hj : j < m.rows := by omega
    have hjc : j < m.columns := by omega
    obtain ⟨m', h1, ⟨hc, hrw, hwf', hr'⟩, _⟩ := processRowForward_spec hP hwf hr hj hjc
    unfold forwardLoopChecked forwardLoop
    rw [processRowForwardChecked_eq hP hwf hr hj hjc, h1]
    exact ih (j + 1) m' hwf' hr' (by omega) (by omega)

/-- On a well-formed matrix of reduced cells no assertion of the asserted
`Reduce` fails: it is `Reduce`. -/
theorem ReduceChecked_eq {P : Nat} (hP : 0 < P) {m : Matrix} (hwf : m.WF) (hr : m.Reduced P)
    (hcr : m.rows ≤ m.columns) : ReduceChecked P m = Reduce P m := by
  obtain ⟨m1, h1, ⟨hc, hrw, hwf1, hr1⟩⟩ := forwardLoop_keeps hP hwf hr hcr
  unfold ReduceChecked Reduce
  rw [if_neg (by omega), if_neg (by omega),
    forwardLoopChecked_eq hP m.rows 0 m hwf hr hcr (by omega), h1]
  have hl : loopDown (fun j s => backSubstituteChecked P s j) 1 (m1.rows - 1) m1 =
      loopDown (fun j s => backSubstitute P s j) 1 (m1.rows - 1) m1 := by
    apply loopDown_congr (fun s => Keeps P m1 s) _ _ _ _ _ (Keeps.refl hwf1 hr1)
    rintro k mk hk ⟨hc', hrw', hwfk, hrk⟩
    have hkr : 1 + k < mk.rows := by omega
    have hkc : 1 + k < mk.columns := by omega
    refine ⟨backSubstituteChecked_eq hP hwfk hrk hkr hkc, fun s' hs' => ?_⟩
    obtain ⟨m', h2, hk', _⟩ := backSubstitute_spec hP hwfk hrk hkr hkc
    have h3 : backSubstitute P mk (1 + k) = .ok s' := hs'
    rw [h2] at h3
    cases h3
    exact Keeps.trans ⟨hc', hrw', hwfk, hrk⟩ hk'
  simp only [hl]

end Matrix

theorem foldr_testBit (k : Nat) : ∀ i : Nat,
    ((List.range k).map (fun j => i.testBit j)).foldr (fun b acc => 2 * acc + b.toNat) 0 =
      i % 2 ^ k := by
  induction k with
  | zero => intro i; simp [Nat.mod_one]
  | succ k ih =>
    intro i
    rw [List.range_succ_eq_map, List.map_cons, List.map_map, List.foldr_cons]
    have h1 : ((fun j => i.testBit j) ∘ Nat.succ) = fun j => (i / 2).testBit j := by
      funext j
      simp [Nat.testBit_succ]
    rw [h1, ih (i / 2), pow_succ', Nat.mod_mul]
    have h2 : (i.testBit 0).toNat = i % 2 := by
      rw [Nat.testBit_zero]
      rcases Nat.mod_two_eq_zero_or_one i with h | h <;> simp [h]
    rw [h2]
    omega

/-- The suffix that `unmarshalNode` gives child `i` spells `i` when it is read
backwards. -/
theorem bitsValue_reverse_suffix {k i : Nat} (hi : i < 2 ^ k) :
    bitsValue ((List.range k).map (fun j => i.testBit j)).reverse = i := by
  unfold bitsValue
  rw [List.foldl_reverse, foldr_testBit, Nat.mod_eq_of_lt hi]

theorem keyByteLen_nonneg {k : Int} (hk : 0 ≤ k) : 0 ≤ keyByteLen k := by
  obtain ⟨h1, h2, _⟩ := tdiv_tmod_facts k
  obtain ⟨h3, h4⟩ := h2 hk
  unfold keyByteLen
  split <;> omega

theorem bufferRead_one (b : Nat) (r : List Nat) : bufferRead (b :: r) 1 = .ok ([b], r) := by
  simp [bufferRead]

theorem map_bitSet_eq {k : Nat} (hk : k ≤ 62) (i : Nat) :
    (List.range k).map (bitSet i) = (List.range k).map (fun j => i.testBit j) := by
  apply List.map_congr_left
  intro j hj
  rw [List.mem_range] at hj
  unfold bitSet
  rw [if_pos (by omega)]

/-! ## Claims on the node parser: children and flag byte -/

/-- C11, refuted as stated: for the record with key `101`, flag byte 0 and
`bitQuantum = 2`, `unmarshalNode` lists the children `10100`, `10110`, `10101`,
`10111`.  Child 1 is the key followed by the suffix `10`, whose value is 2 and
not 1, and child 2 is the key followed by `01`; as bit sequences with bit 0
most significant child 1 (value 22) comes after child 2 (value 21). -/
theorem children_not_ascending :
    unmarshalNode byteWire [5, 3, 160, 1, 2, 3, 4, 5, 6, 0] 2 6 =
      .ok (some ⟨[1, 2, 3, 4, 5, 6], 5, "101", false, [],
        ["10100", "10110", "10101", "10111"]⟩, none) ∧
    childKey ⟨[true, false, true]⟩ 2 1 = .ok ⟨[true, false, true, true, false]⟩ ∧
    childKey ⟨[true, false, true]⟩ 2 2 = .ok ⟨[true, false, true, false, true]⟩ ∧
    Bitstring.String ⟨[true, false, true, true, false]⟩ = "10110" ∧
    Bitstring.String ⟨[true, false, true, false, true]⟩ = "10101" ∧
    bitsValue [true, false] = 2 ∧
    bitsValue [true, false, true, true, false] = 22 ∧
    bitsValue [true, false, true, false, true] = 21 := by
  decide

/-- C11, amended: for `0 ≤ k ≤ 62` and every internal node that `unmarshalNode`
returns without error, the node has `2^k` children and the `i`-th child key
(`i = 0 .. 2^k-1`) is the node's key followed by the `k`-bit suffix whose bit
`j` is bit `j` of `i`, least significant bit first: the suffix spells `i` when
it is read backwards, so the children come in ascending order of the reversed
suffix, not of the suffix. -/
theorem children_suffix_bits (w : Wire) (buf : List Nat) (k : Nat) (ns : Int) (hk : k ≤ 62)
    (node : Node) (h : unmarshalNode w buf (k : Int) ns = .ok (some node, none))
    (hleaf : node.Leaf = false) :
    ∃ key : Bitstring, node.Key = key.String ∧ node.Children.length = 2 ^ k ∧
      ∀ i, i < 2 ^ k →
        node.Children[i]? =
          some (Bitstring.String ⟨key.bits ++ (List.range k).map (fun j => i.testBit j)⟩) ∧
        bitsValue ((List.range k).map (fun j => i.testBit j)).reverse = i := by
  obtain ⟨key, hkey, hd⟩ := unmarshalNode_internal h hleaf
  rw [deriveChildren_eq key hk] at hd
  simp only [Except.ok.injEq] at hd
  refine ⟨key, hkey, ?_, fun i hi => ⟨?_, bitsValue_reverse_suffix hi⟩⟩
  · rw [← hd]; simp
  · rw [← hd, List.getElem?_map, List.getElem?_range hi, Option.map_some', map_bitSet_eq hk]

theorem children_suffix_bits_witness :
    ∃ key : Bitstring, "101" = key.String ∧
      ["10100", "10110", "10101", "10111"].length = 2 ^ 2 ∧
      ∀ i, i < 2 ^ 2 →
        ["10100", "10110", "10101", "10111"][i]? =
          some (Bitstring.String ⟨key.bits ++ (List.range 2).map (fun j => i.testBit j)⟩) ∧
        bitsValue ((List.range 2).map (fun j => i.testBit j)).reverse = i :=
  children_suffix_bits byteWire [5, 3, 160, 1, 2, 3, 4, 5, 6, 0] 2 6 (by decide)
    ⟨[1, 2, 3, 4, 5, 6], 5, "101", false, [], ["10100", "10110", "10101", "10111"]⟩
    (by decide) rfl

/-- C12, refuted as stated: the record with key `101` and flag byte 7 is not
rejected; `unmarshalNode` returns no error and an internal node with four
children. -/
theorem flag_byte_seven_accepted :
    unmarshalNode byteWire [5, 3, 160, 1, 2, 3, 4, 5, 6, 7] 2 6 =
      .ok (some ⟨[1, 2, 3, 4, 5, 6], 5, "101", false, [],
        ["10100", "10110", "10101", "10111"]⟩, none) := by
  decide

/-- C12, amended: let a record hold two integers, the second one `kb ≥ 0`, the
key bytes, `ns` sample values and then the flag byte `b`.  When `b` is 1,
`unmarshalNode` yields a leaf (or stops on a negative fingerprint count); for
every other value of `b`, 0 and 2 .. 255 alike, and `0 ≤ k ≤ 62`, it returns no
error and an internal node with `2^k` children: no flag value is rejected. -/
theorem flag_byte_kind (w : Wire) (buf : List Nat) (k : Nat) (hk : k ≤ 62) (ns : Nat)
    (ne kb : Int) (r1 r2 keyData r3 sv : List Nat) (b : Nat) (r4 : List Nat)
    (h1 : w.ReadInt buf = .ok (ne, r1)) (h2 : w.ReadInt r1 = .ok (kb, r2)) (hkb : 0 ≤ kb)
    (h3 : bufferRead r2 (keyByteLen kb).toNat = .ok (keyData, r3))
    (h4 : readSamples w ns [] r3 = .ok (sv, b :: r4)) :
    (b = 1 → unmarshalNode w buf (k : Int) (ns : Int) = .error Panic.negativeLength ∨
      ∃ node err, unmarshalNode w buf (k : Int) (ns : Int) = .ok (some node, err) ∧
        node.Leaf = true ∧ node.Children = []) ∧
    (b ≠ 1 → ∃ node, unmarshalNode w buf (k : Int) (ns : Int) = .ok (some node, none) ∧
      node.Leaf = false ∧ node.Fingerprints = [] ∧ node.Children.length = 2 ^ k) := by
  have hn : ¬ (keyByteLen kb < 0) := not_lt.mpr (keyByteLen_nonneg hkb)
  have hns : ¬ ((ns : Int) < 0) := by omega
  have hnew : NewBitstring kb = .ok ⟨List.replicate kb.toNat false⟩ := by
    unfold NewBitstring
    rw [if_neg (by omega)]
  have hrun : unmarshalNode w buf (k : Int) (ns : Int) =
      unmarshalBody w ((Bitstring.mk (List.replicate kb.toNat false)).SetBytes keyData) (k : Int)
        { SValues := sv, NumElements := ne,
          Key := ((Bitstring.mk (List.replicate kb.toNat false)).SetBytes keyData).String,
          Leaf := b == 1, Fingerprints := [], Children := [] } r4 := by
    unfold unmarshalNode
    rw [h1]
    simp only [h2]
    unfold unmarshalKey
    rw [if_neg hn, h3]
    simp only [hnew]
    unfold unmarshalSamples
    rw [if_neg hns, Int.toNat_ofNat, h4]
    simp only [bufferRead_one, List.headD_cons]
  rw [hrun]
  constructor
  · intro hb
    subst hb
    unfold unmarshalBody
    simp only [beq_self_eq_true, if_true]
    cases hr : w.ReadInt r4 with
    | error e => exact Or.inr ⟨_, _, rfl, rfl, rfl⟩
    | ok p =>
      obtain ⟨size, r5⟩ := p
      simp only
      by_cases hs : size < 0
      · rw [if_pos hs]; exact Or.inl rfl
      · rw [if_neg hs]; exact Or.inr ⟨_, _, rfl, rfl, rfl⟩
  · intro hb
    have hb' : (b == 1) = false := by simp [hb]
    unfold unmarshalBody
    simp only [hb', Bool.false_eq_true, if_false, deriveChildren_eq _ hk]
    exact ⟨_, rfl, rfl, rfl, by simp⟩

theorem flag_byte_kind_witness :
    (7 = 1 → unmarshalNode byteWire [5, 3, 160, 1, 2, 3, 4, 5, 6, 7] 2 6 =
        .error Panic.negativeLength ∨
      ∃ node err, unmarshalNode byteWire [5, 3, 160, 1, 2, 3, 4, 5, 6, 7] 2 6 =
          .ok (some node, err) ∧ node.Leaf = true ∧ node.Children = []) ∧
    (7 ≠ 1 → ∃ node, unmarshalNode byteWire [5, 3, 160, 1, 2, 3, 4, 5, 6, 7] 2 6 =
        .ok (some node, none) ∧
      node.Leaf = false ∧ node.Fingerprints = [] ∧ node.Children.length = 2 ^ 2) :=
  flag_byte_kind byteWire [5, 3, 160, 1, 2, 3, 4, 5, 6, 7] 2 (by decide) 6 5 3
    [3, 160, 1, 2, 3, 4, 5, 6, 7] [160, 1, 2, 3, 4, 5, 6, 7] [160] [1, 2, 3, 4, 5, 6, 7]
    [1, 2, 3, 4, 5, 6] 7 [] (by decide) (by decide) (by decide) (by decide) (by decide)


/-! ## Claims on index safety -/

namespace Matrix

theorem forwardLoop_error {P : Nat} {m : Matrix} {j n : Nat} {e : Panic}
    (h : processRowForward P m j = .error e) : forwardLoop P (n + 1) j m = .error e := by
  unfold forwardLoop
  rw [h]

end Matrix

/-- C20, refuted as stated: `NewMatrix(2^32, 2^32, 5)` returns a matrix with
`columns ≥ rows ≥ 0` and no cell, since `2^32 * 2^32` is 0 at Go's `int`.  The
first access of `Reduce`, `Get(0, 0)`, has its column and its row inside the
grid and its store index 0 outside the store: `Reduce` stops on an index out
of range. -/
theorem reduce_index_overflow :
    NewMatrix (2 ^ 32) (2 ^ 32) 5 = .ok ⟨2 ^ 32, 2 ^ 32, []⟩ ∧
    Matrix.inGrid ⟨2 ^ 32, 2 ^ 32, []⟩ 0 0 = .ok () ∧
    Matrix.Get ⟨2 ^ 32, 2 ^ 32, []⟩ 0 0 = .error Panic.indexOutOfRange ∧
    Matrix.Reduce 17 ⟨2 ^ 32, 2 ^ 32, []⟩ = .error Panic.indexOutOfRange := by
  refine ⟨by decide, by decide, by decide, ?_⟩
  have h1 : Matrix.processRowForward 17 ⟨2 ^ 32, 2 ^ 32, []⟩ 0 =
      .error Panic.indexOutOfRange := by decide
  have h2 : Matrix.forwardLoop 17 (2 ^ 32 - 1 + 1) 0 ⟨2 ^ 32, 2 ^ 32, []⟩ =
      .error Panic.indexOutOfRange := Matrix.forwardLoop_error h1
  unfold Matrix.Reduce
  rw [if_neg (by decide)]
  have h3 : (⟨2 ^ 32, 2 ^ 32, []⟩ : Matrix).rows = 2 ^ 32 - 1 + 1 := by decide
  rw [h3, h2]

/-- C20, amended: when `columns * rows` does not overflow Go's `int`
(`columns * rows < 2^63`), `NewMatrix` returns a well-formed matrix, of reduced
cells when the fill value is reduced; and on every well-formed matrix of
reduced cells with `columns ≥ rows`, whatever was stored in its cells since, the
run of `Reduce` with an assertion before every cell access (the `Get` and `Set`
of `processRowForward`, `backSubstitute` and `rowsub`, the direct indexing of
`swapRows` and `scmultRow`) that the column lies in `[0, columns)` and the row
in `[0, rows)` fails no assertion: it returns and is the run of `Reduce`.  A
column and a row that pass the assertion give a store index in
`[0, columns*rows)`, and different cells different indices. -/
theorem reduce_index_safe (P : Nat) (hP : 0 < P) (m : Matrix) (hwf : m.WF) (hr : m.Reduced P)
    (hcr : m.rows ≤ m.columns) :
    (∀ columns rows x, columns * rows < 2 ^ 63 → x < P →
      ∃ m0, NewMatrix columns rows x = .ok m0 ∧ m0.columns = columns ∧ m0.rows = rows ∧
        m0.WF ∧ m0.Reduced P) ∧
    (∃ m', Matrix.ReduceChecked P m = .ok (none, m') ∧ Matrix.Reduce P m = .ok (none, m')) ∧
    (∀ i j, m.inGrid i j = .ok () →
      i < m.columns ∧ j < m.rows ∧ i + j * m.columns < m.columns * m.rows ∧
      i + j * m.columns < m.cells.length) ∧
    (∀ i j i' j', m.inGrid i j = .ok () → m.inGrid i' j' = .ok () →
      i + j * m.columns = i' + j' * m.columns → i = i' ∧ j = j') := by
  have hin : ∀ i j, m.inGrid i j = .ok () → i < m.columns ∧ j < m.rows := by
    intro i j h
    unfold Matrix.inGrid at h
    split at h
    · assumption
    · cases h
  refine ⟨?_, ?_, ?_, ?_⟩
  · intro columns rows x hsize hx
    refine ⟨_, NewMatrix_ok x hsize, rfl, rfl, ?_, ?_⟩
    · simp [Matrix.WF]
    · intro y hy
      rw [List.eq_of_mem_replicate hy]
      exact hx
  · obtain ⟨m', h1, _⟩ := Matrix.Reduce_ok hP hwf hr hcr
    exact ⟨m', by rw [Matrix.ReduceChecked_eq hP hwf hr hcr, h1], h1⟩
  · intro i j h
    obtain ⟨hi, hj⟩ := hin i j h
    exact ⟨hi, hj, Matrix.idx_lt hi hj, by rw [hwf]; exact Matrix.idx_lt hi hj⟩
  · intro i j i' j' h h' he
    exact Matrix.idx_inj (hin i j h).1 (hin i' j' h').1 he

theorem reduce_index_safe_witness :
    (∃ m0, NewMatrix 3 2 5 = .ok m0 ∧ m0.columns = 3 ∧ m0.rows = 2 ∧ m0.WF ∧ m0.Reduced 17) ∧
    (∃ m', Matrix.ReduceChecked 17 ⟨3, 2, [5, 5, 5, 5, 5, 5]⟩ = .ok (none, m') ∧
      Matrix.Reduce 17 ⟨3, 2, [5, 5, 5, 5, 5, 5]⟩ = .ok (none, m')) := by
  obtain ⟨h1, h2, _, _⟩ :=
    reduce_index_safe 17 (by decide) ⟨3, 2, [5, 5, 5, 5, 5, 5]⟩ (by decide) (by decide)
      (by decide)
  exact ⟨h1 3 2 5 (by decide) (by decide), h2⟩

/-! ## `Reduce` over a modulus of any width -/

namespace Matrix

theorem forwardLoop_snoc {P : Nat} : ∀ (n j : Nat) (m mk m' : Matrix),
    forwardLoop P n j m = .ok (none, mk) → processRowForward P mk (j + n) = .ok (none, m') →
    forwardLoop P (n + 1) j m = .ok (none, m') := by
  intro n
  induction n with
  | zero =>
    intro j m mk m' h1 h2
    simp only [forwardLoop, Except.ok.injEq, Prod.mk.injEq, true_and] at h1
    subst h1
    rw [Nat.add_zero] at h2
    simp only [forwardLoop, h2]
  | succ n ih =>
    intro j m mk m' h1 h2
    unfold forwardLoop at h1
    unfold forwardLoop
    cases hs : processRowForward P m j with
    | error e => rw [hs] at h1; cases h1
    | ok p =>
      obtain ⟨err, m1⟩ := p
      cases err with
      | some e => rw [hs] at h1; cases h1
      | none =>
        rw [hs] at h1
        simp only at h1 ⊢
        have : j + (n + 1) = j + 1 + n := by omega
        rw [this] at h2
        exact ih (j + 1) m1 mk m' h1 h2

theorem int64_zero : Zp.Int64 0 ≠ 1 := by
  unfold Zp.Int64
  norm_num

theorem forward_step_exact {P : Nat} (hp : P.Prime) {m : Matrix}
    (hcr : m.rows ≤ m.columns) {k : Nat} {mk : Matrix} (hk : k < m.rows)
    (hI : ForwardInv P m k mk) (hex : ∀ b, Exact64 (mk.cell k b)) :
    ∃ m', processRowForward P mk k = .ok (none, m') ∧ ForwardInv P m (k + 1) m' := by
  obtain ⟨⟨hc, hrw, hwfk, hrk⟩, hlz, hdiag, hortho⟩ := hI
  have hP : 0 < P := hp.pos
  obtain ⟨m', h1, hk', hcase⟩ :=
    processRowForward_spec hP hwfk hrk (show k < mk.rows by omega) (show k < mk.columns by omega)
  refine ⟨m', h1, ?_⟩
  have hkeep : Keeps P m m' := Keeps.trans ⟨hc, hrw, hwfk, hrk⟩ hk'
  rcases hcase with ⟨hz, rfl⟩ | ⟨r, hjr, hrn, hv, _, hcell⟩
  · refine ⟨hkeep, ?_, ?_, hortho⟩
    · apply lowerZero_succ_of_column_zero hlz
      intro b hb
      by_cases hbn : b < m'.rows
      · exact hz b (by omega) hbn
      · exact cell_eq_zero_of_row_ge _ _ (by omega)
    · intro a ha
      rcases Nat.lt_succ_iff_lt_or_eq.mp ha with h | h
      · exact hdiag a h
      · subst h; exact Or.inl (hz a (Nat.le_refl _) (by omega))
  · have hred := cell_red hrk hP
    have hin := cell_within mk
    have hm' : m'.cell = stepped P mk.columns mk.rows mk.cell k r := by
      funext a b; rw [hcell a b]; rfl
    refine ⟨hkeep, ?_, ?_, ?_⟩
    · rw [hm']; exact stepped_lowerZero_exact hp hred hjr hrn hlz hin hv hex
    · intro a ha
      rw [hm']
      rcases Nat.lt_succ_iff_lt_or_eq.mp ha with h | h
      · rw [stepped_above hjr a a h]; exact hdiag a h
      · subst h; exact Or.inr (stepped_pivot_exact hp hred hjr hlz hin hv hex)
    · intro w
      rw [hortho w, hm', ← hc, ← hrw]
      exact ⟨stepped_ortho_exact hp hred hjr hrn hlz hin hv hex,
        stepped_ortho_rev_exact hp hred hjr hrn hlz hin hv hex⟩

/-- The forward loop of `Reduce` stopped before step `k`, over a prime modulus
of any width, when the tests against one are right. -/
theorem forward_prefix_exact {P : Nat} (hp : P.Prime) {m : Matrix} (hwf : m.WF)
    (hr : m.Reduced P) (hcr : m.rows ≤ m.columns) (hrun : TestsExact P m) {k : Nat}
    (hk : k ≤ m.rows) :
    ∃ mk, forwardLoop P k 0 m = .ok (none, mk) ∧ ForwardInv P m k mk := by
  obtain ⟨m', h1, h2, h3⟩ := forwardLoop_inv P
    (fun k mk => forwardLoop P k 0 m = .ok (none, mk) ∧ ForwardInv P m k mk) k 0 m
    ⟨rfl, Keeps.refl hwf hr, fun a b ha _ => by omega, fun a ha => by omega, fun w => Iff.rfl⟩
    (by
      rintro k' mk' _ hk' ⟨hrunk, hI⟩
      have hex : ∀ b, Exact64 (mk'.cell k' b) := by
        intro b
        by_cases hb : b < m.rows
        · exact hrun k' mk' (by omega) hrunk k' (by omega) b hb
        · rw [cell_eq_zero_of_row_ge _ _ (by rw [hI.keeps.2.1]; omega)]
          exact exact64_zero
      obtain ⟨m2, h4, h5⟩ := forward_step_exact hp hcr (by omega) hI hex
      refine ⟨m2, h4, ?_, h5⟩
      apply forwardLoop_snoc k' 0 m mk' m2 hrunk
      rw [Nat.zero_add]
      exact h4)
  rw [Nat.zero_add] at h2 h3
  exact ⟨m', h1, h3⟩

/-- Over a modulus that fits 64 bits the tests against one are right. -/
theorem testsExact_of_le {P : Nat} (hP : 0 < P) (h64 : P ≤ 2 ^ 64) {m : Matrix} (hwf : m.WF)
    (hr : m.Reduced P) (hcr : m.rows ≤ m.columns) : TestsExact P m := by
  intro k mk hk hrun a _ b _
  obtain ⟨m', h1, h2⟩ := forwardLoop_inv P (fun _ m' => Keeps P m m') k 0 m
    (Keeps.refl hwf hr)
    (by
      rintro k' mk' _ hk' ⟨hc, hrw, hwfk, hrk⟩
      obtain ⟨m', h1, hk'', _⟩ :=
        processRowForward_spec hP hwfk hrk (show k' < mk'.rows by omega)
          (show k' < mk'.columns by omega)
      exact ⟨m', h1, Keeps.trans ⟨hc, hrw, hwfk, hrk⟩ hk''⟩)
  rw [h1] at hrun
  cases hrun
  exact exact64_of_lt (lt_of_lt_of_le (h2.2.2.2.cell_lt hP a b) h64)

end Matrix

namespace Matrix

/-- The back-substitution loop of `Reduce` on a forward-eliminated matrix,
pivots skipped or not, over any modulus: when every row `c ≥ 1` that has its
pivot holds zero in the column of every pivot skipped between `c` and
`rows - 1`, each back-substitution is a row operation and the rows stay
orthogonal to the same vectors. -/
theorem back_exact {P : Nat} (hP : 1 < P) {m : Matrix} (hwf : m.WF) (hr : m.Reduced P)
    (hcr : m.rows ≤ m.columns) (hlz : LowerZero m.cell m.rows)
    (hdiag : ∀ a, a < m.rows → m.cell a a = 0 ∨ m.cell a a = 1)
    (hex : ∀ a, a < m.rows → ∀ b, b < m.rows → Exact64 (m.cell a b))
    (hsafe : ∀ c i, 1 ≤ c → c < i → i < m.rows - 1 → m.cell i i = 0 → m.cell c c = 1 →
      m.cell i c = 0) :
    ∃ m', loopDown (fun j s => backSubstitute P s j) 1 (m.rows - 1) m = .ok m' ∧ Keeps P m m' ∧
      ∀ w : Nat → ZMod P, Ortho P m.columns m.rows m.cell w ↔
        Ortho P m.columns m.rows m'.cell w := by
  have hP0 : 0 < P := by omega
  obtain ⟨m', h1, hk, _, _, _, _, ho⟩ := loopDown_inv (fun j s => backSubstitute P s j) 1
    (fun t mt => Keeps P m mt ∧ (∀ a b, a ≤ b → mt.cell a b = m.cell a b) ∧
      (∀ j, t < j → j < m.rows → m.cell j j = 1 → ∀ b, b < j → mt.cell j b = 0) ∧
      (∀ a b, a ≤ t → (a < m.rows - 1 ∨ t = m.rows - 1) → mt.cell a b = m.cell a b) ∧
      (∀ a b, a < m.rows - 1 → m.cell a a ≠ 1 → mt.cell a b = m.cell a b) ∧
      (∀ w : Nat → ZMod P, Ortho P m.columns m.rows m.cell w ↔
        Ortho P m.columns m.rows mt.cell w))
    (m.rows - 1) m
    ⟨Keeps.refl hwf hr, fun a b _ => rfl, fun j h1 h2 => by omega, fun a b _ _ => rfl,
      fun a b _ _ => rfl, fun w => Iff.rfl⟩
    (by
      rintro k mk hk ⟨⟨hc, hrw, hwfk, hrk⟩, hframe, hclr, hun1, hun2, hortho⟩
      have hj : 1 + k < mk.rows := by omega
      obtain ⟨m', h1, hk', hcell⟩ :=
        backSubstitute_spec hP0 hwfk hrk hj (show 1 + k < mk.columns by omega)
      have hdj : mk.cell (1 + k) (1 + k) = m.cell (1 + k) (1 + k) := hframe _ _ (Nat.le_refl _)
      refine ⟨m', h1, Keeps.trans ⟨hc, hrw, hwfk, hrk⟩ hk', ?_⟩
      by_cases h64 : Zp.Int64 (mk.cell (1 + k) (1 + k)) = 1
      · have hjj : mk.cell (1 + k) (1 + k) = 1 := by
          rcases hdiag (1 + k) (by omega) with h0 | h0
          · rw [hdj, h0] at h64
            exact absurd h64 int64_zero
          · rw [hdj]; exact h0
        have hjj' : m.cell (1 + k) (1 + k) = 1 := by rw [← hdj]; exact hjj
        have hm' : ∀ a b, m'.cell a b =
            backSubstituted P mk.columns (mk.rows - 1) mk.cell (1 + k) a b := by
          intro a b; rw [hcell a b, if_pos h64]
        have hrow : ∀ a, a ≠ 1 + k → a < mk.rows - 1 ∨ mk.columns ≤ a →
            mk.cell a (1 + k) = 0 := by
          intro a ha hcase
          rcases hcase with h | h
          · rcases Nat.lt_or_gt_of_ne ha with h2 | h2
            · rw [hframe a (1 + k) (by omega)]
              exact hlz a (1 + k) (by omega) h2
            · rcases hdiag a (by omega) with h0 | h0
              · rw [hun2 a (1 + k) (by omega) (by omega)]
                exact hsafe (1 + k) a (by omega) h2 (by omega) h0 hjj'
              · exact hclr a (by omega) (by omega) h0 (1 + k) h2
          · exact cell_eq_zero_of_ge _ _ h
        have hexj : ∀ b, b < 1 + k → Exact64 (mk.cell (1 + k) b) := by
          intro b hb
          rw [hun1 (1 + k) b (by omega) (by omega)]
          exact hex (1 + k) (by omega) b (by omega)
        refine ⟨?_, ?_, ?_, ?_, ?_⟩
        · intro a b hab
          rw [hm', backSubstituted_of_le (by omega) a b hab]
          exact hframe a b hab
        · intro j hkj hjr hd b hb
          rw [hm']
          unfold backSubstituted
          by_cases hbk : b < 1 + k
          · rw [if_pos hbk]
            by_cases hjk : j = 1 + k
            · rw [if_pos hjk]
            · rw [if_neg hjk]
              have hz : mk.cell j (1 + k) = 0 := hclr j (by omega) hjr hd (1 + k) (by omega)
              have hz2 : mk.cell j b = 0 := hclr j (by omega) hjr hd b hb
              split
              · rw [hz, subCell_zero_src]; exact hz2
              · exact hz2
          · rw [if_neg hbk]
            exact hclr j (by omega) hjr hd b hb
        · intro a b hak hal
          rw [hm']
          unfold backSubstituted
          have e : mk.cell a b = m.cell a b := hun1 a b (by omega) (by omega)
          by_cases hbk : b < 1 + k
          · rw [if_pos hbk, if_neg (by omega), if_neg (by omega)]
            exact e
          · rw [if_neg hbk]
            exact e
        · intro a b hal hda
          rw [hm']
          unfold backSubstituted
          have e : mk.cell a b = m.cell a b := hun2 a b hal hda
          have hne : a ≠ 1 + k := fun h => hda (by rw [h]; exact hjj')
          by_cases hbk : b < 1 + k
          · rw [if_pos hbk, if_neg hne, if_neg (by omega)]
            exact e
          · rw [if_neg hbk]
            exact e
        · intro w
          rw [hortho w]
          have hfun : m'.cell = backSubstituted P mk.columns (mk.rows - 1) mk.cell (1 + k) := by
            funext a b; exact hm' a b
          rw [hfun, ← hc, ← hrw]
          exact backSubstituted_ortho_exact hP (by omega) hjj hrow hexj w
      · have hm' : ∀ a b, m'.cell a b = mk.cell a b := by
          intro a b; rw [hcell a b, if_neg h64]
        have hfun : m'.cell = mk.cell := by funext a b; exact hm' a b
        refine ⟨?_, ?_, ?_, ?_, ?_⟩
        · intro a b hab
          rw [hm']; exact hframe a b hab
        · intro j hkj hjr hd b hb
          rw [hm']
          by_cases hjk : j = 1 + k
          · exfalso
            apply h64
            rw [hdj, ← hjk, hd]
            exact int64_one
          · exact hclr j (by omega) hjr hd b hb
        · intro a b hak hal
          rw [hm']; exact hun1 a b (by omega) (by omega)
        · intro a b hal hda
          rw [hm']; exact hun2 a b hal hda
        · intro w
          rw [hfun]; exact hortho w)
  exact ⟨m', h1, hk, ho⟩

end Matrix

/-! ## Claims on `Reduce`: the solution set -/

/-- C4, amended: for every prime modulus `P`, of any width, and every augmented
matrix `[A|b]` of `n` rows and `n + 1` columns, rank-deficient ones included,
on which the tests against one through `Int64` are right (`TestsExact`, always
so for `P ≤ 2^64`): the forward-elimination loop of `Reduce` keeps the solution
set of the encoded system; the whole of `Reduce` keeps it whenever every row
`c ≥ 1` that has its pivot holds zero in the column of every pivot `i` skipped
with `c < i < n - 1`, so for every system of at most 3 rows and for every
system without a skipped pivot; and when no pivot was skipped the trailing
column is a solution of the original system. -/
theorem reduce_preserves_solutions (P : Nat) (hp : P.Prime) (m : Matrix)
    (hwf : m.WF) (hr : m.Reduced P) (hc : m.columns = m.rows + 1)
    (hrun : Matrix.TestsExact P m) :
    ∃ m1 m2, Matrix.forwardLoop P m.rows 0 m = .ok (none, m1) ∧
      Matrix.Reduce P m = .ok (none, m2) ∧
      (∀ x, Matrix.Solves P m x ↔ Matrix.Solves P m1 x) ∧
      ((∀ c i, 1 ≤ c → c < i → i < m.rows - 1 → m1.cell i i = 0 → m1.cell c c = 1 →
          m1.cell i c = 0) →
        ∀ x, Matrix.Solves P m x ↔ Matrix.Solves P m2 x) ∧
      (m.rows ≤ 3 → ∀ x, Matrix.Solves P m x ↔ Matrix.Solves P m2 x) ∧
      ((∀ a, a < m.rows → m2.cell a a = 1) →
        (∀ x, Matrix.Solves P m x ↔ Matrix.Solves P m2 x) ∧
        Matrix.Solves P m (fun i => (m2.cell m.rows i : ZMod P))) := by
  have hcr : m.rows ≤ m.columns := by omega
  obtain ⟨m1, h1, hI⟩ := Matrix.forward_prefix_exact hp hwf hr hcr hrun (Nat.le_refl _)
  obtain ⟨hc1, hr1, hwf1, hred1⟩ := hI.keeps
  have hcr1 : m1.rows ≤ m1.columns := by rw [hc1, hr1]; exact hcr
  obtain ⟨m2, h2, hk2, hframe, hclr⟩ := Matrix.back_cleared hp.pos hwf1 hred1 hcr1
  have hex1 : ∀ a, a < m1.rows → ∀ b, b < m1.rows → Matrix.Exact64 (m1.cell a b) := by
    rw [hr1]; exact hrun m.rows m1 (Nat.le_refl _) h1
  have hlz1 : Matrix.LowerZero m1.cell m1.rows := by rw [hr1]; exact hI.lower
  have hdiag1 : ∀ a, a < m1.rows → m1.cell a a = 0 ∨ m1.cell a a = 1 := by
    rw [hr1]; exact hI.diag
  have hfw : ∀ x, Matrix.Solves P m x ↔ Matrix.Solves P m1 x := by
    intro x
    rw [Matrix.solves_iff_ortho m x, Matrix.solves_iff_ortho m1 x, hr1, ← hc]
    exact hI.ortho _
  have hback : (∀ c i, 1 ≤ c → c < i → i < m.rows - 1 → m1.cell i i = 0 → m1.cell c c = 1 →
      m1.cell i c = 0) → ∀ x, Matrix.Solves P m x ↔ Matrix.Solves P m2 x := by
    intro hsafe x
    obtain ⟨m2', h2', _, ho⟩ := Matrix.back_exact hp.one_lt hwf1 hred1 hcr1 hlz1 hdiag1 hex1
      (by rw [hr1]; exact hsafe)
    rw [h2] at h2'
    cases h2'
    rw [hfw x, Matrix.solves_iff_ortho m1 x, Matrix.solves_iff_ortho m2 x, hk2.2.1]
    have := ho (Matrix.augment P m1.rows x)
    rw [hc1, hr1, hc] at this
    rw [hr1]
    exact this
  refine ⟨m1, m2, h1, Matrix.Reduce_eq_of_loops hcr h1 h2, hfw, hback,
    fun h3 => hback (fun c i _ _ _ => by omega), fun hd => ?_⟩
  have hd1 : ∀ a, a < m.rows → m1.cell a a = 1 := by
    intro a ha
    rw [← hframe a a (Nat.le_refl _)]
    exact hd a ha
  have hiff := hback (fun c i _ _ hi h0 _ => by
    have := hd1 i (by omega)
    omega)
  refine ⟨hiff, ?_⟩
  have hid2 : ∀ a b, a < m2.rows → b < m2.rows → m2.cell a b = if a = b then 1 else 0 := by
    intro a b ha hb
    rw [hk2.2.1, hr1] at ha hb
    by_cases hab : a = b
    · rw [if_pos hab, hab]; exact hd b hb
    · rw [if_neg hab]
      rcases Nat.lt_or_gt_of_ne hab with h | h
      · rw [hframe a b (by omega)]
        exact hI.lower a b ha h
      · exact hclr a (by omega) (by rw [hr1]; exact ha) (hd1 a ha) b h
  rw [hiff, Matrix.solves_of_identity hid2]
  intro j _
  rw [hk2.2.1, hr1]

theorem reduce_preserves_solutions_witness :
    ∃ m1 m2,
      Matrix.forwardLoop (2 ^ 127 - 1) 3 0 ⟨4, 3, [1, 2, 3, 6, 2, 4, 7, 13, 0, 0, 1, 1]⟩ =
        .ok (none, m1) ∧
      Matrix.Reduce (2 ^ 127 - 1) ⟨4, 3, [1, 2, 3, 6, 2, 4, 7, 13, 0, 0, 1, 1]⟩ =
        .ok (none, m2) ∧
      m2.cell 1 1 = 0 ∧
      (∀ x, Matrix.Solves (2 ^ 127 - 1) ⟨4, 3, [1, 2, 3, 6, 2, 4, 7, 13, 0, 0, 1, 1]⟩ x ↔
        Matrix.Solves (2 ^ 127 - 1) m1 x) ∧
      (∀ x, Matrix.Solves (2 ^ 127 - 1) ⟨4, 3, [1, 2, 3, 6, 2, 4, 7, 13, 0, 0, 1, 1]⟩ x ↔
        Matrix.Solves (2 ^ 127 - 1) m2 x) := by
  obtain ⟨m1, m2, h1, h2, h3, _, h5, _⟩ :=
    reduce_preserves_solutions (2 ^ 127 - 1)
      (lucas_lehmer_sufficiency 127 (by norm_num) (by norm_num))
      ⟨4, 3, [1, 2, 3, 6, 2, 4, 7, 13, 0, 0, 1, 1]⟩ (by decide) (by decide) rfl
      (by
        intro k mk hk h
        have hk3 : k ≤ 3 := hk
        interval_cases k
        · have e : Matrix.forwardLoop (2 ^ 127 - 1) 0 0
              ⟨4, 3, [1, 2, 3, 6, 2, 4, 7, 13, 0, 0, 1, 1]⟩ =
              .ok (none, ⟨4, 3, [1, 2, 3, 6, 2, 4, 7, 13, 0, 0, 1, 1]⟩) := by decide
          rw [e] at h; cases h; decide
        · have e : Matrix.forwardLoop (2 ^ 127 - 1) 1 0
              ⟨4, 3, [1, 2, 3, 6, 2, 4, 7, 13, 0, 0, 1, 1]⟩ =
              .ok (none, ⟨4, 3, [1, 2, 3, 6, 0, 0, 1, 1, 0, 0, 1, 1]⟩) := by decide
          rw [e] at h; cases h; decide
        · have e : Matrix.forwardLoop (2 ^ 127 - 1) 2 0
              ⟨4, 3, [1, 2, 3, 6, 2, 4, 7, 13, 0, 0, 1, 1]⟩ =
              .ok (none, ⟨4, 3, [1, 2, 3, 6, 0, 0, 1, 1, 0, 0, 1, 1]⟩) := by decide
          rw [e] at h; cases h; decide
        · have e : Matrix.forwardLoop (2 ^ 127 - 1) 3 0
              ⟨4, 3, [1, 2, 3, 6, 2, 4, 7, 13, 0, 0, 1, 1]⟩ =
              .ok (none, ⟨4, 3, [1, 2, 3, 6, 0, 0, 1, 1, 0, 0, 1, 1]⟩) := by decide
          rw [e] at h; cases h; decide)
  have h2' : Matrix.Reduce (2 ^ 127 - 1) ⟨4, 3, [1, 2, 3, 6, 2, 4, 7, 13, 0, 0, 1, 1]⟩ =
      .ok (none, ⟨4, 3, [1, 2, 0, 3, 0, 0, 0, 0, 0, 0, 1, 1]⟩) := by decide
  have hm2 : m2 = ⟨4, 3, [1, 2, 0, 3, 0, 0, 0, 0, 0, 0, 1, 1]⟩ := by
    rw [h2'] at h2; cases h2; rfl
  exact ⟨m1, m2, h1, h2, by rw [hm2]; decide, h3, h5 (by decide)⟩

end Conflux
